import Mathlib

/-!
# Verification of the elizadb storage engine

A shallow embedding of the elizadb key→tag-set store (Rust sources:
`smallset.rs`, `doublemap.rs`, `storage.rs`, `query.rs`, `serde.rs`) together
with proofs about the embedded operations.

Conventions of the embedding:
* machine integers (`u8`, `u64`, `usize`) become `Nat`; wrapping casts keep an
  explicit `% 256`;
* a `Smallset<SIZE>` backing array becomes a `List Nat` of length `SIZE`;
* Rust `HashMap`s become association lists; `insert` replaces an existing
  binding in place or appends a fresh one, matching map semantics (iteration
  order of the model is the insertion order);
* Rust `HashSet<u8>` becomes a duplicate-free `List Nat` (insertion order);
* fallible operations return `Option`/`Except`; a Rust panic (`unwrap` on
  `None`, out-of-bounds indexing) is modelled by an `Option` layer returning
  `none`.
-/

namespace ElizaDB

/-! ## Smallset (`smallset.rs`)

The backing storage is a byte array of length `SIZE`; the model carries it as
a `List Nat` whose length plays the role of the `SIZE` const generic.
-/

namespace Smallset

/-- `EMPTY_SLOT` sentinel (`pub const EMPTY_SLOT: u8 = 0`). -/
def EMPTY_SLOT : Nat := 0

/-- `TOMBSTONE` sentinel (`pub const TOMBSTONE: u8 = 0xff`). -/
def TOMBSTONE : Nat := 255

/-- `SmallsetItem::try_from` accepts every `u8` except the two sentinels. -/
def ValidItem (d : Nat) : Prop := d ≠ EMPTY_SLOT ∧ d ≠ TOMBSTONE ∧ d < 256

instance (d : Nat) : Decidable (ValidItem d) := by
  unfold ValidItem; infer_instance

/-- `fn hash(data: u8) -> usize { data as usize % SIZE }` -/
def hash (size d : Nat) : Nat := d % size

/-- `fn probe(previous_index: usize) -> usize { (previous_index + 1) % SIZE }` -/
def probe (size p : Nat) : Nat := (p + 1) % size

/-- The probe loop of `Smallset::contains`: walk from `pos` for at most `fuel`
(= `SIZE`) attempts; success on an exact match, failure on `EMPTY_SLOT`. -/
def containsAux (l : List Nat) (d : Nat) : Nat → Nat → Bool
  | _, 0 => false
  | pos, fuel + 1 =>
    let v := l.getD pos 0
    if v = d then true
    else if v = EMPTY_SLOT then false
    else containsAux l d (probe l.length pos) fuel

/-- `Smallset::contains`. -/
def contains (l : List Nat) (d : Nat) : Bool :=
  containsAux l d (hash l.length d) l.length

/-- The probe loop shared by `Smallset::locate_slot_mut` and
`Smallset::locate_insertion_slot` (their bodies are identical): walk from
`pos`, stopping at a slot that holds `d`, `EMPTY_SLOT` or `TOMBSTONE`. -/
def locateAux (l : List Nat) (d : Nat) : Nat → Nat → Option Nat
  | _, 0 => none
  | pos, fuel + 1 =>
    let v := l.getD pos 0
    if v = d ∨ v = EMPTY_SLOT ∨ v = TOMBSTONE then some pos
    else locateAux l d (probe l.length pos) fuel

/-- `Smallset::locate_slot_mut` / `locate_insertion_slot`, returning the slot
index (`None` if the map is full). -/
def locate (l : List Nat) (d : Nat) : Option Nat :=
  locateAux l d (hash l.length d) l.length

/-- `Smallset::insert`: `Ok(bool)` says whether the value is new; `Err`
(modelled as `none`, the Rust error payload is the rejected byte) means the
set is full. -/
def insert (l : List Nat) (d : Nat) : Option (List Nat × Bool) :=
  match locate l d with
  | none => none
  | some p => if l.getD p 0 = d then some (l, false) else some (l.set p d, true)

/-- `Smallset::remove`: returns the updated array and whether the value was
present; a vacated slot becomes `EMPTY_SLOT` when the next probe slot is
empty, `TOMBSTONE` otherwise. -/
def remove (l : List Nat) (d : Nat) : List Nat × Bool :=
  match locate l d with
  | none => (l, false)
  | some p =>
    let v := l.getD p 0
    if v = EMPTY_SLOT ∨ v = TOMBSTONE then (l, false)
    else
      let next := probe l.length p
      (l.set p (if l.getD next 0 = EMPTY_SLOT then EMPTY_SLOT else TOMBSTONE), true)

/-- `Smallset::new_empty`. -/
def newEmpty (size : Nat) : List Nat := List.replicate size EMPTY_SLOT

/-- `Smallset::size`: count of slots that are neither empty nor tombstones. -/
def size (l : List Nat) : Nat :=
  (l.filter (fun v => !(v == EMPTY_SLOT) && !(v == TOMBSTONE))).length

/-- `Smallset::iter`: the stored items in slot order. -/
def iterElems (l : List Nat) : List Nat :=
  l.filter (fun v => !(v == EMPTY_SLOT) && !(v == TOMBSTONE))

end Smallset

end ElizaDB

namespace ElizaDB.Smallset

/-! ### Probe-walk characterizations

The probe sequence starting at `pos` visits `(pos + j) % l.length` at step
`j`.  The following lemmas characterize the two loops of `smallset.rs` in
terms of that sequence.
-/

theorem probe_lt {n : Nat} (hn : 0 < n) (p : Nat) : probe n p < n :=
  Nat.mod_lt _ hn

theorem step_succ (n pos j : Nat) :
    ((pos + 1) % n + j) % n = (pos + (j + 1)) % n := by
  rw [Nat.mod_add_mod]
  congr 1
  omega

theorem walk_inj {n : Nat} (h : Nat) {i j : Nat} (hi : i < n) (hj : j < n)
    (heq : (h + i) % n = (h + j) % n) : i = j := by
  have hmod : i % n = j % n := Nat.ModEq.add_left_cancel' h heq
  rwa [Nat.mod_eq_of_lt hi, Nat.mod_eq_of_lt hj] at hmod

theorem walk_surj {n : Nat} (hn : 0 < n) (h q : Nat) (hq : q < n) :
    ∃ j < n, (h + j) % n = q := by
  refine ⟨(q + n - h % n) % n, Nat.mod_lt _ hn, ?_⟩
  have ha : h % n < n := Nat.mod_lt _ hn
  calc (h + (q + n - h % n) % n) % n
      = (h + (q + n - h % n)) % n := Nat.add_mod_mod _ _ _
    _ = (h % n + (q + n - h % n)) % n := by rw [Nat.mod_add_mod]
    _ = (q + n) % n := by rw [Nat.add_sub_cancel' (by omega : h % n ≤ q + n)]
    _ = q := by rw [Nat.add_mod_right, Nat.mod_eq_of_lt hq]

theorem containsAux_true_iff (l : List Nat) (d : Nat) :
    ∀ pos fuel, pos < l.length →
      (containsAux l d pos fuel = true ↔
        ∃ j < fuel, l.getD ((pos + j) % l.length) 0 = d ∧
          ∀ i < j, l.getD ((pos + i) % l.length) 0 ≠ d ∧
            l.getD ((pos + i) % l.length) 0 ≠ 0) := by
  intro pos fuel
  induction fuel generalizing pos with
  | zero =>
    intro _
    simp [containsAux]
  | succ fuel ih =>
    intro hpos
    have hn : 0 < l.length := by omega
    have hpos0 : (pos + 0) % l.length = pos := by
      rw [Nat.add_zero, Nat.mod_eq_of_lt hpos]
    have hunfold : containsAux l d pos (fuel + 1) =
        (if l.getD pos 0 = d then true
         else if l.getD pos 0 = EMPTY_SLOT then false
         else containsAux l d (probe l.length pos) fuel) := rfl
    rw [hunfold]
    by_cases hd : l.getD pos 0 = d
    · rw [if_pos hd]
      constructor
      · intro _
        exact ⟨0, Nat.succ_pos _, by rwa [hpos0], by omega⟩
      · intro _; rfl
    · rw [if_neg hd]
      by_cases he : l.getD pos 0 = 0
      · rw [if_pos (by simpa [EMPTY_SLOT] using he)]
        constructor
        · intro hfalse; cases hfalse
        · rintro ⟨j, _, hhit, hpass⟩
          rcases Nat.eq_zero_or_pos j with rfl | hj
          · rw [hpos0] at hhit; exact absurd hhit hd
          · have h0 := (hpass 0 hj).2
            rw [hpos0] at h0
            exact absurd he h0
      · rw [if_neg (by simpa [EMPTY_SLOT] using he)]
        rw [ih (probe l.length pos) (probe_lt hn pos)]
        constructor
        · rintro ⟨j, hj, hhit, hpass⟩
          refine ⟨j + 1, Nat.succ_lt_succ hj, ?_, ?_⟩
          · rwa [probe, step_succ] at hhit
          · intro i hi
            rcases Nat.eq_zero_or_pos i with rfl | hipos
            · rw [hpos0]; exact ⟨hd, he⟩
            · obtain ⟨i', rfl⟩ := Nat.exists_eq_succ_of_ne_zero (Nat.pos_iff_ne_zero.mp hipos)
              have := hpass i' (by omega)
              rwa [probe, step_succ] at this
        · rintro ⟨j, hj, hhit, hpass⟩
          rcases Nat.eq_zero_or_pos j with rfl | hjpos
          · rw [hpos0] at hhit; exact absurd hhit hd
          · obtain ⟨j', rfl⟩ := Nat.exists_eq_succ_of_ne_zero (Nat.pos_iff_ne_zero.mp hjpos)
            refine ⟨j', by omega, ?_, ?_⟩
            · rwa [probe, step_succ]
            · intro i hi
              have := hpass (i + 1) (by omega)
              rwa [probe, step_succ]

theorem locateAux_eq_some_iff (l : List Nat) (d : Nat) :
    ∀ pos fuel q, pos < l.length →
      (locateAux l d pos fuel = some q ↔
        ∃ j < fuel, q = (pos + j) % l.length ∧
          (l.getD q 0 = d ∨ l.getD q 0 = 0 ∨ l.getD q 0 = 255) ∧
          ∀ i < j, l.getD ((pos + i) % l.length) 0 ≠ d ∧
            l.getD ((pos + i) % l.length) 0 ≠ 0 ∧
            l.getD ((pos + i) % l.length) 0 ≠ 255) := by
  intro pos fuel
  induction fuel generalizing pos with
  | zero =>
    intro q _
    simp [locateAux]
  | succ fuel ih =>
    intro q hpos
    have hn : 0 < l.length := by omega
    have hpos0 : (pos + 0) % l.length = pos := by
      rw [Nat.add_zero, Nat.mod_eq_of_lt hpos]
    have hunfold : locateAux l d pos (fuel + 1) =
        (if l.getD pos 0 = d ∨ l.getD pos 0 = EMPTY_SLOT ∨ l.getD pos 0 = TOMBSTONE
         then some pos
         else locateAux l d (probe l.length pos) fuel) := rfl
    rw [hunfold]
    by_cases hstop : l.getD pos 0 = d ∨ l.getD pos 0 = EMPTY_SLOT ∨
        l.getD pos 0 = TOMBSTONE
    · rw [if_pos hstop]
      rw [Option.some_inj]
      constructor
      · rintro rfl
        exact ⟨0, Nat.succ_pos _, by rw [hpos0], by simpa [EMPTY_SLOT, TOMBSTONE] using hstop,
          by omega⟩
      · rintro ⟨j, hj, rfl, _, hpass⟩
        rcases Nat.eq_zero_or_pos j with rfl | hjpos
        · rw [hpos0]
        · have h0 := hpass 0 hjpos
          rw [hpos0] at h0
          simp only [EMPTY_SLOT, TOMBSTONE] at hstop
          tauto
    · rw [if_neg hstop]
      rw [ih (probe l.length pos) q (probe_lt hn pos)]
      simp only [EMPTY_SLOT, TOMBSTONE] at hstop
      push_neg at hstop
      constructor
      · rintro ⟨j, hj, rfl, hhit, hpass⟩
        refine ⟨j + 1, Nat.succ_lt_succ hj, by rw [probe, step_succ], hhit, ?_⟩
        intro i hi
        rcases Nat.eq_zero_or_pos i with rfl | hipos
        · rw [hpos0]; exact hstop
        · obtain ⟨i', rfl⟩ := Nat.exists_eq_succ_of_ne_zero (Nat.pos_iff_ne_zero.mp hipos)
          have := hpass i' (by omega)
          rwa [probe, step_succ] at this
      · rintro ⟨j, hj, rfl, hhit, hpass⟩
        rcases Nat.eq_zero_or_pos j with rfl | hjpos
        · rw [hpos0] at hhit; tauto
        · obtain ⟨j', rfl⟩ := Nat.exists_eq_succ_of_ne_zero (Nat.pos_iff_ne_zero.mp hjpos)
          refine ⟨j', by omega, by rw [probe, step_succ], hhit, ?_⟩
          intro i hi
          have := hpass (i + 1) (by omega)
          rwa [probe, step_succ]

theorem locateAux_eq_none_iff (l : List Nat) (d : Nat) :
    ∀ pos fuel, pos < l.length →
      (locateAux l d pos fuel = none ↔
        ∀ j < fuel, l.getD ((pos + j) % l.length) 0 ≠ d ∧
          l.getD ((pos + j) % l.length) 0 ≠ 0 ∧
          l.getD ((pos + j) % l.length) 0 ≠ 255) := by
  intro pos fuel
  induction fuel generalizing pos with
  | zero =>
    intro _
    simp [locateAux]
  | succ fuel ih =>
    intro hpos
    have hn : 0 < l.length := by omega
    have hpos0 : (pos + 0) % l.length = pos := by
      rw [Nat.add_zero, Nat.mod_eq_of_lt hpos]
    have hunfold : locateAux l d pos (fuel + 1) =
        (if l.getD pos 0 = d ∨ l.getD pos 0 = EMPTY_SLOT ∨ l.getD pos 0 = TOMBSTONE
         then some pos
         else locateAux l d (probe l.length pos) fuel) := rfl
    rw [hunfold]
    by_cases hstop : l.getD pos 0 = d ∨ l.getD pos 0 = EMPTY_SLOT ∨
        l.getD pos 0 = TOMBSTONE
    · rw [if_pos hstop]
      simp only [EMPTY_SLOT, TOMBSTONE] at hstop
      constructor
      · intro hfalse; cases hfalse
      · intro hall
        have h0 := hall 0 (Nat.succ_pos _)
        rw [hpos0] at h0
        tauto
    · rw [if_neg hstop]
      rw [ih (probe l.length pos) (probe_lt hn pos)]
      simp only [EMPTY_SLOT, TOMBSTONE] at hstop
      push_neg at hstop
      constructor
      · intro hall j hj
        rcases Nat.eq_zero_or_pos j with rfl | hjpos
        · rw [hpos0]; exact hstop
        · obtain ⟨j', rfl⟩ := Nat.exists_eq_succ_of_ne_zero (Nat.pos_iff_ne_zero.mp hjpos)
          have := hall j' (by omega)
          rwa [probe, step_succ] at this
      · intro hall j hj
        have := hall (j + 1) (by omega)
        rwa [probe, step_succ]

/-! ### Structural invariants of a backing array

`tombFree` says no slot holds the `TOMBSTONE` sentinel; `Findable` says every
stored value can be reached from its hash slot without crossing an empty
slot; `NoDups` says no value occupies two slots.  All three hold for every
array built by insertions alone, which is the only way the `Database` layer
ever writes a `Smallset`.
-/

def tombFree (l : List Nat) : Prop := ∀ v ∈ l, v ≠ TOMBSTONE

def Findable (l : List Nat) : Prop :=
  ∀ p < l.length, l.getD p 0 ≠ 0 →
    ∃ j < l.length, (hash l.length (l.getD p 0) + j) % l.length = p ∧
      ∀ i < j, l.getD ((hash l.length (l.getD p 0) + i) % l.length) 0 ≠ 0

def NoDups (l : List Nat) : Prop := ∀ v ∈ l, v ≠ 0 → List.count v l ≤ 1

def SetInv (l : List Nat) : Prop := tombFree l ∧ Findable l ∧ NoDups l

instance (l : List Nat) : Decidable (tombFree l) := by
  unfold tombFree; infer_instance

instance (l : List Nat) : Decidable (Findable l) := by
  unfold Findable; infer_instance

instance (l : List Nat) : Decidable (NoDups l) := by
  unfold NoDups; infer_instance

instance (l : List Nat) : Decidable (SetInv l) := by
  unfold SetInv; infer_instance

theorem getD_eq_getElem {l : List Nat} {p : Nat} (h : p < l.length) :
    l.getD p 0 = l[p] := by
  rw [List.getD_eq_getElem?_getD, List.getElem?_eq_getElem h, Option.getD_some]

theorem getD_eq_zero_of_le {l : List Nat} {p : Nat} (h : l.length ≤ p) :
    l.getD p 0 = 0 := by
  rw [List.getD_eq_getElem?_getD, List.getElem?_eq_none h, Option.getD_none]

theorem getD_mem {l : List Nat} {p : Nat} (h : p < l.length) : l.getD p 0 ∈ l := by
  rw [getD_eq_getElem h]; exact List.getElem_mem h

theorem exists_getD_of_mem {l : List Nat} {v : Nat} (h : v ∈ l) :
    ∃ p < l.length, l.getD p 0 = v := by
  obtain ⟨p, hp, hv⟩ := List.mem_iff_getElem.mp h
  exact ⟨p, hp, by rw [getD_eq_getElem hp, hv]⟩

theorem getD_set_self {l : List Nat} {q : Nat} {d : Nat} (h : q < l.length) :
    (l.set q d).getD q 0 = d := by
  rw [List.getD_eq_getElem?_getD, List.getElem?_set_self h, Option.getD_some]

theorem getD_set_ne {l : List Nat} {p q : Nat} {d : Nat} (h : q ≠ p) :
    (l.set q d).getD p 0 = l.getD p 0 := by
  rw [List.getD_eq_getElem?_getD, List.getElem?_set_ne h, ← List.getD_eq_getElem?_getD]

theorem tombFree_getD {l : List Nat} (h : tombFree l) (p : Nat) :
    l.getD p 0 ≠ 255 := by
  rcases Nat.lt_or_ge p l.length with hp | hp
  · exact h _ (getD_mem hp)
  · rw [getD_eq_zero_of_le hp]; omega

theorem contains_true_iff {l : List Nat} {d : Nat} (hn : 0 < l.length) :
    contains l d = true ↔
      ∃ j < l.length, l.getD ((hash l.length d + j) % l.length) 0 = d ∧
        ∀ i < j, l.getD ((hash l.length d + i) % l.length) 0 ≠ d ∧
          l.getD ((hash l.length d + i) % l.length) 0 ≠ 0 :=
  containsAux_true_iff l d _ _ (Nat.mod_lt _ hn)

theorem locate_eq_some_iff {l : List Nat} {d q : Nat} (hn : 0 < l.length) :
    locate l d = some q ↔
      ∃ j < l.length, q = (hash l.length d + j) % l.length ∧
        (l.getD q 0 = d ∨ l.getD q 0 = 0 ∨ l.getD q 0 = 255) ∧
        ∀ i < j, l.getD ((hash l.length d + i) % l.length) 0 ≠ d ∧
          l.getD ((hash l.length d + i) % l.length) 0 ≠ 0 ∧
          l.getD ((hash l.length d + i) % l.length) 0 ≠ 255 :=
  locateAux_eq_some_iff l d _ _ _ (Nat.mod_lt _ hn)

theorem locate_eq_none_iff {l : List Nat} {d : Nat} (hn : 0 < l.length) :
    locate l d = none ↔
      ∀ p < l.length, l.getD p 0 ≠ d ∧ l.getD p 0 ≠ 0 ∧ l.getD p 0 ≠ 255 := by
  unfold locate
  rw [locateAux_eq_none_iff l d (hash l.length d) l.length (Nat.mod_lt _ hn)]
  constructor
  · intro hall p hp
    obtain ⟨j, hj, hstep⟩ := walk_surj hn (hash l.length d) p hp
    have := hall j hj
    rwa [hstep] at this
  · intro hall j _
    exact hall _ (Nat.mod_lt _ hn)

/-- In a tombstone-free array, the locate loop finds the slot holding `d`
exactly when `contains` reports `d` present. -/
theorem locate_value_iff_contains {l : List Nat} {d : Nat} (hn : 0 < l.length)
    (htf : tombFree l) :
    (∃ q, locate l d = some q ∧ l.getD q 0 = d) ↔ contains l d = true := by
  constructor
  · rintro ⟨q, hloc, hval⟩
    obtain ⟨j, hj, rfl, _, hpass⟩ := (locate_eq_some_iff hn).mp hloc
    exact (contains_true_iff hn).mpr ⟨j, hj, hval, fun i hi => ⟨(hpass i hi).1, (hpass i hi).2.1⟩⟩
  · intro hc
    obtain ⟨j, hj, hhit, hpass⟩ := (contains_true_iff hn).mp hc
    refine ⟨(hash l.length d + j) % l.length, ?_, hhit⟩
    exact (locate_eq_some_iff hn).mpr ⟨j, hj, rfl, Or.inl hhit,
      fun i hi => ⟨(hpass i hi).1, (hpass i hi).2, tombFree_getD htf _⟩⟩

/-- C5, first half: in a tombstone-free array an insert of a value that
`contains` reports present is a no-op reporting "already present". -/
theorem insert_of_contains {l : List Nat} {d : Nat} (htf : tombFree l)
    (hc : contains l d = true) : insert l d = some (l, false) := by
  have hn : 0 < l.length := by
    by_contra h
    have h0 : l.length = 0 := by omega
    rw [contains, h0] at hc
    cases hc
  obtain ⟨q, hloc, hval⟩ := (locate_value_iff_contains hn htf).mpr hc
  unfold insert
  rw [hloc]
  show (if l.getD q 0 = d then some (l, false) else some (l.set q d, true)) =
    some (l, false)
  rw [if_pos hval]

theorem contains_imp_exists_slot {l : List Nat} {d : Nat}
    (hc : contains l d = true) : ∃ q < l.length, l.getD q 0 = d := by
  have hn : 0 < l.length := by
    by_contra h
    have h0 : l.length = 0 := by omega
    rw [contains, h0] at hc
    cases hc
  obtain ⟨j, _, hhit, _⟩ := (contains_true_iff hn).mp hc
  exact ⟨_, Nat.mod_lt _ hn, hhit⟩

theorem contains_eq_false_of_not_stored {l : List Nat} {d : Nat}
    (h : ∀ q < l.length, l.getD q 0 ≠ d) : contains l d = false := by
  rcases Nat.eq_zero_or_pos l.length with h0 | hn
  · rw [contains, h0]; rfl
  · rw [← Bool.not_eq_true]
    intro hc
    obtain ⟨q, hq, hval⟩ := contains_imp_exists_slot hc
    exact h q hq hval

/-- In a findable, tombstone-free array every stored value is reported by
`contains`. -/
theorem contains_of_stored {l : List Nat} {d : Nat} (hn : 0 < l.length)
    (hf : Findable l) {q : Nat} (hq : q < l.length) (hval : l.getD q 0 = d)
    (hd : d ≠ 0) : contains l d = true := by
  obtain ⟨j0, hj0, hstep, hpass⟩ := hf q hq (by rw [hval]; exact hd)
  rw [hval] at hstep hpass
  have hex : ∃ j, l.getD ((hash l.length d + j) % l.length) 0 = d ∨
      l.getD ((hash l.length d + j) % l.length) 0 = 0 := by
    exact ⟨j0, Or.inl (by rw [hstep, hval])⟩
  classical
  have hspec := Nat.find_spec hex
  have hle : Nat.find hex ≤ j0 := Nat.find_min' hex (Or.inl (by rw [hstep, hval]))
  have hhit : l.getD ((hash l.length d + Nat.find hex) % l.length) 0 = d := by
    rcases hspec with h | h
    · exact h
    · rcases Nat.lt_or_ge (Nat.find hex) j0 with hlt | hge
      · exact absurd h (hpass _ hlt)
      · have heq : Nat.find hex = j0 := by omega
        rw [heq, hstep, hval] at h
        exact absurd h hd
  refine (contains_true_iff hn).mpr ⟨Nat.find hex, by omega, hhit, ?_⟩
  intro i hi
  have := Nat.find_min hex hi
  push_neg at this
  exact this

/-- `contains` agrees with list membership on valid items in an array
satisfying the insert-only invariants. -/
theorem contains_iff_mem {l : List Nat} {d : Nat} (hn : 0 < l.length)
    (hinv : SetInv l) (hd : ValidItem d) : (contains l d = true ↔ d ∈ l) := by
  obtain ⟨htf, hf, _⟩ := hinv
  constructor
  · intro hc
    obtain ⟨q, hq, hval⟩ := contains_imp_exists_slot hc
    rw [← hval]
    exact getD_mem hq
  · intro hmem
    obtain ⟨q, hq, hval⟩ := exists_getD_of_mem hmem
    exact contains_of_stored hn hf hq hval hd.1

theorem count_set {l : List Nat} :
    ∀ (q : Nat), q < l.length → ∀ s v : Nat,
      List.count v (l.set q s) + (if l.getD q 0 = v then 1 else 0) =
        List.count v l + (if s = v then 1 else 0) := by
  induction l with
  | nil => intro q hq; cases hq
  | cons a t ih =>
    intro q hq s v
    cases q with
    | zero =>
      have hget : (a :: t).getD 0 0 = a := rfl
      rw [hget]
      show List.count v (s :: t) + _ = _
      rw [List.count_cons, List.count_cons]
      by_cases hav : a = v <;> by_cases hsv : s = v <;>
        simp [hav, hsv]
    | succ q' =>
      have hq' : q' < t.length := by simpa using hq
      have hget : (a :: t).getD (q' + 1) 0 = t.getD q' 0 := rfl
      rw [hget]
      show List.count v (a :: t.set q' s) + _ = _
      rw [List.count_cons, List.count_cons]
      have := ih q' hq' s v
      omega

theorem count_eq_one_of_stored {l : List Nat} {q d : Nat} (hq : q < l.length)
    (hval : l.getD q 0 = d) (hd : d ≠ 0) (hnd : NoDups l) :
    List.count d l = 1 := by
  have hmem : d ∈ l := by rw [← hval]; exact getD_mem hq
  have hle : List.count d l ≤ 1 := hnd d hmem hd
  have hge : 0 < List.count d l := List.count_pos_iff.mpr hmem
  omega

theorem insert_eq_none_iff {l : List Nat} {d : Nat} (hn : 0 < l.length) :
    insert l d = none ↔
      ∀ p < l.length, l.getD p 0 ≠ d ∧ l.getD p 0 ≠ 0 ∧ l.getD p 0 ≠ 255 := by
  rw [← locate_eq_none_iff hn]
  constructor
  · intro hins
    cases hloc : locate l d with
    | none => rfl
    | some p =>
      exfalso
      unfold insert at hins
      rw [hloc] at hins
      have hins' : (if l.getD p 0 = d then some (l, false)
          else some (l.set p d, true)) = none := hins
      by_cases hc : l.getD p 0 = d
      · rw [if_pos hc] at hins'; cases hins'
      · rw [if_neg hc] at hins'; cases hins'
  · intro hloc
    unfold insert
    rw [hloc]

/-- Main soundness lemma for `Smallset::insert` on arrays satisfying the
insert-only invariants: a non-full insert preserves the invariants, adds
exactly the requested value, and reports "new" exactly when the value was
absent. -/
theorem insert_sound {l : List Nat} {d : Nat} (hn : 0 < l.length)
    (hinv : SetInv l) (hd : ValidItem d) (hne : insert l d ≠ none) :
    ∃ l' b, insert l d = some (l', b) ∧ SetInv l' ∧ l'.length = l.length ∧
      (∀ v, v ≠ 0 → (v ∈ l' ↔ v ∈ l ∨ v = d)) ∧ (b = true ↔ d ∉ l) ∧
      (b = false → l' = l) := by
  obtain ⟨htf, hf, hnd⟩ := hinv
  by_cases hmem : d ∈ l
  · have hc : contains l d = true :=
      (contains_iff_mem hn ⟨htf, hf, hnd⟩ hd).mpr hmem
    refine ⟨l, false, insert_of_contains htf hc, ⟨htf, hf, hnd⟩, rfl, ?_, ?_, fun _ => rfl⟩
    · intro v _
      constructor
      · exact Or.inl
      · rintro (hv | rfl)
        · exact hv
        · exact hmem
    · constructor
      · intro hfalse; cases hfalse
      · intro habs; exact absurd hmem habs
  · -- the value is not stored; the located slot must be empty
    cases hloc : locate l d with
    | none =>
      exact absurd (by unfold insert; rw [hloc]) hne
    | some q =>
      obtain ⟨j, hj, hqe, hqv, hpass⟩ := (locate_eq_some_iff hn).mp hloc
      have hqlt : q < l.length := by rw [hqe]; exact Nat.mod_lt _ hn
      have hq0 : l.getD q 0 = 0 := by
        rcases hqv with hv | hv | hv
        · exfalso
          apply hmem
          rw [← hv]
          exact getD_mem hqlt
        · exact hv
        · exact absurd hv (tombFree_getD htf q)
      have hinsert : insert l d = some (l.set q d, true) := by
        unfold insert
        rw [hloc]
        show (if l.getD q 0 = d then some (l, false) else some (l.set q d, true)) =
          some (l.set q d, true)
        rw [if_neg (by rw [hq0]; exact fun h => hd.1 h.symm)]
      have hlen : (l.set q d).length = l.length := List.length_set _ _ _
      refine ⟨l.set q d, true, hinsert, ⟨?_, ?_, ?_⟩, hlen, ?_, ?_, ?_⟩
      · -- tombFree
        intro v hv
        rcases List.mem_or_eq_of_mem_set hv with h | rfl
        · exact htf v h
        · exact hd.2.1
      · -- Findable
        intro p hp hpv
        simp only [hlen] at hp ⊢
        by_cases hpq : p = q
        · subst hpq
          rw [getD_set_self hqlt] at hpv ⊢
          refine ⟨j, hj, hqe.symm, ?_⟩
          intro i hi
          have hstepne : (hash l.length d + i) % l.length ≠ p := by
            rw [hqe]
            intro heq
            exact absurd (walk_inj (hash l.length d) (by omega) hj heq) (by omega)
          rw [getD_set_ne (fun h => hstepne h.symm)]
          exact (hpass i hi).2.1
        · rw [getD_set_ne (fun h => hpq h.symm)] at hpv ⊢
          obtain ⟨j0, hj0, hstep, hpass0⟩ := hf p hp hpv
          refine ⟨j0, hj0, hstep, ?_⟩
          intro i hi
          have hstepne : (hash l.length (l.getD p 0) + i) % l.length ≠ q := by
            intro heq
            have := hpass0 i hi
            rw [heq] at this
            exact this hq0
          rw [getD_set_ne (fun h => hstepne h.symm)]
          exact hpass0 i hi
      · -- NoDups
        intro v hv hv0
        have hcnt := count_set q hqlt d v
        rw [hq0, if_neg (fun h : (0 : Nat) = v => hv0 h.symm)] at hcnt
        by_cases hdv : d = v
        · subst hdv
          rw [if_pos rfl] at hcnt
          have h0 : List.count d l = 0 := List.count_eq_zero.mpr hmem
          omega
        · rw [if_neg hdv] at hcnt
          rcases List.mem_or_eq_of_mem_set hv with h | rfl
          · have := hnd v h hv0
            omega
          · exact absurd rfl hdv
      · -- membership update
        intro v hv0
        constructor
        · intro hv
          rcases List.mem_or_eq_of_mem_set hv with h | rfl
          · exact Or.inl h
          · exact Or.inr rfl
        · rintro (hv | hvd)
          · obtain ⟨p, hp, hpval⟩ := exists_getD_of_mem hv
            have hpq : p ≠ q := by
              intro heq
              rw [heq, hq0] at hpval
              exact hv0 hpval.symm
            have : (l.set q d).getD p 0 = v := by
              rw [getD_set_ne (fun h => hpq h.symm)]; exact hpval
            rw [← this]
            exact getD_mem (by rw [hlen]; exact hp)
          · rw [hvd]
            have hq' : q < (l.set q d).length := by rw [hlen]; exact hqlt
            exact List.mem_iff_getElem.mpr ⟨q, hq', List.getElem_set_self hq'⟩
      · exact ⟨fun _ => hmem, fun _ => rfl⟩
      · intro hfalse; cases hfalse

/-- Under `NoDups`, a nonzero value cannot occupy two distinct slots. -/
theorem slot_unique {l : List Nat} {p q d : Nat} (hnd : NoDups l) (hd : d ≠ 0)
    (hp : p < l.length) (hq : q < l.length) (hvp : l.getD p 0 = d)
    (hvq : l.getD q 0 = d) : p = q := by
  by_contra hpq
  have hcnt := count_set p hp 0 d
  rw [hvp, if_pos rfl, if_neg (fun h : (0 : Nat) = d => hd h.symm)] at hcnt
  have hle : List.count d l ≤ 1 := hnd d (by rw [← hvp]; exact getD_mem hp) hd
  have hzero : List.count d (l.set p 0) = 0 := by omega
  have hmem : d ∈ l.set p 0 := by
    have : (l.set p 0).getD q 0 = d := by
      rw [getD_set_ne (fun h => hpq h)]
      exact hvq
    rw [← this]
    exact getD_mem (by rw [List.length_set]; exact hq)
  rw [List.count_eq_zero.mpr] at hzero
  · exact absurd hmem (List.count_eq_zero.mp (by omega))
  · intro habs
    exact absurd hmem (fun _ => by
      have := List.count_pos_iff.mpr habs
      omega)

/-- Replacing one slot by another value that is equally invisible to the
probe walk for `w` leaves `contains w` unchanged. -/
theorem containsAux_congr {l l' : List Nat} {q w : Nat}
    (hlen : l'.length = l.length)
    (hoff : ∀ p, p ≠ q → l'.getD p 0 = l.getD p 0)
    (hold : l.getD q 0 ≠ w ∧ l.getD q 0 ≠ 0)
    (hnew : l'.getD q 0 ≠ w ∧ l'.getD q 0 ≠ 0) :
    ∀ fuel pos, containsAux l' w pos fuel = containsAux l w pos fuel := by
  intro fuel
  induction fuel with
  | zero => intro pos; rfl
  | succ fuel ih =>
    intro pos
    have hv : containsAux l' w pos (fuel + 1) =
        (if l'.getD pos 0 = w then true
         else if l'.getD pos 0 = EMPTY_SLOT then false
         else containsAux l' w (probe l'.length pos) fuel) := rfl
    have hv' : containsAux l w pos (fuel + 1) =
        (if l.getD pos 0 = w then true
         else if l.getD pos 0 = EMPTY_SLOT then false
         else containsAux l w (probe l.length pos) fuel) := rfl
    rw [hv, hv', hlen]
    by_cases hpq : pos = q
    · subst hpq
      rw [if_neg hnew.1, if_neg hold.1,
        if_neg (by simpa [EMPTY_SLOT] using hnew.2),
        if_neg (by simpa [EMPTY_SLOT] using hold.2)]
      exact ih _
    · rw [hoff pos hpq]
      by_cases hw : l.getD pos 0 = w
      · rw [if_pos hw, if_pos hw]
      · rw [if_neg hw, if_neg hw]
        by_cases h0 : l.getD pos 0 = EMPTY_SLOT
        · rw [if_pos h0, if_pos h0]
        · rw [if_neg h0, if_neg h0]
          exact ih _

/-- Soundness of `Smallset::remove` on tombstone-free, duplicate-free arrays:
the returned flag agrees with `contains`, and a successful removal erases
exactly the requested value. -/
theorem remove_sound {l : List Nat} {d : Nat} (hn : 0 < l.length)
    (htf : tombFree l) (hnd : NoDups l) (hd : ValidItem d) :
    ((remove l d).2 = contains l d) ∧
      (contains l d = true →
        contains (remove l d).1 d = false ∧
        ∀ w, ValidItem w → w ≠ d → contains (remove l d).1 w = contains l w) := by
  cases hloc : locate l d with
  | none =>
    have hall := (locate_eq_none_iff hn).mp hloc
    have hcf : contains l d = false :=
      contains_eq_false_of_not_stored (fun q hq => (hall q hq).1)
    have hrem : remove l d = (l, false) := by
      unfold remove; rw [hloc]
    rw [hrem, hcf]
    exact ⟨rfl, fun habs => by cases habs⟩
  | some q =>
    obtain ⟨j, hj, hqe, hqv, hpass⟩ := (locate_eq_some_iff hn).mp hloc
    have hqlt : q < l.length := by rw [hqe]; exact Nat.mod_lt _ hn
    have hq255 : l.getD q 0 ≠ 255 := tombFree_getD htf q
    rcases hqv with hval | hval | hval
    · -- located the stored value: removal succeeds
      have hc : contains l d = true :=
        (locate_value_iff_contains hn htf).mp ⟨q, hloc, hval⟩
      have hnot : ¬(l.getD q 0 = EMPTY_SLOT ∨ l.getD q 0 = TOMBSTONE) := by
        rw [hval]
        simp only [EMPTY_SLOT, TOMBSTONE]
        push_neg
        exact ⟨hd.1, hd.2.1⟩
      have hrem : remove l d =
          (l.set q (if l.getD (probe l.length q) 0 = EMPTY_SLOT then EMPTY_SLOT
            else TOMBSTONE), true) := by
        unfold remove
        rw [hloc]
        show (if l.getD q 0 = EMPTY_SLOT ∨ l.getD q 0 = TOMBSTONE then (l, false)
          else (l.set q (if l.getD (probe l.length q) 0 = EMPTY_SLOT then EMPTY_SLOT
            else TOMBSTONE), true)) = _
        rw [if_neg hnot]
      rw [hrem, hc]
      refine ⟨rfl, fun _ => ⟨?_, ?_⟩⟩
      · -- the removed value is gone
        apply contains_eq_false_of_not_stored
        intro p hp
        rw [List.length_set] at hp
        by_cases hpq : p = q
        · rw [hpq, getD_set_self hqlt]
          by_cases hnext : l.getD (probe l.length q) 0 = EMPTY_SLOT
          · rw [if_pos hnext]; simp only [EMPTY_SLOT]; exact fun h => hd.1 h.symm
          · rw [if_neg hnext]; simp only [TOMBSTONE]; exact fun h => hd.2.1 h.symm
        · rw [getD_set_ne (fun h => hpq h.symm)]
          intro habs
          exact hpq (slot_unique hnd hd.1 hp hqlt habs hval)
      · -- all other values stay put
        intro w hw hwd
        set s := if l.getD (probe l.length q) 0 = EMPTY_SLOT then EMPTY_SLOT
          else TOMBSTONE with hs
        have hlen : (l.set q s).length = l.length := List.length_set _ _ _
        have hoff : ∀ p, p ≠ q → (l.set q s).getD p 0 = l.getD p 0 :=
          fun p hp => getD_set_ne (fun h => hp h.symm)
        have hold : l.getD q 0 ≠ w ∧ l.getD q 0 ≠ 0 := by
          rw [hval]
          exact ⟨fun h => hwd h.symm, hd.1⟩
        by_cases hnext : l.getD (probe l.length q) 0 = EMPTY_SLOT
        · -- the slot is cleared to empty: the walk for `w` never crosses it
          have hsv : s = 0 := by rw [hs, if_pos hnext]; rfl
          have hnval : (l.set q s).getD q 0 = 0 := by
            rw [getD_set_self hqlt, hsv]
          rcases (Bool.eq_false_or_eq_true (contains l w)).symm with hcw | hcw
          · -- `w` was absent: it still is
            rw [hcw]
            rw [← Bool.not_eq_true]
            intro hcw'
            obtain ⟨jw, hjw, hhit, hpassw⟩ :=
              (containsAux_true_iff _ w _ _ (by
                rw [hlen]; exact Nat.mod_lt _ hn)).mp hcw'
            rw [hlen] at hjw hhit hpassw
            have hnocross : ∀ i ≤ jw, (hash l.length w + i) % l.length ≠ q := by
              intro i hi hstep
              rcases Nat.lt_or_ge i jw with hlt | hge
              · have := (hpassw i hlt).2
                rw [hstep] at this
                exact this hnval
              · have hij : i = jw := by omega
                rw [hij] at hstep
                rw [hstep] at hhit
                rw [hnval] at hhit
                exact hw.1 hhit.symm
            have hhit' : l.getD ((hash l.length w + jw) % l.length) 0 = w := by
              rw [← hoff _ (hnocross jw (Nat.le_refl _))]
              exact hhit
            have hpass' : ∀ i < jw, l.getD ((hash l.length w + i) % l.length) 0 ≠ w ∧
                l.getD ((hash l.length w + i) % l.length) 0 ≠ 0 := by
              intro i hi
              rw [← hoff _ (hnocross i (by omega))]
              exact hpassw i hi
            have : contains l w = true :=
              (contains_true_iff hn).mpr ⟨jw, hjw, hhit', hpass'⟩
            rw [this] at hcw
            cases hcw
          · -- `w` was present: the vacated slot is not on its probe path
            rw [hcw]
            obtain ⟨jw, hjw, hhit, hpassw⟩ := (contains_true_iff hn).mp hcw
            have hnocross : ∀ i ≤ jw, (hash l.length w + i) % l.length ≠ q := by
              intro i hi hstep
              rcases Nat.lt_or_ge i jw with hlt | hge
              · -- the next probe slot after `q` is empty in `l`
                have hnexteq : (hash l.length w + (i + 1)) % l.length =
                    probe l.length q := by
                  rw [probe, ← hstep, Nat.mod_add_mod]
                  congr 1
                rcases Nat.lt_or_ge (i + 1) jw with hlt1 | hge1
                · have := (hpassw (i + 1) hlt1).2
                  rw [hnexteq] at this
                  exact this hnext
                · have hij : i + 1 = jw := by omega
                  rw [← hij] at hhit
                  rw [hnexteq] at hhit
                  rw [hnext] at hhit
                  exact hw.1 hhit.symm
              · have hij : i = jw := by omega
                rw [hij] at hstep
                rw [hstep, hval] at hhit
                exact hwd hhit.symm
            apply (containsAux_true_iff _ w _ _ (by
              rw [hlen]; exact Nat.mod_lt _ hn)).mpr
            rw [hlen]
            refine ⟨jw, hjw, ?_, ?_⟩
            · rw [hoff _ (hnocross jw (Nat.le_refl _))]
              exact hhit
            · intro i hi
              rw [hoff _ (hnocross i (by omega))]
              exact hpassw i hi
        · -- the slot becomes a tombstone: invisible to every other walk
          have hsv : s = 255 := by rw [hs, if_neg hnext]; rfl
          have hnew : (l.set q s).getD q 0 ≠ w ∧ (l.set q s).getD q 0 ≠ 0 := by
            rw [getD_set_self hqlt, hsv]
            exact ⟨fun h => hw.2.1 h.symm, by omega⟩
          show contains (l.set q s) w = contains l w
          rw [contains, contains, hlen]
          exact containsAux_congr hlen hoff hold hnew _ _
    · -- located an empty slot: the value is absent and nothing changes
      have hrem : remove l d = (l, false) := by
        unfold remove
        rw [hloc]
        show (if l.getD q 0 = EMPTY_SLOT ∨ l.getD q 0 = TOMBSTONE then (l, false)
          else (l.set q (if l.getD (probe l.length q) 0 = EMPTY_SLOT then EMPTY_SLOT
            else TOMBSTONE), true)) = _
        rw [if_pos (Or.inl (by rw [hval]; rfl))]
      have hcf : contains l d = false := by
        rw [← Bool.not_eq_true]
        intro hc
        obtain ⟨q', hloc', hval'⟩ := (locate_value_iff_contains hn htf).mpr hc
        rw [hloc] at hloc'
        rw [← Option.some_inj.mp hloc', hval] at hval'
        exact hd.1 hval'.symm
      rw [hrem, hcf]
      exact ⟨rfl, fun habs => by cases habs⟩
    · exact absurd hval hq255

example : contains [0, 0, 2, 10, 0, 0, 0, 0] 10 = true := by decide

example : insert (newEmpty 8) 2 = some ([0, 0, 2, 0, 0, 0, 0, 0], true) := by decide

example : remove [0, 0, 2, 10, 0, 0, 0, 0] 2 = ([0, 0, 255, 10, 0, 0, 0, 0], true) := by
  decide

end ElizaDB.Smallset

namespace ElizaDB

/-! ## Association-list model of `HashMap`

`lookupA` is `HashMap::get`; `insertA` is `HashMap::insert` (replace an
existing binding in place, else append).  The model's iteration order is the
insertion order, a deterministic refinement of `HashMap`'s arbitrary order.
-/

def lookupA {α β : Type} [DecidableEq α] : List (α × β) → α → Option β
  | [], _ => none
  | (k', v) :: rest, k => if k' = k then some v else lookupA rest k

def insertA {α β : Type} [DecidableEq α] : List (α × β) → α → β → List (α × β)
  | [], k, v => [(k, v)]
  | (k', v') :: rest, k, v =>
    if k' = k then (k, v) :: rest else (k', v') :: insertA rest k v

/-! ## Database state (`storage.rs`)

`small_storage` in `storage.rs` is a flat `Vec<u8>` read through
`SMALLSIZE`-sized views (`get_view`); `serde.rs` and `query.rs` exchange it
as `Vec<Smallset<SMALLSIZE>>`.  The model uses the per-slot view throughout:
a list of backing arrays, one per inline slot, each of length `n`.
`holes` is the `VecDeque` used with `push_back`/`pop_back` only, modelled as
a list whose last element is the back of the queue.
-/

inductive IndexLocation where
  | Small : Nat → IndexLocation
  | Big : IndexLocation
deriving DecidableEq

structure Database (n : Nat) where
  terms : List (String × Nat)
  index : List (Nat × IndexLocation)
  holes : List Nat
  small_keys : List (Option Nat)
  small_storage : List (List Nat)
  big_storage : List (Nat × List Nat)
deriving DecidableEq

/-- `Database::default()`. -/
def emptyDB (n : Nat) : Database n := ⟨[], [], [], [], [], []⟩

/-- `Database::create_record`: key creation with free-slot reuse; `none`
models the panics (`unwrap`, out-of-bounds slot assignment) that in-bounds
states never hit. -/
def createRecord {n : Nat} (db : Database n) (key : Nat) :
    Option (Database n × Bool) :=
  if (lookupA db.index key).isSome then some (db, false)
  else
    match db.holes.getLast? with
    | some hole =>
      if hole < db.small_keys.length ∧ hole < db.small_storage.length then
        some ({ db with
          index := insertA db.index key (IndexLocation.Small hole),
          holes := db.holes.dropLast,
          small_keys := db.small_keys.set hole (some key),
          small_storage := db.small_storage.set hole (Smallset.newEmpty n) }, true)
      else none
    | none =>
      some ({ db with
        index := insertA db.index key (IndexLocation.Small db.small_storage.length),
        small_keys := db.small_keys ++ [some key],
        small_storage := db.small_storage ++ [Smallset.newEmpty n] }, true)

/-- `Database::add_term`: return an existing id, or assign `1 + len` (`as u8`
wraps mod 256) unless 253 terms already exist.  The trailing
`get_forward(term).unwrap()` of the source is modelled by `getD 0` together
with `lookupA_insertA_self` below, which shows the lookup never misses. -/
def addTerm {n : Nat} (db : Database n) (term : String) :
    Database n × Except Unit Nat :=
  match lookupA db.terms term with
  | some loc => (db, Except.ok loc)
  | none =>
    if db.terms.length = 253 then (db, Except.error ())
    else
      let terms' := insertA db.terms term ((1 + db.terms.length) % 256)
      ({ db with terms := terms' }, Except.ok ((lookupA terms' term).getD 0))

/-- `Database::evict_into_large`: move a key's inline set into big storage,
release the inline slot onto the free-slot queue.  On a key that is absent
from the index, `entry(key).or_insert(Big)` registers the key as `Big` and
the function returns at the `Big` match arm. -/
def evictIntoLarge {n : Nat} (db : Database n) (key : Nat) : Option (Database n) :=
  match lookupA db.index key with
  | none => some { db with index := insertA db.index key IndexLocation.Big }
  | some IndexLocation.Big => some db
  | some (IndexLocation.Small smallIndex) =>
    match db.small_storage.get? smallIndex with
    | none => none
    | some currentState =>
      if smallIndex < db.small_keys.length then
        let bigSet := (lookupA db.big_storage key).getD []
        let bigSet' := currentState.foldl (fun acc item =>
          if item = Smallset.EMPTY_SLOT ∨ item = Smallset.TOMBSTONE then acc
          else if item ∈ acc then acc else acc ++ [item]) bigSet
        some { db with
          big_storage := insertA db.big_storage key bigSet',
          index := insertA db.index key IndexLocation.Big,
          holes := db.holes ++ [smallIndex],
          small_keys := db.small_keys.set smallIndex none }
      else none

/-- The body of `Database::set_flag` with an explicit recursion budget: the
source recurses after `evict_into_large`, and the eviction always leaves the
key in the `Big` tier, so the recursion never goes deeper than one retry. -/
def setFlagAux (n : Nat) :
    Nat → Database n → Nat → String → Option (Database n × Except Unit Bool)
  | 0, _, _, _ => none
  | fuel + 1, db, key, term =>
    match addTerm db term with
    | (db1, Except.error e) => some (db1, Except.error e)
    | (db1, Except.ok termIndex) =>
      match createRecord db1 key with
      | none => none
      | some (db2, _) =>
        match lookupA db2.index key with
        | none => none
        | some (IndexLocation.Small i) =>
          match db2.small_storage.get? i with
          | none => none
          | some st =>
            match Smallset.insert st termIndex with
            | some (st', isNew) =>
              some ({ db2 with small_storage := db2.small_storage.set i st' },
                Except.ok isNew)
            | none =>
              match evictIntoLarge db2 key with
              | none => none
              | some db3 => setFlagAux n fuel db3 key term
        | some IndexLocation.Big =>
          let old := (lookupA db2.big_storage key).getD []
          if termIndex ∈ old then
            some ({ db2 with big_storage := insertA db2.big_storage key old },
              Except.ok false)
          else
            some ({ db2 with
              big_storage := insertA db2.big_storage key (old ++ [termIndex]) },
              Except.ok true)

/-- `Database::set_flag`. -/
def setFlag {n : Nat} (db : Database n) (key : Nat) (term : String) :
    Option (Database n × Except Unit Bool) :=
  setFlagAux n 2 db key term

/-! ## Queries (`query.rs`) -/

/-- `Database::explain_term_id`: backward lookup in the interner
(`DoubleMap::get_backward`). -/
def explainTermId {n : Nat} (db : Database n) (termId : Nat) : Option String :=
  match db.terms.find? (fun p => p.2 == termId) with
  | some p => some p.1
  | none => none

/-- Modelled from the spec: `Database::get_term_id` is called by `query.rs`
and `api.rs` but its definition is not among the provided sources; §4.2
specifies it as `resolve_id(term) → Option<TermId>`, the forward `O(1)`
lookup in the interner. -/
def getTermId {n : Nat} (db : Database n) (term : String) : Option Nat :=
  lookupA db.terms term

/-- `Database::horizontal_query`.  The source collects a `HashSet<&str>`;
the model returns the resolved names in iteration order, so statements about
results are phrased via membership. -/
def horizontalQuery {n : Nat} (db : Database n) (key : Nat) :
    Option (List String) :=
  match lookupA db.index key with
  | none => none
  | some (IndexLocation.Small location) =>
    match db.small_storage.get? location with
    | none => none
    | some set => some ((Smallset.iterElems set).filterMap (explainTermId db))
  | some IndexLocation.Big =>
    match lookupA db.big_storage key with
    | none => none
    | some set => some (set.filterMap (explainTermId db))

inductive Query where
  | Simple : String → Query
  | KofN : List String → Nat → Query

/-- `Database::simple_vertical_query`: scan bound inline slots, then big
storage. -/
def simpleVerticalQuery {n : Nat} (db : Database n) (termId : Nat) : List Nat :=
  ((db.small_keys.zip db.small_storage).filterMap (fun p =>
    match p.1 with
    | none => none
    | some key => if Smallset.contains p.2 termId then some key else none))
  ++ db.big_storage.filterMap (fun p =>
    if termId ∈ p.2 then some p.1 else none)

/-- The per-key counting loop of `Database::k_of_n_query`: bump `total` on a
match, return as soon as `total >= bound`. -/
def kofnLoop (check : Nat → Bool) (bound : Nat) : List Nat → Nat → Bool
  | [], _ => false
  | item :: rest, total =>
    let total' := if check item then total + 1 else total
    if bound ≤ total' then true else kofnLoop check bound rest total'

/-- `Database::k_of_n_query`. -/
def kOfNQuery {n : Nat} (db : Database n) (terms : List Nat) (bound : Nat) :
    List Nat :=
  ((db.small_keys.zip db.small_storage).filterMap (fun p =>
    match p.1 with
    | none => none
    | some key =>
      if kofnLoop (fun item => Smallset.contains p.2 item) bound terms 0
      then some key else none))
  ++ db.big_storage.filterMap (fun p =>
    if kofnLoop (fun item => decide (item ∈ p.2)) bound terms 0
    then some p.1 else none)

/-- The `collect::<Result<Vec<u8>, &String>>()` in `vertical_query`: resolve
every term, failing fast with the first unresolved term name. -/
def resolveTerms {n : Nat} (db : Database n) : List String → Except String (List Nat)
  | [] => Except.ok []
  | term :: rest =>
    match getTermId db term with
    | none => Except.error term
    | some id =>
      match resolveTerms db rest with
      | Except.error e => Except.error e
      | Except.ok ids => Except.ok (id :: ids)

/-- `Database::vertical_query`. -/
def verticalQuery {n : Nat} (db : Database n) : Query → Except String (List Nat)
  | Query.Simple term =>
    match getTermId db term with
    | none => Except.error ("unknown term " ++ term)
    | some termId => Except.ok (simpleVerticalQuery db termId)
  | Query.KofN terms bound =>
    match resolveTerms db terms with
    | Except.error term => Except.error term
    | Except.ok resolved => Except.ok (kOfNQuery db resolved bound)

/-! ## Persistence (`serde.rs`)

The model works at the level of the `SerializationScheme` struct; the
`rmp_serde` byte encoding around it is an external crate treated as a
faithful transport of the struct.
-/

structure SerializationScheme (n : Nat) where
  terms : List String
  small_keys : List Nat
  small_storage : List (List Nat)
  big_storage : List (Nat × List Nat)
deriving DecidableEq

/-- `Database::compact_small_items`: bound slots only, holes dropped. -/
def compactSmallItems {n : Nat} (db : Database n) : List Nat × List (List Nat) :=
  let pairs := (db.small_keys.zip db.small_storage).filterMap (fun p =>
    match p.1 with
    | none => none
    | some key => some (key, p.2))
  (pairs.map Prod.fst, pairs.map Prod.snd)

/-- `Database::compact_terms`: term names ordered by ascending id
(`sort_unstable_by_key`). -/
def compactTerms {n : Nat} (db : Database n) : List String :=
  (db.terms.mergeSort (fun a b => decide (a.2 ≤ b.2))).map Prod.fst

/-- `Database::dump` (the struct written through `rmp_serde`). -/
def dump {n : Nat} (db : Database n) : SerializationScheme n :=
  let compacted := compactSmallItems db
  { terms := compactTerms db,
    small_keys := compacted.1,
    small_storage := compacted.2,
    big_storage := db.big_storage }

/-- `Database::build_index`: `Small(position)` for every compacted inline
key, then `Big` for every big-storage key (overriding on collision). -/
def buildIndex (small_keys : List Nat) (big_storage : List (Nat × List Nat)) :
    List (Nat × IndexLocation) :=
  let withSmall := small_keys.enum.foldl
    (fun acc p => insertA acc p.2 (IndexLocation.Small p.1)) []
  big_storage.foldl (fun acc p => insertA acc p.1 IndexLocation.Big) withSmall

/-- `Database::from_existing_data`: rebuild the index, start with an empty
free-slot queue.  `DoubleMap::try_from(..).unwrap()` panics when two terms
share an id; the model returns `none` there. -/
def fromExistingData (n : Nat) (terms : List (String × Nat))
    (small_keys : List Nat) (small_storage : List (List Nat))
    (big_storage : List (Nat × List Nat)) : Option (Database n) :=
  if (terms.map Prod.snd).Nodup then
    some
      { terms := terms
        index := buildIndex small_keys big_storage
        holes := []
        small_keys := small_keys.map some
        small_storage := small_storage
        big_storage := big_storage }
  else none

/-- `Database::load`: decode the scheme, reassign ids by position
(`(v + 1) as u8`), delegate to `from_existing_data`.  The `collect` into
`HashMap<String, u8>` keeps the last binding for a repeated name, which
`insertA` reproduces. -/
def load (n : Nat) (s : SerializationScheme n) : Option (Database n) :=
  let terms := s.terms.enum.foldl
    (fun acc p => insertA acc p.2 ((p.1 + 1) % 256)) []
  fromExistingData n terms s.small_keys s.small_storage s.big_storage

/-! ## Association-list lemmas -/

theorem lookupA_insertA_self {α β : Type} [DecidableEq α]
    (l : List (α × β)) (k : α) (v : β) : lookupA (insertA l k v) k = some v := by
  induction l with
  | nil => simp [insertA, lookupA]
  | cons p rest ih =>
    obtain ⟨k', v'⟩ := p
    by_cases h : k' = k
    · simp [insertA, lookupA, h]
    · simp only [insertA, if_neg h]
      simp only [lookupA, if_neg h]
      exact ih

theorem lookupA_insertA_ne {α β : Type} [DecidableEq α]
    (l : List (α × β)) {k k' : α} (v : β) (h : k' ≠ k) :
    lookupA (insertA l k v) k' = lookupA l k' := by
  induction l with
  | nil => simp [insertA, lookupA, Ne.symm h]
  | cons p rest ih =>
    obtain ⟨k0, v0⟩ := p
    by_cases h0 : k0 = k
    · subst h0
      simp [insertA, lookupA, Ne.symm h]
    · simp only [insertA, if_neg h0]
      simp only [lookupA]
      by_cases h1 : k0 = k'
      · simp [h1]
      · simp only [if_neg h1]
        exact ih

theorem lookupA_eq_none_iff {α β : Type} [DecidableEq α]
    {l : List (α × β)} {k : α} : lookupA l k = none ↔ k ∉ l.map Prod.fst := by
  induction l with
  | nil => simp [lookupA]
  | cons p rest ih =>
    obtain ⟨k', v'⟩ := p
    by_cases h : k' = k
    · simp [lookupA, h]
    · simp [lookupA, h, ih, Ne.symm h]

theorem lookupA_isSome_iff {α β : Type} [DecidableEq α]
    {l : List (α × β)} {k : α} :
    (lookupA l k).isSome = true ↔ k ∈ l.map Prod.fst := by
  rcases h : lookupA l k with _ | v
  · simpa [h] using lookupA_eq_none_iff.mp h
  · simp only [h, Option.isSome_some, true_iff]
    by_contra hmem
    rw [lookupA_eq_none_iff.mpr hmem] at h
    cases h

theorem mem_of_lookupA {α β : Type} [DecidableEq α]
    {l : List (α × β)} {k : α} {v : β} (h : lookupA l k = some v) : (k, v) ∈ l := by
  induction l with
  | nil => cases h
  | cons p rest ih =>
    obtain ⟨k', v'⟩ := p
    by_cases hk : k' = k
    · subst hk
      rw [lookupA, if_pos rfl] at h
      injection h with hv
      subst hv
      exact List.mem_cons_self _ _
    · rw [lookupA, if_neg hk] at h
      exact List.mem_cons_of_mem _ (ih h)

end ElizaDB

namespace ElizaDB

/-! ## The engine invariant

`WF` packages the structural facts that hold for every state reachable from
`Database::default()` by the public operations: index entries point at
exactly one backing tier, bound slots point back at their index entries, the
free-slot queue lists exactly recyclable unbound slots, the interner is a
bijection assigning ids `1, 2, …` in insertion order, and every inline array
satisfies the insert-only `Smallset` invariants. -/

/-- What an index entry must say about its backing storage. -/
def locOK {n : Nat} (db : Database n) (k : Nat) : IndexLocation → Prop
  | IndexLocation.Small i =>
    i < db.small_keys.length ∧ db.small_keys.getD i none = some k ∧
      k ∉ db.big_storage.map Prod.fst ∧ i ∉ db.holes
  | IndexLocation.Big => k ∈ db.big_storage.map Prod.fst

instance {n : Nat} (db : Database n) (k : Nat) :
    (loc : IndexLocation) → Decidable (locOK db k loc)
  | IndexLocation.Small i => by unfold locOK; infer_instance
  | IndexLocation.Big => by unfold locOK; infer_instance

/-- A bound inline slot points back at its index entry. -/
def boundOK {n : Nat} (db : Database n) (i : Nat) : Prop :=
  match db.small_keys.getD i none with
  | none => True
  | some k => lookupA db.index k = some (IndexLocation.Small i)

instance {n : Nat} (db : Database n) (i : Nat) : Decidable (boundOK db i) := by
  unfold boundOK
  rcases db.small_keys.getD i none with _ | k <;> infer_instance

structure WF {n : Nat} (db : Database n) : Prop where
  lens : db.small_keys.length = db.small_storage.length
  setLens : ∀ s ∈ db.small_storage, s.length = n
  indexOK : ∀ p ∈ db.index, locOK db p.1 p.2
  slotsOK : ∀ i < db.small_keys.length, boundOK db i
  bigOK : ∀ p ∈ db.big_storage, lookupA db.index p.1 = some IndexLocation.Big
  holesNodup : db.holes.Nodup
  holesOK : ∀ h ∈ db.holes, h < db.small_keys.length ∧
    db.small_keys.getD h none = none
  indexKeysNodup : (db.index.map Prod.fst).Nodup
  bigKeysNodup : (db.big_storage.map Prod.fst).Nodup
  termsIds : db.terms.map Prod.snd = List.range' 1 db.terms.length
  termsNamesNodup : (db.terms.map Prod.fst).Nodup
  termsLen : db.terms.length ≤ 253
  smallSetsOK : ∀ s ∈ db.small_storage, Smallset.SetInv s ∧
    ∀ v ∈ s, v ≠ 0 → 1 ≤ v ∧ v ≤ db.terms.length
  bigSetsOK : ∀ p ∈ db.big_storage, p.2.Nodup ∧
    ∀ v ∈ p.2, 1 ≤ v ∧ v ≤ db.terms.length

theorem wf_iff {n : Nat} (db : Database n) : WF db ↔
    (db.small_keys.length = db.small_storage.length ∧
    (∀ s ∈ db.small_storage, s.length = n) ∧
    (∀ p ∈ db.index, locOK db p.1 p.2) ∧
    (∀ i < db.small_keys.length, boundOK db i) ∧
    (∀ p ∈ db.big_storage, lookupA db.index p.1 = some IndexLocation.Big) ∧
    db.holes.Nodup ∧
    (∀ h ∈ db.holes, h < db.small_keys.length ∧
      db.small_keys.getD h none = none) ∧
    (db.index.map Prod.fst).Nodup ∧
    (db.big_storage.map Prod.fst).Nodup ∧
    db.terms.map Prod.snd = List.range' 1 db.terms.length ∧
    (db.terms.map Prod.fst).Nodup ∧
    db.terms.length ≤ 253 ∧
    (∀ s ∈ db.small_storage, Smallset.SetInv s ∧
      ∀ v ∈ s, v ≠ 0 → 1 ≤ v ∧ v ≤ db.terms.length) ∧
    (∀ p ∈ db.big_storage, p.2.Nodup ∧
      ∀ v ∈ p.2, 1 ≤ v ∧ v ≤ db.terms.length)) := by
  constructor
  · rintro ⟨h1, h2, h3, h4, h5, h6, h7, h8, h9, h10, h11, h12, h13, h14⟩
    exact ⟨h1, h2, h3, h4, h5, h6, h7, h8, h9, h10, h11, h12, h13, h14⟩
  · rintro ⟨h1, h2, h3, h4, h5, h6, h7, h8, h9, h10, h11, h12, h13, h14⟩
    exact ⟨h1, h2, h3, h4, h5, h6, h7, h8, h9, h10, h11, h12, h13, h14⟩

instance {n : Nat} (db : Database n) : Decidable (WF db) :=
  decidable_of_iff _ (wf_iff db).symm

theorem wf_empty (n : Nat) : WF (emptyDB n) := by
  rw [wf_iff]
  refine ⟨rfl, ?_, ?_, ?_, ?_, ?_, ?_, ?_, ?_, rfl, ?_, ?_, ?_, ?_⟩ <;>
    simp [emptyDB]

/-- The semantic tag relation: `v` is one of the `TermId`s stored for `k`. -/
def hasTag {n : Nat} (db : Database n) (k v : Nat) : Prop :=
  match lookupA db.index k with
  | some (IndexLocation.Small i) => v ∈ db.small_storage.getD i []
  | some IndexLocation.Big => v ∈ (lookupA db.big_storage k).getD []
  | none => False

instance {n : Nat} (db : Database n) (k v : Nat) : Decidable (hasTag db k v) :=
  match h : lookupA db.index k with
  | some (IndexLocation.Small i) =>
    decidable_of_iff (v ∈ db.small_storage.getD i [])
      (by unfold hasTag; rw [h])
  | some IndexLocation.Big =>
    decidable_of_iff (v ∈ (lookupA db.big_storage k).getD [])
      (by unfold hasTag; rw [h])
  | none => isFalse (by unfold hasTag; rw [h]; exact fun hf => hf)

end ElizaDB

namespace ElizaDB

theorem insertA_of_not_mem {α β : Type} [DecidableEq α]
    {l : List (α × β)} {k : α} (v : β) (h : k ∉ l.map Prod.fst) :
    insertA l k v = l ++ [(k, v)] := by
  induction l with
  | nil => rfl
  | cons p rest ih =>
    obtain ⟨k0, v0⟩ := p
    simp only [List.map_cons, List.mem_cons] at h
    push_neg at h
    have hne : k0 ≠ k := fun he => h.1 he.symm
    show (if k0 = k then (k, v) :: rest else (k0, v0) :: insertA rest k v) =
      (k0, v0) :: (rest ++ [(k, v)])
    rw [if_neg hne, ih h.2]

theorem map_fst_insertA_of_mem {α β : Type} [DecidableEq α]
    {l : List (α × β)} {k : α} (v : β) (h : k ∈ l.map Prod.fst) :
    (insertA l k v).map Prod.fst = l.map Prod.fst := by
  induction l with
  | nil => cases h
  | cons p rest ih =>
    obtain ⟨k0, v0⟩ := p
    by_cases h0 : k0 = k
    · simp [insertA, h0]
    · simp only [List.map_cons, List.mem_cons] at h
      rcases h with h | h
    

      · exact absurd h.symm h0
      · simp only [insertA, if_neg h0, List.map_cons, List.cons.injEq, true_and]
        exact ih h

theorem mem_insertA {α β : Type} [DecidableEq α]
    {l : List (α × β)} (hnd : (l.map Prod.fst).Nodup) {k : α} {v : β}
    {p : α × β} (hp : p ∈ insertA l k v) : (p ∈ l ∧ p.1 ≠ k) ∨ p = (k, v) := by
  induction l with
  | nil =>
    rcases List.mem_singleton.mp hp with rfl
    exact Or.inr rfl
  | cons q rest ih =>
    obtain ⟨k0, v0⟩ := q
    simp only [List.map_cons, List.nodup_cons] at hnd
    by_cases h0 : k0 = k
    · subst h0
      have hp' : p = (k0, v) ∨ p ∈ rest := by
        have : p ∈ (k0, v) :: rest := by
          have hins : insertA ((k0, v0) :: rest) k0 v = (k0, v) :: rest := by
            show (if k0 = k0 then (k0, v) :: rest
              else (k0, v0) :: insertA rest k0 v) = (k0, v) :: rest
            rw [if_pos rfl]
          rw [← hins]
          exact hp
        exact List.mem_cons.mp this
      rcases hp' with rfl | hp'
      · exact Or.inr rfl
      · refine Or.inl ⟨List.mem_cons_of_mem _ hp', ?_⟩
        intro habs
        exact hnd.1 (habs ▸ List.mem_map_of_mem Prod.fst hp')
    · have hp' : p = (k0, v0) ∨ p ∈ insertA rest k v := by
        have hins : insertA ((k0, v0) :: rest) k v =
            (k0, v0) :: insertA rest k v := by
          show (if k0 = k then (k, v) :: rest
            else (k0, v0) :: insertA rest k v) = _
          rw [if_neg h0]
        rw [hins] at hp
        exact List.mem_cons.mp hp
      rcases hp' with rfl | hp'
      · exact Or.inl ⟨List.mem_cons_self _ _, h0⟩
      · rcases ih hnd.2 hp' with ⟨hmem, hne⟩ | rfl
        · exact Or.inl ⟨List.mem_cons_of_mem _ hmem, hne⟩
        · exact Or.inr rfl

theorem getLast?_mem {α : Type} {l : List α} {a : α} (h : l.getLast? = some a) :
    a ∈ l := by
  cases l with
  | nil => cases h
  | cons x rest =>
    have hne : x :: rest ≠ [] := by simp
    rw [List.getLast?_eq_getLast _ hne] at h
    injection h with h
    rw [← h]
    exact List.getLast_mem hne

theorem not_mem_dropLast_of_getLast? {α : Type} {l : List α} {a : α}
    (hnd : l.Nodup) (h : l.getLast? = some a) : a ∉ l.dropLast := by
  cases l with
  | nil => cases h
  | cons x rest =>
    have hne : x :: rest ≠ [] := by simp
    rw [List.getLast?_eq_getLast _ hne] at h
    injection h with h
    subst h
    have hsplit := List.dropLast_concat_getLast hne
    intro hmem
    have := List.nodup_append.mp (hsplit ▸ hnd)
    exact this.2.2 hmem (List.mem_singleton_self _)

end ElizaDB

namespace ElizaDB

/-! ## `add_term` lemmas -/

theorem addTerm_known {n : Nat} {db : Database n} {term : String} {tid : Nat}
    (h : lookupA db.terms term = some tid) :
    addTerm db term = (db, Except.ok tid) := by
  unfold addTerm
  rw [h]

theorem addTerm_full {n : Nat} {db : Database n} {term : String}
    (h : lookupA db.terms term = none) (hlen : db.terms.length = 253) :
    addTerm db term = (db, Except.error ()) := by
  unfold addTerm
  rw [h]
  show (if db.terms.length = 253 then (db, Except.error ()) else _) = _
  rw [if_pos hlen]

theorem addTerm_new {n : Nat} {db : Database n} {term : String} (hwf : WF db)
    (h : lookupA db.terms term = none) (hlen : db.terms.length ≠ 253) :
    addTerm db term =
      ({ db with terms := db.terms ++ [(term, db.terms.length + 1)] },
        Except.ok (db.terms.length + 1)) := by
  have hle : db.terms.length ≤ 253 := hwf.termsLen
  have hmod : (1 + db.terms.length) % 256 = db.terms.length + 1 := by omega
  have hnotmem : term ∉ db.terms.map Prod.fst := lookupA_eq_none_iff.mp h
  unfold addTerm
  rw [h]
  show (if db.terms.length = 253 then (db, Except.error ())
    else ({ db with terms := insertA db.terms term ((1 + db.terms.length) % 256) },
      Except.ok ((lookupA (insertA db.terms term ((1 + db.terms.length) % 256))
        term).getD 0))) = _
  rw [if_neg hlen, lookupA_insertA_self, insertA_of_not_mem _ hnotmem, hmod]
  rfl

theorem tid_bounds {n : Nat} {db : Database n} (hwf : WF db) {term : String}
    {tid : Nat} (h : lookupA db.terms term = some tid) :
    1 ≤ tid ∧ tid ≤ db.terms.length := by
  have hmem : (term, tid) ∈ db.terms := mem_of_lookupA h
  have : tid ∈ db.terms.map Prod.snd := List.mem_map_of_mem Prod.snd hmem
  rw [hwf.termsIds] at this
  have := List.mem_range'_1.mp this
  omega

/-- Full case analysis of `add_term` on a well-formed state. -/
theorem addTerm_spec {n : Nat} {db : Database n} (hwf : WF db) (term : String) :
    ∃ db1 r, addTerm db term = (db1, r) ∧ WF db1 ∧
      ((r = Except.error ()) ↔
        (lookupA db.terms term = none ∧ db.terms.length = 253)) ∧
      (r = Except.error () → db1 = db) ∧
      (∀ tid, r = Except.ok tid →
        lookupA db1.terms term = some tid ∧ Smallset.ValidItem tid ∧
        1 ≤ tid ∧ tid ≤ db1.terms.length ∧ db.terms.length ≤ db1.terms.length ∧
        ((db1 = db ∧ lookupA db.terms term = some tid) ∨
         (lookupA db.terms term = none ∧ tid = db.terms.length + 1 ∧
          db1.terms = db.terms ++ [(term, tid)] ∧ db1.index = db.index ∧
          db1.holes = db.holes ∧ db1.small_keys = db.small_keys ∧
          db1.small_storage = db.small_storage ∧
          db1.big_storage = db.big_storage))) := by
  cases h : lookupA db.terms term with
  | some tid =>
    have hb := tid_bounds hwf h
    have h253 := hwf.termsLen
    refine ⟨db, Except.ok tid, addTerm_known h, hwf, ?_, ?_, ?_⟩
    · constructor
      · intro habs; cases habs
      · rintro ⟨hnone, _⟩; cases hnone
    · intro habs; cases habs
    · intro tid' htid
      injection htid with htid
      subst htid
      refine ⟨h, ?_, hb.1, hb.2, Nat.le_refl _, Or.inl ⟨rfl, rfl⟩⟩
      simp only [Smallset.ValidItem, Smallset.EMPTY_SLOT, Smallset.TOMBSTONE]
      omega
  | none =>
    by_cases hlen : db.terms.length = 253
    · refine ⟨db, Except.error (), addTerm_full h hlen, hwf, ?_, fun _ => rfl, ?_⟩
      · exact ⟨fun _ => ⟨rfl, hlen⟩, fun _ => rfl⟩
      · intro tid htid; cases htid
    · set m := db.terms.length with hm
      have hle : m ≤ 253 := hwf.termsLen
      have hnotmem : term ∉ db.terms.map Prod.fst := lookupA_eq_none_iff.mp h
      refine ⟨{ db with terms := db.terms ++ [(term, m + 1)] }, Except.ok (m + 1),
        addTerm_new hwf h hlen, ?_, ?_, ?_, ?_⟩
      · -- well-formedness of the extended interner
        obtain ⟨w1, w2, w3, w4, w5, w6, w7, w8, w9, w10, w11, w12, w13, w14⟩ :=
          (wf_iff db).mp hwf
        rw [wf_iff]
        refine ⟨w1, w2, w3, w4, w5, w6, w7, w8, w9, ?_, ?_, ?_, ?_, ?_⟩
        · show (db.terms ++ [(term, m + 1)]).map Prod.snd =
            List.range' 1 (db.terms ++ [(term, m + 1)]).length
          rw [List.map_append, w10, List.length_append]
          show List.range' 1 m ++ [m + 1] = List.range' 1 (m + 1)
          rw [List.range'_concat]
          congr 1
          simp
          omega
        · show ((db.terms ++ [(term, m + 1)]).map Prod.fst).Nodup
          rw [List.map_append, List.nodup_append]
          refine ⟨w11, List.nodup_singleton _, ?_⟩
          intro x hx hx'
          rcases List.mem_singleton.mp hx' with rfl
          exact hnotmem hx
        · show (db.terms ++ [(term, m + 1)]).length ≤ 253
          rw [List.length_append]
          show m + 1 ≤ 253
          omega
        · intro s hs
          refine ⟨(w13 s hs).1, ?_⟩
          intro v hv hv0
          have := (w13 s hs).2 v hv hv0
          show 1 ≤ v ∧ v ≤ (db.terms ++ [(term, m + 1)]).length
          rw [List.length_append]
          omega
        · intro p hp
          refine ⟨(w14 p hp).1, ?_⟩
          intro v hv
          have := (w14 p hp).2 v hv
          show 1 ≤ v ∧ v ≤ (db.terms ++ [(term, m + 1)]).length
          rw [List.length_append]
          omega
      · constructor
        · intro habs; cases habs
        · rintro ⟨_, habs⟩; exact absurd habs hlen
      · intro habs; cases habs
      · intro tid htid
        injection htid with htid
        subst htid
        have hlook : lookupA (db.terms ++ [(term, m + 1)]) term = some (m + 1) := by
          rw [← insertA_of_not_mem (m + 1) hnotmem]
          exact lookupA_insertA_self _ _ _
        refine ⟨hlook, ?_, by omega, ?_, ?_, ?_⟩
        · simp only [Smallset.ValidItem, Smallset.EMPTY_SLOT, Smallset.TOMBSTONE]
          omega
        · show m + 1 ≤ (db.terms ++ [(term, m + 1)]).length
          rw [List.length_append, ← hm]
          simp
        · show m ≤ (db.terms ++ [(term, m + 1)]).length
          rw [List.length_append, ← hm]
          simp
        · exact Or.inr ⟨rfl, rfl, rfl, rfl, rfl, rfl, rfl, rfl⟩

end ElizaDB

namespace ElizaDB

/-! ## Generic list-access helpers -/

theorem getDo_set_self {α : Type} {l : List α} {q : Nat} {d x : α}
    (h : q < l.length) : (l.set q x).getD q d = x := by
  rw [List.getD_eq_getElem?_getD, List.getElem?_set_self h, Option.getD_some]

theorem getDo_set_ne {α : Type} {l : List α} {p q : Nat} {d x : α}
    (h : q ≠ p) : (l.set q x).getD p d = l.getD p d := by
  rw [List.getD_eq_getElem?_getD, List.getElem?_set_ne h,
    ← List.getD_eq_getElem?_getD]

theorem getDo_append_lt {α : Type} {l l2 : List α} {p : Nat} {d : α}
    (h : p < l.length) : (l ++ l2).getD p d = l.getD p d := by
  rw [List.getD_eq_getElem?_getD, List.getElem?_append_left h,
    ← List.getD_eq_getElem?_getD]

theorem getDo_append_len {α : Type} {l : List α} {x d : α} :
    (l ++ [x]).getD l.length d = x := by
  rw [List.getD_eq_getElem?_getD, List.getElem?_concat_length, Option.getD_some]

theorem get?_set_self' {α : Type} {l : List α} {i : Nat} {x : α}
    (h : i < l.length) : (l.set i x).get? i = some x := by
  rw [List.get?_eq_getElem?, List.getElem?_set_self h]

theorem get?_set_ne' {α : Type} {l : List α} {i j : Nat} {x : α}
    (h : i ≠ j) : (l.set i x).get? j = l.get? j := by
  rw [List.get?_eq_getElem?, List.getElem?_set_ne h, ← List.get?_eq_getElem?]

theorem get?_append_lt' {α : Type} {l l2 : List α} {j : Nat}
    (h : j < l.length) : (l ++ l2).get? j = l.get? j := by
  rw [List.get?_eq_getElem?, List.getElem?_append_left h, ← List.get?_eq_getElem?]

theorem get?_append_len' {α : Type} {l : List α} {x : α} :
    (l ++ [x]).get? l.length = some x := by
  rw [List.get?_eq_getElem?, List.getElem?_concat_length]

theorem get?_eq_some_getD {α : Type} {l : List α} {i : Nat} {st : α} {d : α}
    (h : l.get? i = some st) : l.getD i d = st := by
  rw [List.getD_eq_getElem?_getD, ← List.get?_eq_getElem?, h, Option.getD_some]

theorem setInv_newEmpty (n : Nat) : Smallset.SetInv (Smallset.newEmpty n) := by
  refine ⟨?_, ?_, ?_⟩
  · intro v hv
    rw [Smallset.newEmpty, List.mem_replicate] at hv
    rw [hv.2]
    simp [Smallset.EMPTY_SLOT, Smallset.TOMBSTONE]
  · intro p hp hv
    exfalso
    apply hv
    rw [Smallset.newEmpty, List.getD_eq_getElem?_getD, List.getElem?_replicate]
    rw [Smallset.newEmpty, List.length_replicate] at hp
    rw [if_pos hp]
    rfl
  · intro v hv
    rw [Smallset.newEmpty, List.mem_replicate] at hv
    intro hv0
    exact absurd hv.2 hv0

theorem newEmpty_length (n : Nat) : (Smallset.newEmpty n).length = n :=
  List.length_replicate _ _

theorem exists_pair_of_mem_fst {α β : Type} {l : List (α × β)} {k : α}
    (h : k ∈ l.map Prod.fst) : ∃ v, (k, v) ∈ l := by
  obtain ⟨p, hp, hpk⟩ := List.mem_map.mp h
  refine ⟨p.2, ?_⟩
  rw [← hpk]
  exact hp

theorem hasTag_small {n : Nat} {db : Database n} {k i v : Nat}
    (h : lookupA db.index k = some (IndexLocation.Small i)) :
    hasTag db k v ↔ v ∈ db.small_storage.getD i [] := by
  unfold hasTag
  rw [h]

theorem hasTag_big {n : Nat} {db : Database n} {k v : Nat}
    (h : lookupA db.index k = some IndexLocation.Big) :
    hasTag db k v ↔ v ∈ (lookupA db.big_storage k).getD [] := by
  unfold hasTag
  rw [h]

theorem hasTag_none {n : Nat} {db : Database n} {k v : Nat}
    (h : lookupA db.index k = none) : ¬hasTag db k v := by
  unfold hasTag
  rw [h]
  exact fun hf => hf

end ElizaDB

namespace ElizaDB

theorem boundOK_lookup {n : Nat} {db : Database n} {i k : Nat}
    (h : boundOK db i) (hk : db.small_keys.getD i none = some k) :
    lookupA db.index k = some (IndexLocation.Small i) := by
  unfold boundOK at h
  rw [hk] at h
  exact h

/-- Full case analysis of `create_record` on a well-formed state: it never
panics, preserves the invariant, and either no-ops on a known key or binds a
fresh empty inline slot. -/
theorem createRecord_spec {n : Nat} {db : Database n} (hwf : WF db) (key : Nat) :
    ∃ db' created, createRecord db key = some (db', created) ∧ WF db' ∧
      db'.terms = db.terms ∧ db'.big_storage = db.big_storage ∧
      ((lookupA db.index key).isSome → db' = db ∧ created = false) ∧
      (lookupA db.index key = none → created = true ∧
        (∃ i, lookupA db'.index key = some (IndexLocation.Small i) ∧
          db'.small_storage.get? i = some (Smallset.newEmpty n)) ∧
        (∀ k, k ≠ key → lookupA db'.index k = lookupA db.index k) ∧
        (∀ k v, k ≠ key → (hasTag db' k v ↔ hasTag db k v))) := by
  obtain ⟨w1, w2, w3, w4, w5, w6, w7, w8, w9, w10, w11, w12, w13, w14⟩ :=
    (wf_iff db).mp hwf
  cases hidx : lookupA db.index key with
  | some loc =>
    refine ⟨db, false, ?_, hwf, rfl, rfl, fun _ => ⟨rfl, rfl⟩, ?_⟩
    · unfold createRecord
      rw [hidx]
      rfl
    · intro habs; cases habs
  | none =>
    have hkeynotbig : key ∉ db.big_storage.map Prod.fst := by
      intro hmem
      obtain ⟨v, hv⟩ := exists_pair_of_mem_fst hmem
      rw [w5 (key, v) hv] at hidx
      cases hidx
    have hkeynotidx : key ∉ db.index.map Prod.fst := lookupA_eq_none_iff.mp hidx
    cases hlast : db.holes.getLast? with
    | some hole =>
      have hholemem : hole ∈ db.holes := getLast?_mem hlast
      have hholeOK := w7 hole hholemem
      have hhole1 : hole < db.small_keys.length := hholeOK.1
      have hhole2 : db.small_keys.getD hole none = none := hholeOK.2
      have hhole1' : hole < db.small_storage.length := by omega
      have hnotdrop : hole ∉ db.holes.dropLast :=
        not_mem_dropLast_of_getLast? w6 hlast
      have hdropsub : ∀ x ∈ db.holes.dropLast, x ∈ db.holes :=
        fun x hx => (List.dropLast_sublist db.holes).mem hx
      refine ⟨{ db with
          index := insertA db.index key (IndexLocation.Small hole),
          holes := db.holes.dropLast,
          small_keys := db.small_keys.set hole (some key),
          small_storage := db.small_storage.set hole (Smallset.newEmpty n) },
        true, ?_, ?_, rfl, rfl, ?_, ?_⟩
      · unfold createRecord
        rw [hidx, hlast]
        show (if hole < db.small_keys.length ∧ hole < db.small_storage.length
          then _ else none) = _
        rw [if_pos ⟨hhole1, hhole1'⟩]
      · -- well-formedness of the hole-reuse state
        rw [wf_iff]
        refine ⟨?_, ?_, ?_, ?_, ?_, ?_, ?_, ?_, w9, w10, w11, w12, ?_, w14⟩
        · show (db.small_keys.set hole (some key)).length =
            (db.small_storage.set hole (Smallset.newEmpty n)).length
          rw [List.length_set, List.length_set]
          exact w1
        · intro s hs
          rcases List.mem_or_eq_of_mem_set hs with hs | rfl
          · exact w2 s hs
          · exact newEmpty_length n
        · intro p hp
          rcases mem_insertA w8 hp with ⟨hmem, hne⟩ | rfl
          · have hloc := w3 p hmem
            cases hpl : p.2 with
            | Small j =>
              rw [hpl] at hloc
              obtain ⟨hj1, hj2, hj3, hj4⟩ := hloc
              have hjne : j ≠ hole := by
                intro habs
                rw [habs, hhole2] at hj2
                cases hj2
              refine ⟨by rw [List.length_set]; exact hj1, ?_, hj3, ?_⟩
              · rw [getDo_set_ne (fun h => hjne h.symm)]
                exact hj2
              · intro habs
                exact hj4 (hdropsub j habs)
            | Big =>
              rw [hpl] at hloc
              exact hloc
          · show locOK _ key (IndexLocation.Small hole)
            refine ⟨by rw [List.length_set]; exact hhole1, ?_, hkeynotbig, hnotdrop⟩
            exact getDo_set_self hhole1
        · intro i hi
          rw [List.length_set] at hi
          show boundOK _ i
          unfold boundOK
          by_cases hih : i = hole
          · subst hih
            rw [getDo_set_self hhole1]
            show lookupA (insertA db.index key (IndexLocation.Small i)) key =
              some (IndexLocation.Small i)
            rw [lookupA_insertA_self]
          · rw [getDo_set_ne (fun h => hih h.symm)]
            cases hk : db.small_keys.getD i none with
            | none => trivial
            | some k =>
              have hbound := boundOK_lookup (w4 i hi) hk
              have hkne : k ≠ key := by
                intro habs
                rw [habs, hidx] at hbound
                cases hbound
              show lookupA (insertA db.index key (IndexLocation.Small hole)) k =
                some (IndexLocation.Small i)
              rw [lookupA_insertA_ne _ _ hkne]
              exact hbound
        · intro p hp
          have hne : p.1 ≠ key := by
            intro habs
            rw [← habs] at hidx
            rw [w5 p hp] at hidx
            cases hidx
          rw [lookupA_insertA_ne _ _ hne]
          exact w5 p hp
        · exact w6.sublist (List.dropLast_sublist _)
        · intro h hmem
          have hmem' := hdropsub h hmem
          have := w7 h hmem'
          refine ⟨by rw [List.length_set]; exact this.1, ?_⟩
          have hne : h ≠ hole := fun habs => hnotdrop (habs ▸ hmem)
          rw [getDo_set_ne (fun he => hne he.symm)]
          exact this.2
        · rw [insertA_of_not_mem _ hkeynotidx, List.map_append]
          rw [List.nodup_append]
          refine ⟨w8, List.nodup_singleton _, ?_⟩
          intro x hx hx'
          rcases List.mem_singleton.mp hx' with rfl
          exact hkeynotidx hx
        · intro s hs
          rcases List.mem_or_eq_of_mem_set hs with hs | rfl
          · exact w13 s hs
          · refine ⟨setInv_newEmpty n, ?_⟩
            intro v hv hv0
            rw [Smallset.newEmpty, List.mem_replicate] at hv
            exact absurd hv.2 hv0
      · intro habs
        simp at habs
      · intro _
        refine ⟨rfl, ⟨hole, ?_, ?_⟩, ?_, ?_⟩
        · show lookupA (insertA db.index key (IndexLocation.Small hole)) key = _
          rw [lookupA_insertA_self]
        · exact get?_set_self' hhole1'
        · intro k hk
          show lookupA (insertA db.index key (IndexLocation.Small hole)) k = _
          rw [lookupA_insertA_ne _ _ hk]
        · intro k v hk
          unfold hasTag
          show (match lookupA (insertA db.index key (IndexLocation.Small hole)) k
            with
          | some (IndexLocation.Small i) =>
            v ∈ (db.small_storage.set hole (Smallset.newEmpty n)).getD i []
          | some IndexLocation.Big => v ∈ (lookupA db.big_storage k).getD []
          | none => False) ↔ _
          rw [lookupA_insertA_ne _ _ hk]
          cases hlk : lookupA db.index k with
          | none => exact Iff.rfl
          | some loc =>
            cases loc with
            | Big => exact Iff.rfl
            | Small j =>
              have hmem := mem_of_lookupA hlk
              have hloc := w3 _ hmem
              have hj2 : db.small_keys.getD j none = some k := hloc.2.1
              have hjne : j ≠ hole := by
                intro habs
                rw [habs, hhole2] at hj2
                cases hj2
              show v ∈ (db.small_storage.set hole (Smallset.newEmpty n)).getD j []
                ↔ v ∈ db.small_storage.getD j []
              rw [getDo_set_ne (fun h => hjne h.symm)]
    | none =>
      have hholes : db.holes = [] := List.getLast?_eq_none_iff.mp hlast
      have hL : db.small_keys.length = db.small_storage.length := w1
      refine ⟨{ db with
          index := insertA db.index key
            (IndexLocation.Small db.small_storage.length),
          small_keys := db.small_keys ++ [some key],
          small_storage := db.small_storage ++ [Smallset.newEmpty n] },
        true, ?_, ?_, rfl, rfl, ?_, ?_⟩
      · unfold createRecord
        rw [hidx, hlast]
        rfl
      · -- well-formedness of the appended-slot state
        rw [wf_iff]
        refine ⟨?_, ?_, ?_, ?_, ?_, w6, ?_, ?_, w9, w10, w11, w12, ?_, w14⟩
        · show (db.small_keys ++ [some key]).length =
            (db.small_storage ++ [Smallset.newEmpty n]).length
          rw [List.length_append, List.length_append, w1,
            List.length_singleton, List.length_singleton]
        · intro s hs
          rcases List.mem_append.mp hs with hs | hs
          · exact w2 s hs
          · rcases List.mem_singleton.mp hs with rfl
            exact newEmpty_length n
        · intro p hp
          rcases mem_insertA w8 hp with ⟨hmem, hne⟩ | rfl
          · have hloc := w3 p hmem
            cases hpl : p.2 with
            | Small j =>
              rw [hpl] at hloc
              obtain ⟨hj1, hj2, hj3, hj4⟩ := hloc
              refine ⟨?_, ?_, hj3, hj4⟩
              · rw [List.length_append]
                omega
              · rw [getDo_append_lt hj1]
                exact hj2
            | Big =>
              rw [hpl] at hloc
              exact hloc
          · show locOK _ key (IndexLocation.Small db.small_storage.length)
            refine ⟨?_, ?_, hkeynotbig, by rw [hholes]; exact List.not_mem_nil _⟩
            · rw [List.length_append, hL, List.length_singleton]
              omega
            · rw [← hL]
              exact getDo_append_len
        · intro i hi
          rw [List.length_append] at hi
          show boundOK _ i
          unfold boundOK
          by_cases hih : i = db.small_keys.length
          · subst hih
            rw [getDo_append_len]
            show lookupA (insertA db.index key
              (IndexLocation.Small db.small_storage.length)) key = _
            rw [lookupA_insertA_self, hL]
          · have hi' : i < db.small_keys.length := by
              simp only [List.length_singleton] at hi
              omega
            rw [getDo_append_lt hi']
            cases hk : db.small_keys.getD i none with
            | none => trivial
            | some k =>
              have hbound := boundOK_lookup (w4 i hi') hk
              have hkne : k ≠ key := by
                intro habs
                rw [habs, hidx] at hbound
                cases hbound
              show lookupA (insertA db.index key
                (IndexLocation.Small db.small_storage.length)) k =
                some (IndexLocation.Small i)
              rw [lookupA_insertA_ne _ _ hkne]
              exact hbound
        · intro p hp
          have hne : p.1 ≠ key := by
            intro habs
            rw [← habs] at hidx
            rw [w5 p hp] at hidx
            cases hidx
          rw [lookupA_insertA_ne _ _ hne]
          exact w5 p hp
        · intro h hmem
          have := w7 h hmem
          refine ⟨?_, ?_⟩
          · rw [List.length_append]
            omega
          · rw [getDo_append_lt this.1]
            exact this.2
        · rw [insertA_of_not_mem _ hkeynotidx, List.map_append]
          rw [List.nodup_append]
          refine ⟨w8, List.nodup_singleton _, ?_⟩
          intro x hx hx'
          rcases List.mem_singleton.mp hx' with rfl
          exact hkeynotidx hx
        · intro s hs
          rcases List.mem_append.mp hs with hs | hs
          · exact w13 s hs
          · rcases List.mem_singleton.mp hs with rfl
            refine ⟨setInv_newEmpty n, ?_⟩
            intro v hv hv0
            rw [Smallset.newEmpty, List.mem_replicate] at hv
            exact absurd hv.2 hv0
      · intro habs
        simp at habs
      · intro _
        refine ⟨rfl, ⟨db.small_storage.length, ?_, ?_⟩, ?_, ?_⟩
        · show lookupA (insertA db.index key
            (IndexLocation.Small db.small_storage.length)) key = _
          rw [lookupA_insertA_self]
        · exact get?_append_len'
        · intro k hk
          show lookupA (insertA db.index key
            (IndexLocation.Small db.small_storage.length)) k = _
          rw [lookupA_insertA_ne _ _ hk]
        · intro k v hk
          unfold hasTag
          show (match lookupA (insertA db.index key
              (IndexLocation.Small db.small_storage.length)) k with
          | some (IndexLocation.Small i) =>
            v ∈ (db.small_storage ++ [Smallset.newEmpty n]).getD i []
          | some IndexLocation.Big => v ∈ (lookupA db.big_storage k).getD []
          | none => False) ↔ _
          rw [lookupA_insertA_ne _ _ hk]
          cases hlk : lookupA db.index k with
          | none => exact Iff.rfl
          | some loc =>
            cases loc with
            | Big => exact Iff.rfl
            | Small j =>
              have hmem := mem_of_lookupA hlk
              have hloc := w3 _ hmem
              have hj1 : j < db.small_keys.length := hloc.1
              show v ∈ (db.small_storage ++ [Smallset.newEmpty n]).getD j []
                ↔ v ∈ db.small_storage.getD j []
              rw [getDo_append_lt (by omega)]

end ElizaDB

namespace ElizaDB

/-- Membership in the eviction fold: everything already present plus every
non-sentinel byte of the inline array. -/
theorem evictFold_mem (st : List Nat) :
    ∀ (acc : List Nat) (x : Nat),
      x ∈ st.foldl (fun acc item =>
        if item = Smallset.EMPTY_SLOT ∨ item = Smallset.TOMBSTONE then acc
        else if item ∈ acc then acc else acc ++ [item]) acc ↔
      x ∈ acc ∨ (x ∈ st ∧ x ≠ 0 ∧ x ≠ 255) := by
  induction st with
  | nil =>
    intro acc x
    simp
  | cons a t ih =>
    intro acc x
    rw [List.foldl_cons, ih]
    by_cases hs : a = Smallset.EMPTY_SLOT ∨ a = Smallset.TOMBSTONE
    · rw [if_pos hs]
      simp only [Smallset.EMPTY_SLOT, Smallset.TOMBSTONE] at hs
      constructor
      · rintro (hx | hx)
        · exact Or.inl hx
        · exact Or.inr ⟨List.mem_cons_of_mem _ hx.1, hx.2⟩
      · rintro (hx | ⟨hx1, hx2⟩)
        · exact Or.inl hx
        · rcases List.mem_cons.mp hx1 with rfl | hx1
          · rcases hs with rfl | rfl
            · exact absurd rfl hx2.1
            · exact absurd rfl hx2.2
          · exact Or.inr ⟨hx1, hx2⟩
    · rw [if_neg hs]
      simp only [Smallset.EMPTY_SLOT, Smallset.TOMBSTONE] at hs
      push_neg at hs
      by_cases hmem : a ∈ acc
      · rw [if_pos hmem]
        constructor
        · rintro (hx | hx)
          · exact Or.inl hx
          · exact Or.inr ⟨List.mem_cons_of_mem _ hx.1, hx.2⟩
        · rintro (hx | ⟨hx1, hx2⟩)
          · exact Or.inl hx
          · rcases List.mem_cons.mp hx1 with rfl | hx1
            · exact Or.inl hmem
            · exact Or.inr ⟨hx1, hx2⟩
      · rw [if_neg hmem]
        constructor
        · rintro (hx | hx)
          · rcases List.mem_append.mp hx with hx | hx
            · exact Or.inl hx
            · rcases List.mem_singleton.mp hx with rfl
              exact Or.inr ⟨List.mem_cons_self _ _, hs.1, hs.2⟩
          · exact Or.inr ⟨List.mem_cons_of_mem _ hx.1, hx.2⟩
        · rintro (hx | ⟨hx1, hx2⟩)
          · exact Or.inl (List.mem_append_left _ hx)
          · rcases List.mem_cons.mp hx1 with rfl | hx1
            · exact Or.inl (List.mem_append_right _ (List.mem_singleton_self _))
            · exact Or.inr ⟨hx1, hx2⟩

theorem evictFold_nodup (st : List Nat) :
    ∀ (acc : List Nat), acc.Nodup →
      (st.foldl (fun acc item =>
        if item = Smallset.EMPTY_SLOT ∨ item = Smallset.TOMBSTONE then acc
        else if item ∈ acc then acc else acc ++ [item]) acc).Nodup := by
  induction st with
  | nil => intro acc h; exact h
  | cons a t ih =>
    intro acc h
    rw [List.foldl_cons]
    by_cases hs : a = Smallset.EMPTY_SLOT ∨ a = Smallset.TOMBSTONE
    · rw [if_pos hs]; exact ih acc h
    · rw [if_neg hs]
      by_cases hmem : a ∈ acc
      · rw [if_pos hmem]; exact ih acc h
      · rw [if_neg hmem]
        apply ih
        rw [List.nodup_append]
        refine ⟨h, List.nodup_singleton _, ?_⟩
        intro x hx hx'
        rcases List.mem_singleton.mp hx' with rfl
        exact hmem hx

/-- Full description of `evict_into_large` applied to a key that the index
currently places in the `Small` tier of a well-formed state. -/
theorem evict_spec {n : Nat} {db : Database n} (hwf : WF db) {key i : Nat}
    (hidx : lookupA db.index key = some (IndexLocation.Small i)) :
    ∃ db', evictIntoLarge db key = some db' ∧ WF db' ∧
      db'.terms = db.terms ∧ db'.small_storage = db.small_storage ∧
      lookupA db'.index key = some IndexLocation.Big ∧
      (∀ v, v ≠ 0 → (hasTag db' key v ↔ hasTag db key v)) ∧
      (∀ k, k ≠ key → lookupA db'.index k = lookupA db.index k) ∧
      (∀ k v, k ≠ key → (hasTag db' k v ↔ hasTag db k v)) := by
  obtain ⟨w1, w2, w3, w4, w5, w6, w7, w8, w9, w10, w11, w12, w13, w14⟩ :=
    (wf_iff db).mp hwf
  have hmemidx := mem_of_lookupA hidx
  have hloc := w3 _ hmemidx
  have hi1 : i < db.small_keys.length := hloc.1
  have hi2 : db.small_keys.getD i none = some key := hloc.2.1
  have hi3 : key ∉ db.big_storage.map Prod.fst := hloc.2.2.1
  have hi4 : i ∉ db.holes := hloc.2.2.2
  have hi1' : i < db.small_storage.length := by omega
  have hkeyinidx : key ∈ db.index.map Prod.fst :=
    lookupA_isSome_iff.mp (by rw [hidx]; rfl)
  have hget : db.small_storage.get? i = some db.small_storage[i] := by
    rw [List.get?_eq_getElem?, List.getElem?_eq_getElem hi1']
  have hbignone : lookupA db.big_storage key = none :=
    lookupA_eq_none_iff.mpr hi3
  have hstmem : db.small_storage[i] ∈ db.small_storage := List.getElem_mem hi1'
  have hstinv := w13 _ hstmem
  have hsttf : ∀ v ∈ db.small_storage[i], v ≠ 255 := hstinv.1.1
  -- abbreviate the migrated set
  have hrun : evictIntoLarge db key = some { db with
      big_storage := insertA db.big_storage key
        (db.small_storage[i].foldl (fun acc item =>
          if item = Smallset.EMPTY_SLOT ∨ item = Smallset.TOMBSTONE then acc
          else if item ∈ acc then acc else acc ++ [item]) []),
      index := insertA db.index key IndexLocation.Big,
      holes := db.holes ++ [i],
      small_keys := db.small_keys.set i none } := by
    unfold evictIntoLarge
    simp only [hidx, hget, hbignone, Option.getD_none]
    rw [if_pos hi1]
  refine ⟨_, hrun, ?_, rfl, rfl, ?_, ?_, ?_, ?_⟩
  · -- well-formedness of the evicted state
    rw [wf_iff]
    refine ⟨?_, w2, ?_, ?_, ?_, ?_, ?_, ?_, ?_, w10, w11, w12, w13, ?_⟩
    · show (db.small_keys.set i none).length = db.small_storage.length
      rw [List.length_set]
      exact w1
    · intro p hp
      rcases mem_insertA w8 hp with ⟨hmem, hne⟩ | rfl
      · have hlocp := w3 p hmem
        cases hpl : p.2 with
        | Small j =>
          rw [hpl] at hlocp
          obtain ⟨hj1, hj2, hj3, hj4⟩ := hlocp
          have hjne : j ≠ i := by
            intro habs
            rw [habs, hi2] at hj2
            injection hj2 with hj2
            exact hne hj2.symm
          refine ⟨by rw [List.length_set]; exact hj1, ?_, ?_, ?_⟩
          · rw [getDo_set_ne (fun h => hjne h.symm)]
            exact hj2
          · rw [insertA_of_not_mem _ hi3, List.map_append]
            intro habs
            rcases List.mem_append.mp habs with habs | habs
            · exact hj3 habs
            · rcases List.mem_singleton.mp habs with habs
              exact hne habs
          · intro habs
            rcases List.mem_append.mp habs with habs | habs
            · exact hj4 habs
            · rcases List.mem_singleton.mp habs with rfl
              rw [hi2] at hj2
              injection hj2 with hj2
              exact hne hj2.symm
        | Big =>
          rw [hpl] at hlocp
          show p.1 ∈ (insertA db.big_storage key _).map Prod.fst
          rw [insertA_of_not_mem _ hi3, List.map_append]
          exact List.mem_append_left _ hlocp
      · show locOK _ key IndexLocation.Big
        show key ∈ (insertA db.big_storage key _).map Prod.fst
        rw [insertA_of_not_mem _ hi3, List.map_append]
        exact List.mem_append_right _ (List.mem_singleton_self _)
    · intro j hj
      rw [List.length_set] at hj
      show boundOK _ j
      unfold boundOK
      by_cases hji : j = i
      · subst hji
        rw [getDo_set_self hi1]
        trivial
      · rw [getDo_set_ne (fun h => hji h.symm)]
        cases hk : db.small_keys.getD j none with
        | none => trivial
        | some k =>
          have hbound := boundOK_lookup (w4 j hj) hk
          have hkne : k ≠ key := by
            intro habs
            rw [habs, hidx] at hbound
            injection hbound with hbound
            injection hbound with hbound
            exact hji hbound.symm
          show lookupA (insertA db.index key IndexLocation.Big) k =
            some (IndexLocation.Small j)
          rw [lookupA_insertA_ne _ _ hkne]
          exact hbound
    · intro p hp
      rw [insertA_of_not_mem _ hi3] at hp
      rcases List.mem_append.mp hp with hp | hp
      · have hne : p.1 ≠ key := by
          intro habs
          apply hi3
          rw [← habs]
          exact List.mem_map_of_mem Prod.fst hp
        rw [lookupA_insertA_ne _ _ hne]
        exact w5 p hp
      · rcases List.mem_singleton.mp hp with rfl
        show lookupA (insertA db.index key IndexLocation.Big) key = _
        rw [lookupA_insertA_self]
    · rw [List.nodup_append]
      refine ⟨w6, List.nodup_singleton _, ?_⟩
      intro x hx hx'
      rcases List.mem_singleton.mp hx' with rfl
      exact hi4 hx
    · intro h hmem
      rcases List.mem_append.mp hmem with hmem | hmem
      · have := w7 h hmem
        refine ⟨by rw [List.length_set]; exact this.1, ?_⟩
        have hne : h ≠ i := fun habs => hi4 (habs ▸ hmem)
        rw [getDo_set_ne (fun he => hne he.symm)]
        exact this.2
      · rcases List.mem_singleton.mp hmem with rfl
        refine ⟨by rw [List.length_set]; exact hi1, getDo_set_self hi1⟩
    · rw [map_fst_insertA_of_mem _ hkeyinidx]
      exact w8
    · rw [insertA_of_not_mem _ hi3, List.map_append, List.nodup_append]
      refine ⟨w9, List.nodup_singleton _, ?_⟩
      intro x hx hx'
      rcases List.mem_singleton.mp hx' with rfl
      exact hi3 hx
    · intro p hp
      rw [insertA_of_not_mem _ hi3] at hp
      rcases List.mem_append.mp hp with hp | hp
      · exact w14 p hp
      · rcases List.mem_singleton.mp hp with rfl
        constructor
        · exact evictFold_nodup _ _ (List.nodup_nil)
        · intro v hv
          rw [evictFold_mem] at hv
          rcases hv with hv | hv
          · cases hv
          · exact (hstinv.2 v hv.1 hv.2.1)
  · show lookupA (insertA db.index key IndexLocation.Big) key = _
    rw [lookupA_insertA_self]
  · -- the key's tag set is preserved by the migration
    intro v hv0
    have hnew : lookupA (insertA db.index key IndexLocation.Big) key =
        some IndexLocation.Big := lookupA_insertA_self _ _ _
    rw [hasTag_big hnew, hasTag_small hidx]
    show v ∈ (lookupA (insertA db.big_storage key _) key).getD [] ↔ _
    rw [lookupA_insertA_self, Option.getD_some, evictFold_mem]
    rw [get?_eq_some_getD hget]
    constructor
    · rintro (hv | hv)
      · cases hv
      · exact hv.1
    · intro hv
      exact Or.inr ⟨hv, hv0, hsttf v hv⟩
  · intro k hk
    show lookupA (insertA db.index key IndexLocation.Big) k = _
    rw [lookupA_insertA_ne _ _ hk]
  · intro k v hk
    unfold hasTag
    show (match lookupA (insertA db.index key IndexLocation.Big) k with
      | some (IndexLocation.Small j) => v ∈ db.small_storage.getD j []
      | some IndexLocation.Big =>
        v ∈ (lookupA (insertA db.big_storage key _) k).getD []
      | none => False) ↔ _
    rw [lookupA_insertA_ne _ _ hk, lookupA_insertA_ne _ _ hk]

end ElizaDB

namespace ElizaDB

theorem lookupA_of_mem_nodup {α β : Type} [DecidableEq α]
    {l : List (α × β)} (hnd : (l.map Prod.fst).Nodup) {k : α} {v : β}
    (hmem : (k, v) ∈ l) : lookupA l k = some v := by
  induction l with
  | nil => cases hmem
  | cons p rest ih =>
    obtain ⟨k0, v0⟩ := p
    simp only [List.map_cons, List.nodup_cons] at hnd
    by_cases h0 : k0 = k
    · subst h0
      rcases List.mem_cons.mp hmem with heq | hmem'
      · injection heq with h1 h2
        subst h2
        show (if k0 = k0 then some v else lookupA rest k0) = some v
        rw [if_pos rfl]
      · exact absurd (List.mem_map_of_mem Prod.fst hmem') hnd.1
    · show (if k0 = k then some v0 else lookupA rest k) = some v
      rw [if_neg h0]
      rcases List.mem_cons.mp hmem with heq | hmem'
      · injection heq with h1 h2
        exact absurd h1.symm h0
      · exact ih hnd.2 hmem'

theorem key_mem_bigKeys {n : Nat} {db : Database n} (hwf : WF db) {key : Nat}
    (hloc : lookupA db.index key = some IndexLocation.Big) :
    key ∈ db.big_storage.map Prod.fst := by
  have := hwf.indexOK _ (mem_of_lookupA hloc)
  exact this

/-- Replacing an existing `Big` key's set with a duplicate-free, id-bounded
set preserves the engine invariant. -/
theorem big_update_wf {n : Nat} {db2 : Database n} (hwf2 : WF db2) {key : Nat}
    (hloc : lookupA db2.index key = some IndexLocation.Big)
    {newSet : List Nat} (hnd : newSet.Nodup)
    (hbounds : ∀ v ∈ newSet, 1 ≤ v ∧ v ≤ db2.terms.length) :
    WF ({ db2 with big_storage := insertA db2.big_storage key newSet } :
      Database n) := by
  obtain ⟨w1, w2, w3, w4, w5, w6, w7, w8, w9, w10, w11, w12, w13, w14⟩ :=
    (wf_iff db2).mp hwf2
  have hkeymem : key ∈ db2.big_storage.map Prod.fst := key_mem_bigKeys hwf2 hloc
  have hkeys : (insertA db2.big_storage key newSet).map Prod.fst =
      db2.big_storage.map Prod.fst := map_fst_insertA_of_mem _ hkeymem
  rw [wf_iff]
  refine ⟨w1, w2, ?_, ?_, ?_, w6, w7, w8, ?_, w10, w11, w12, w13, ?_⟩
  · intro p hp
    have hloc0 := w3 p hp
    cases hpl : p.2 with
    | Small j =>
      rw [hpl] at hloc0
      obtain ⟨hj1, hj2, hj3, hj4⟩ := hloc0
      refine ⟨hj1, hj2, ?_, hj4⟩
      show p.1 ∉ (insertA db2.big_storage key newSet).map Prod.fst
      rw [hkeys]
      exact hj3
    | Big =>
      rw [hpl] at hloc0
      show p.1 ∈ (insertA db2.big_storage key newSet).map Prod.fst
      rw [hkeys]
      exact hloc0
  · intro i hi
    show boundOK _ i
    unfold boundOK
    cases hk : db2.small_keys.getD i none with
    | none => trivial
    | some k => exact boundOK_lookup (w4 i hi) hk
  · intro p hp
    rcases mem_insertA w9 hp with ⟨hmem, _⟩ | rfl
    · exact w5 p hmem
    · exact hloc
  · show ((insertA db2.big_storage key newSet).map Prod.fst).Nodup
    rw [hkeys]
    exact w9
  · intro p hp
    rcases mem_insertA w9 hp with ⟨hmem, _⟩ | rfl
    · exact w14 p hmem
    · exact ⟨hnd, hbounds⟩

theorem big_update_hasTag_self {n : Nat} {db2 : Database n} {key : Nat}
    (hloc : lookupA db2.index key = some IndexLocation.Big)
    (newSet : List Nat) (v : Nat) :
    hasTag ({ db2 with big_storage := insertA db2.big_storage key newSet } :
      Database n) key v ↔ v ∈ newSet := by
  unfold hasTag
  show (match lookupA db2.index key with
    | some (IndexLocation.Small i) => v ∈ db2.small_storage.getD i []
    | some IndexLocation.Big =>
      v ∈ (lookupA (insertA db2.big_storage key newSet) key).getD []
    | none => False) ↔ _
  simp only [hloc]
  rw [lookupA_insertA_self, Option.getD_some]

theorem big_update_hasTag_other {n : Nat} {db2 : Database n} {key k v : Nat}
    (newSet : List Nat) (hk : k ≠ key) :
    hasTag ({ db2 with big_storage := insertA db2.big_storage key newSet } :
      Database n) k v ↔ hasTag db2 k v := by
  unfold hasTag
  show (match lookupA db2.index k with
    | some (IndexLocation.Small i) => v ∈ db2.small_storage.getD i []
    | some IndexLocation.Big =>
      v ∈ (lookupA (insertA db2.big_storage key newSet) k).getD []
    | none => False) ↔ _
  rw [lookupA_insertA_ne _ _ hk]

/-- One pass of the `set_flag` body for a key already in the `Big` tier with
an already-interned term: the insert into the unbounded set always succeeds. -/
theorem setFlagAux_big {n : Nat} {db2 : Database n} (hwf2 : WF db2)
    {key : Nat} {term : String} {tid : Nat}
    (hterm : lookupA db2.terms term = some tid)
    (hloc : lookupA db2.index key = some IndexLocation.Big) :
    ∃ db' b, (∀ f, setFlagAux n (f + 1) db2 key term =
      some (db', Except.ok b)) ∧
      WF db' ∧ db'.terms = db2.terms ∧ db'.index = db2.index ∧
      hasTag db' key tid ∧
      (∀ v, v ≠ 0 → (hasTag db' key v ↔ hasTag db2 key v ∨ v = tid)) ∧
      (∀ k v, k ≠ key → (hasTag db' k v ↔ hasTag db2 k v)) ∧
      (b = true ↔ ¬hasTag db2 key tid) := by
  have htb := tid_bounds hwf2 hterm
  have hcreate : createRecord db2 key = some (db2, false) := by
    unfold createRecord
    rw [hloc]
    rfl
  have hkeymem : key ∈ db2.big_storage.map Prod.fst := key_mem_bigKeys hwf2 hloc
  obtain ⟨oldSet, holdmem⟩ := exists_pair_of_mem_fst hkeymem
  have holdlook : lookupA db2.big_storage key = some oldSet :=
    lookupA_of_mem_nodup hwf2.bigKeysNodup holdmem
  have holdfacts := hwf2.bigSetsOK _ holdmem
  have hunfold : ∀ f, setFlagAux n (f + 1) db2 key term =
      (if tid ∈ oldSet then
        some (({ db2 with big_storage := insertA db2.big_storage key oldSet } :
          Database n), Except.ok false)
      else
        some (({ db2 with
          big_storage := insertA db2.big_storage key (oldSet ++ [tid]) } :
          Database n), Except.ok true)) := by
    intro f
    simp only [setFlagAux, addTerm_known hterm, hcreate, hloc, holdlook,
      Option.getD_some]
  have heqtag : ∀ v, hasTag db2 key v ↔ v ∈ oldSet := by
    intro v
    rw [hasTag_big hloc, holdlook, Option.getD_some]
  by_cases hmem : tid ∈ oldSet
  · refine ⟨{ db2 with big_storage := insertA db2.big_storage key oldSet },
      false, ?_, ?_, rfl, rfl, ?_, ?_, ?_, ?_⟩
    · intro f
      rw [hunfold f, if_pos hmem]
    · exact big_update_wf hwf2 hloc holdfacts.1 holdfacts.2
    · rw [big_update_hasTag_self hloc]
      exact hmem
    · intro v _
      rw [big_update_hasTag_self hloc, heqtag]
      constructor
      · exact Or.inl
      · rintro (hv | rfl)
        · exact hv
        · exact hmem
    · intro k v hk
      exact big_update_hasTag_other _ hk
    · constructor
      · intro habs; cases habs
      · intro habs
        exact absurd ((heqtag tid).mpr hmem) habs
  · have hnd' : (oldSet ++ [tid]).Nodup := by
      rw [List.nodup_append]
      refine ⟨holdfacts.1, List.nodup_singleton _, ?_⟩
      intro x hx hx'
      rcases List.mem_singleton.mp hx' with rfl
      exact hmem hx
    have hbounds' : ∀ v ∈ oldSet ++ [tid], 1 ≤ v ∧ v ≤ db2.terms.length := by
      intro v hv
      rcases List.mem_append.mp hv with hv | hv
      · exact holdfacts.2 v hv
      · rcases List.mem_singleton.mp hv with rfl
        exact htb
    refine ⟨{ db2 with
        big_storage := insertA db2.big_storage key (oldSet ++ [tid]) },
      true, ?_, ?_, rfl, rfl, ?_, ?_, ?_, ?_⟩
    · intro f
      rw [hunfold f, if_neg hmem]
    · exact big_update_wf hwf2 hloc hnd' hbounds'
    · rw [big_update_hasTag_self hloc]
      exact List.mem_append_right _ (List.mem_singleton_self _)
    · intro v _
      rw [big_update_hasTag_self hloc, heqtag]
      constructor
      · intro hv
        rcases List.mem_append.mp hv with hv | hv
        · exact Or.inl hv
        · exact Or.inr (List.mem_singleton.mp hv)
      · rintro (hv | rfl)
        · exact List.mem_append_left _ hv
        · exact List.mem_append_right _ (List.mem_singleton_self _)
    · intro k v hk
      exact big_update_hasTag_other _ hk
    · constructor
      · intro _
        intro habs
        exact hmem ((heqtag tid).mp habs)
      · intro _; rfl

end ElizaDB

namespace ElizaDB

theorem insert_length_zero {l : List Nat} {d : Nat} (h : l.length = 0) :
    Smallset.insert l d = none := by
  unfold Smallset.insert Smallset.locate
  rw [h]
  rfl

/-- Dispatch of the `set_flag` body over the key's tier, after the intern
and create steps have been resolved to a state `db2`. -/
theorem setFlag_mainCases {n : Nat} {db db1 db2 : Database n}
    {key tid : Nat} {term : String} {created : Bool} {loc2 : IndexLocation}
    (hwf : WF db)
    (heq1 : addTerm db term = (db1, Except.ok tid))
    (heq2 : createRecord db1 key = some (db2, created))
    (hterm1 : lookupA db1.terms term = some tid)
    (hterm2 : lookupA db2.terms term = some tid)
    (hvalid : Smallset.ValidItem tid)
    (h1le : 1 ≤ tid)
    (htidle2 : tid ≤ db2.terms.length)
    (htermdisj : db1.terms = db.terms ∨
      (lookupA db.terms term = none ∧ tid = db.terms.length + 1 ∧
       db1.terms = db.terms ++ [(term, tid)]))
    (hterms2 : db2.terms = db1.terms)
    (hloc2 : lookupA db2.index key = some loc2)
    (htagkey2 : ∀ v, v ≠ 0 → (hasTag db2 key v ↔ hasTag db key v))
    (htagoth2 : ∀ k v, k ≠ key → (hasTag db2 k v ↔ hasTag db k v))
    (hwf2 : WF db2) :
    ∃ db' r, (∀ f, setFlagAux n (f + 1 + 1) db key term = some (db', r)) ∧
      WF db' ∧
      ((r = Except.error ()) ↔
        (lookupA db.terms term = none ∧ db.terms.length = 253)) ∧
      (r = Except.error () → db' = db) ∧
      (∀ b, r = Except.ok b → ∃ tid,
        lookupA db'.terms term = some tid ∧ Smallset.ValidItem tid ∧
        (db'.terms = db.terms ∨
          (lookupA db.terms term = none ∧ tid = db.terms.length + 1 ∧
           db'.terms = db.terms ++ [(term, tid)])) ∧
        hasTag db' key tid ∧
        (∀ v, v ≠ 0 → (hasTag db' key v ↔ hasTag db key v ∨ v = tid)) ∧
        (∀ k v, k ≠ key → (hasTag db' k v ↔ hasTag db k v)) ∧
        (b = true ↔ ¬hasTag db key tid)) := by
  have htid0 : tid ≠ 0 := hvalid.1
  have hnotfull : ¬(lookupA db.terms term = none ∧ db.terms.length = 253) := by
    rintro ⟨ha, hb⟩
    rw [addTerm_full ha hb] at heq1
    injection heq1 with h1 h2
    cases h2
  cases loc2 with
  | Small i =>
    -- inline slot: try the Smallset insert
    have hiOK := hwf2.indexOK _ (mem_of_lookupA hloc2)
    have hi1 : i < db2.small_keys.length := hiOK.1
    have hi1' : i < db2.small_storage.length := by
      have := hwf2.lens
      omega
    have hget : db2.small_storage.get? i = some db2.small_storage[i] := by
      rw [List.get?_eq_getElem?, List.getElem?_eq_getElem hi1']
    have hstmem : db2.small_storage[i] ∈ db2.small_storage :=
      List.getElem_mem hi1'
    have hstfacts := hwf2.smallSetsOK _ hstmem
    have hsttag : ∀ v, hasTag db2 key v ↔ v ∈ db2.small_storage[i] := by
      intro v
      rw [hasTag_small hloc2, get?_eq_some_getD hget]
    cases hins : Smallset.insert db2.small_storage[i] tid with
    | some pr =>
      obtain ⟨st', isNew⟩ := pr
      have hn0 : 0 < db2.small_storage[i].length := by
        rcases Nat.eq_zero_or_pos db2.small_storage[i].length with h0 | h
        · rw [insert_length_zero h0] at hins
          cases hins
        · exact h
      obtain ⟨l', b', heqi, hinv', hlen', hmemu, hbtrue, _⟩ :=
        Smallset.insert_sound hn0 hstfacts.1 hvalid
          (by rw [hins]; intro h; cases h)
      rw [hins] at heqi
      injection heqi with heqi
      have hlpair : st' = l' := congrArg Prod.fst heqi
      have hbpair : isNew = b' := congrArg Prod.snd heqi
      subst hlpair
      subst hbpair
      have heqn : ∀ f, setFlagAux n (f + 1 + 1) db key term =
          some (({ db2 with small_storage := db2.small_storage.set i st' } :
            Database n), Except.ok isNew) := by
        intro f
        simp only [setFlagAux, heq1, heq2, hloc2, hget, hins]
      refine ⟨_, Except.ok isNew, heqn, ?_, ?_, ?_, ?_⟩
      · -- invariant for the updated inline slot
        obtain ⟨w1, w2, w3, w4, w5, w6, w7, w8, w9, w10, w11, w12, w13, w14⟩ :=
          (wf_iff db2).mp hwf2
        rw [wf_iff]
        refine ⟨?_, ?_, w3, w4, w5, w6, w7, w8, w9, w10, w11, w12, ?_, w14⟩
        · show db2.small_keys.length = (db2.small_storage.set i st').length
          rw [List.length_set]
          exact w1
        · intro s hs
          rcases List.mem_or_eq_of_mem_set hs with hs | rfl
          · exact w2 s hs
          · rw [hlen']
            exact w2 _ hstmem
        · intro s hs
          rcases List.mem_or_eq_of_mem_set hs with hs | rfl
          · exact w13 s hs
          · refine ⟨hinv', ?_⟩
            intro v hv hv0
            rcases (hmemu v hv0).mp hv with hv | rfl
            · exact (w13 _ hstmem).2 v hv hv0
            · exact ⟨h1le, htidle2⟩
      · constructor
        · intro habs; cases habs
        · intro habs; exact absurd habs hnotfull
      · intro habs; cases habs
      · intro b hb
        injection hb with hb
        subst hb
        have hnewtag : ∀ v, hasTag ({ db2 with
            small_storage := db2.small_storage.set i st' } : Database n) key v ↔
            v ∈ st' := by
          intro v
          unfold hasTag
          show (match lookupA db2.index key with
            | some (IndexLocation.Small j) =>
              v ∈ (db2.small_storage.set i st').getD j []
            | some IndexLocation.Big => v ∈ (lookupA db2.big_storage key).getD []
            | none => False) ↔ _
          simp only [hloc2]
          rw [getDo_set_self hi1']
        refine ⟨tid, ?_, hvalid, ?_, ?_, ?_, ?_, ?_⟩
        · show lookupA db2.terms term = some tid
          exact hterm2
        · show db2.terms = db.terms ∨ _
          rw [hterms2]
          exact htermdisj
        · rw [hnewtag]
          exact (hmemu tid htid0).mpr (Or.inr rfl)
        · intro v hv0
          rw [hnewtag, hmemu v hv0, ← hsttag, htagkey2 v hv0]
        · intro k v hk
          rw [← htagoth2 k v hk]
          unfold hasTag
          show (match lookupA db2.index k with
            | some (IndexLocation.Small j) =>
              v ∈ (db2.small_storage.set i st').getD j []
            | some IndexLocation.Big => v ∈ (lookupA db2.big_storage k).getD []
            | none => False) ↔ _
          cases hlk : lookupA db2.index k with
          | none => exact Iff.rfl
          | some lk =>
            cases lk with
            | Big => exact Iff.rfl
            | Small j =>
              have hkOK := hwf2.indexOK _ (mem_of_lookupA hlk)
              have hji : j ≠ i := by
                intro habs
                have h1 := hkOK.2.1
                have h2 := hiOK.2.1
                rw [habs] at h1
                rw [h1] at h2
                injection h2 with h2
                exact hk h2
              show v ∈ (db2.small_storage.set i st').getD j [] ↔
                v ∈ db2.small_storage.getD j []
              rw [getDo_set_ne (fun h => hji h.symm)]
        · rw [hbtrue, ← hsttag tid, htagkey2 tid htid0]
    | none =>
      -- the inline set is full: evict and retry against big storage
      obtain ⟨db3, hevicteq, hwf3, hterms3, hstor3, hloc3, htagkey3, hidxoth3,
        htagoth3⟩ := evict_spec hwf2 hloc2
      have hterm3 : lookupA db3.terms term = some tid := by
        rw [hterms3]; exact hterm2
      obtain ⟨db', b, hbigeq, hwf', hterms', hidx', htagtid', htagkeyu',
        htagoth', hbiff⟩ := setFlagAux_big hwf3 hterm3 hloc3
      have heqn : ∀ f, setFlagAux n (f + 1 + 1) db key term =
          some (db', Except.ok b) := by
        intro f
        have hstep : setFlagAux n (f + 1 + 1) db key term =
            setFlagAux n (f + 1) db3 key term := by
          simp only [setFlagAux, heq1, heq2, hloc2, hget, hins, hevicteq]
        rw [hstep, hbigeq f]
      refine ⟨db', Except.ok b, heqn, hwf', ?_, ?_, ?_⟩
      · constructor
        · intro habs; cases habs
        · intro habs; exact absurd habs hnotfull
      · intro habs; cases habs
      · intro b0 hb0
        injection hb0 with hb0
        subst hb0
        refine ⟨tid, ?_, hvalid, ?_, htagtid', ?_, ?_, ?_⟩
        · rw [hterms', hterms3]
          exact hterm2
        · rw [hterms', hterms3, hterms2]
          exact htermdisj
        · intro v hv0
          rw [htagkeyu' v hv0, htagkey3 v hv0, htagkey2 v hv0]
        · intro k v hk
          rw [htagoth' k v hk, htagoth3 k v hk, htagoth2 k v hk]
        · rw [hbiff, htagkey3 tid htid0, htagkey2 tid htid0]
  | Big =>
    have hcreate2 : createRecord db2 key = some (db2, false) := by
      unfold createRecord
      rw [hloc2]
      rfl
    obtain ⟨db', b, hbigeq, hwf', hterms', hidx', htagtid', htagkeyu',
      htagoth', hbiff⟩ := setFlagAux_big hwf2 hterm2 hloc2
    have heqn : ∀ f, setFlagAux n (f + 1 + 1) db key term =
        some (db', Except.ok b) := by
      intro f
      have hstep : setFlagAux n (f + 1 + 1) db key term =
          setFlagAux n (f + 1) db2 key term := by
        simp only [setFlagAux, heq1, heq2, addTerm_known hterm2, hcreate2,
          hloc2]
      rw [hstep, hbigeq f]
    refine ⟨db', Except.ok b, heqn, hwf', ?_, ?_, ?_⟩
    · constructor
      · intro habs; cases habs
      · intro habs; exact absurd habs hnotfull
    · intro habs; cases habs
    · intro b0 hb0
      injection hb0 with hb0
      subst hb0
      refine ⟨tid, ?_, hvalid, ?_, htagtid', ?_, ?_, ?_⟩
      · rw [hterms']
        exact hterm2
      · rw [hterms', hterms2]
        exact htermdisj
      · intro v hv0
        rw [htagkeyu' v hv0, htagkey2 v hv0]
      · intro k v hk
        rw [htagoth' k v hk, htagoth2 k v hk]
      · rw [hbiff, htagkey2 tid htid0]

/-- Full behaviour of one `set_flag` call on a well-formed state, for any
recursion budget of at least two: it never panics, preserves the invariant,
fails exactly when interning a fresh term hits the 253-term cap, and on
success records exactly the one requested tag for the requested key. -/
theorem setFlag_spec {n : Nat} {db : Database n} (hwf : WF db)
    (key : Nat) (term : String) :
    ∃ db' r, setFlag db key term = some (db', r) ∧
      (∀ f, setFlagAux n (f + 1 + 1) db key term = some (db', r)) ∧ WF db' ∧
      ((r = Except.error ()) ↔
        (lookupA db.terms term = none ∧ db.terms.length = 253)) ∧
      (r = Except.error () → db' = db) ∧
      (∀ b, r = Except.ok b → ∃ tid,
        lookupA db'.terms term = some tid ∧ Smallset.ValidItem tid ∧
        (db'.terms = db.terms ∨
          (lookupA db.terms term = none ∧ tid = db.terms.length + 1 ∧
           db'.terms = db.terms ++ [(term, tid)])) ∧
        hasTag db' key tid ∧
        (∀ v, v ≠ 0 → (hasTag db' key v ↔ hasTag db key v ∨ v = tid)) ∧
        (∀ k v, k ≠ key → (hasTag db' k v ↔ hasTag db k v)) ∧
        (b = true ↔ ¬hasTag db key tid)) := by
  obtain ⟨db1, r1, heq1, hwf1, hiff1, herr1, hok1⟩ := addTerm_spec hwf term
  cases r1 with
  | error e =>
    cases e
    have heqn : ∀ f, setFlagAux n (f + 1 + 1) db key term =
        some (db1, Except.error ()) := by
      intro f
      simp only [setFlagAux, heq1]
    have hdb1 : db1 = db := herr1 rfl
    subst hdb1
    refine ⟨db1, Except.error (), heqn 0, heqn, hwf1,
      ⟨fun _ => hiff1.mp rfl, fun _ => rfl⟩, fun _ => rfl, ?_⟩
    intro b hb
    cases hb
  | ok tid =>
    obtain ⟨hterm1, hvalid, h1le, htidle, hlemon, hcases⟩ := hok1 tid rfl
    -- the interner step only touches `terms`
    have hidx1 : db1.index = db.index := by
      rcases hcases with ⟨rfl, _⟩ | ⟨_, _, _, h, _⟩
      · rfl
      · exact h
    have hstor1 : db1.small_storage = db.small_storage := by
      rcases hcases with ⟨rfl, _⟩ | ⟨_, _, _, _, _, _, h, _⟩
      · rfl
      · exact h
    have hbig1 : db1.big_storage = db.big_storage := by
      rcases hcases with ⟨rfl, _⟩ | ⟨_, _, _, _, _, _, _, h⟩
      · rfl
      · exact h
    have htag1 : ∀ k v, hasTag db1 k v ↔ hasTag db k v := by
      intro k v
      unfold hasTag
      rw [hidx1, hstor1, hbig1]
    have htermdisj : db1.terms = db.terms ∨
        (lookupA db.terms term = none ∧ tid = db.terms.length + 1 ∧
         db1.terms = db.terms ++ [(term, tid)]) := by
      rcases hcases with ⟨rfl, _⟩ | ⟨h1, h2, h3, _⟩
      · exact Or.inl rfl
      · exact Or.inr ⟨h1, h2, h3⟩
    obtain ⟨db2, created, heq2, hwf2, hterms2, hbig2, hsome2, hnone2⟩ :=
      createRecord_spec hwf1 key
    have hterm2 : lookupA db2.terms term = some tid := by
      rw [hterms2]; exact hterm1
    have htidle2 : tid ≤ db2.terms.length := by
      rw [hterms2]; exact htidle
    -- a location for the key always exists after `create_record`
    cases hkey1 : lookupA db1.index key with
    | some loc1 =>
      have hsome := hsome2 (by rw [hkey1]; rfl)
      obtain ⟨hdb2, hcreated⟩ := hsome
      subst hdb2
      have hloc2 : lookupA db2.index key = some loc1 := hkey1
      have htagkey2 : ∀ v, v ≠ 0 → (hasTag db2 key v ↔ hasTag db key v) :=
        fun v _ => htag1 key v
      have htagoth2 : ∀ k v, k ≠ key → (hasTag db2 k v ↔ hasTag db k v) :=
        fun k v _ => htag1 k v
      obtain ⟨db', r, heqs, rest⟩ := setFlag_mainCases hwf heq1 heq2 hterm1
        hterm2 hvalid h1le htidle2 htermdisj hterms2 hloc2 htagkey2 htagoth2
        hwf2
      exact ⟨db', r, heqs 0, heqs, rest⟩
    | none =>
      obtain ⟨hcreated, ⟨i, hloci, hgeti⟩, hidxo, htago⟩ := hnone2 hkey1
      have hloc2 : lookupA db2.index key = some (IndexLocation.Small i) := hloci
      have htagkey2 : ∀ v, v ≠ 0 → (hasTag db2 key v ↔ hasTag db key v) := by
        intro v hv0
        rw [hasTag_small hloci, get?_eq_some_getD hgeti]
        constructor
        · intro hmem
          rw [Smallset.newEmpty, List.mem_replicate] at hmem
          exact absurd hmem.2 hv0
        · intro hmem
          exfalso
          have : lookupA db.index key = none := by rw [← hidx1]; exact hkey1
          exact hasTag_none this hmem
      have htagoth2 : ∀ k v, k ≠ key → (hasTag db2 k v ↔ hasTag db k v) := by
        intro k v hk
        rw [htago k v hk]
        exact htag1 k v
      obtain ⟨db', r, heqs, rest⟩ := setFlag_mainCases hwf heq1 heq2 hterm1
        hterm2 hvalid h1le htidle2 htermdisj hterms2 hloc2 htagkey2 htagoth2
        hwf2
      exact ⟨db', r, heqs 0, heqs, rest⟩

end ElizaDB

namespace ElizaDB

/-! ## Shared query-scan lemmas

Both vertical queries scan the bound inline slots (the zip of `small_keys`
with `small_storage`) and then big storage, applying a per-key boolean
check; the lemmas here characterize membership in and deduplication of such
scans on a well-formed state. -/

theorem contains_iff_mem0 {l : List Nat} {d : Nat}
    (hinv : Smallset.SetInv l) (hd : Smallset.ValidItem d) :
    Smallset.contains l d = true ↔ d ∈ l := by
  cases l with
  | nil =>
    constructor
    · intro hc
      have hfalse : Smallset.contains [] d = false := rfl
      rw [hfalse] at hc
      cases hc
    · intro hm; cases hm
  | cons a rest => exact Smallset.contains_iff_mem (by simp) hinv hd

theorem zip_filterMap_key_sublist (g : Option Nat × List Nat → Option Nat)
    (hg : ∀ p x, g p = some x → p.1 = some x) (keys : List (Option Nat)) :
    ∀ sts : List (List Nat),
      ((keys.zip sts).filterMap g).Sublist (keys.filterMap id) := by
  induction keys with
  | nil => intro sts; simp
  | cons a keys ih =>
    intro sts
    cases sts with
    | nil => simp
    | cons st sts =>
      have hz : ((a :: keys).zip (st :: sts)) = (a, st) :: keys.zip sts := rfl
      rw [hz]
      cases a with
      | none =>
        have hgn : g (none, st) = none := by
          cases hgeq : g (none, st) with
          | none => rfl
          | some x => cases hg _ _ hgeq
        rw [List.filterMap_cons_none hgn,
          List.filterMap_cons_none (show id (none : Option Nat) = none from rfl)]
        exact ih sts
      | some k =>
        rw [List.filterMap_cons_some
          (show id (some k) = some k from rfl)]
        cases hgeq : g (some k, st) with
        | none =>
          rw [List.filterMap_cons_none hgeq]
          exact List.Sublist.cons k (ih sts)
        | some x =>
          have hx : x = k := by
            have := hg _ _ hgeq
            injection this with h
            exact h.symm
          subst hx
          rw [List.filterMap_cons_some hgeq]
          exact List.Sublist.cons₂ x (ih sts)

theorem filterMap_fst_sublist {β : Type} (g : Nat × β → Option Nat)
    (hg : ∀ p x, g p = some x → p.1 = x) (l : List (Nat × β)) :
    (l.filterMap g).Sublist (l.map Prod.fst) := by
  induction l with
  | nil => simp
  | cons p l ih =>
    rw [List.map_cons]
    cases hgeq : g p with
    | none =>
      rw [List.filterMap_cons_none hgeq]
      exact List.Sublist.cons p.1 ih
    | some x =>
      have hx : x = p.1 := (hg _ _ hgeq).symm
      rw [List.filterMap_cons_some hgeq, hx]
      exact List.Sublist.cons₂ p.1 ih

theorem filterMap_id_nodup {l : List (Option Nat)}
    (hinj : ∀ (i j x : Nat), l[i]? = some (some x) →
      l[j]? = some (some x) → i = j) :
    (l.filterMap id).Nodup := by
  induction l with
  | nil => simp
  | cons a l ih =>
    have hinj' : ∀ (i j x : Nat), l[i]? = some (some x) →
        l[j]? = some (some x) → i = j := by
      intro i j x hi hj
      have hi1 : (a :: l)[i + 1]? = some (some x) := by
        rw [List.getElem?_cons_succ]; exact hi
      have hj1 : (a :: l)[j + 1]? = some (some x) := by
        rw [List.getElem?_cons_succ]; exact hj
      have := hinj (i + 1) (j + 1) x hi1 hj1
      omega
    cases a with
    | none =>
      rw [List.filterMap_cons_none (show id (none : Option Nat) = none from rfl)]
      exact ih hinj'
    | some x =>
      rw [List.filterMap_cons_some (show id (some x) = some x from rfl)]
      rw [List.nodup_cons]
      refine ⟨?_, ih hinj'⟩
      intro hmem
      obtain ⟨b, hb, hbx⟩ := List.mem_filterMap.mp hmem
      have hbx' : b = some x := by
        cases b with
        | none => cases hbx
        | some y => injection hbx with h; rw [h]
      subst hbx'
      obtain ⟨j, hjeq⟩ := List.mem_iff_getElem?.mp hb
      have h0 : (some x :: l)[0]? = some (some x) :=
        List.getElem?_cons_zero
      have hj1 : (some x :: l)[j + 1]? = some (some x) := by
        rw [List.getElem?_cons_succ]; exact hjeq
      have := hinj 0 (j + 1) x h0 hj1
      omega

end ElizaDB

namespace ElizaDB

theorem boundKeys_nodup {n : Nat} {db : Database n} (hwf : WF db) :
    (db.small_keys.filterMap id).Nodup := by
  apply filterMap_id_nodup
  intro i j x hi hj
  have hilt : i < db.small_keys.length := by
    by_contra h
    rw [List.getElem?_eq_none (by omega)] at hi
    cases hi
  have hjlt : j < db.small_keys.length := by
    by_contra h
    rw [List.getElem?_eq_none (by omega)] at hj
    cases hj
  have hgi : db.small_keys.getD i none = some x := by
    rw [List.getD_eq_getElem?_getD, hi, Option.getD_some]
  have hgj : db.small_keys.getD j none = some x := by
    rw [List.getD_eq_getElem?_getD, hj, Option.getD_some]
  have h1 := boundOK_lookup (hwf.slotsOK i hilt) hgi
  have h2 := boundOK_lookup (hwf.slotsOK j hjlt) hgj
  rw [h1] at h2
  injection h2 with h2
  injection h2

theorem scan_mem_small {n : Nat} {db : Database n} (hwf : WF db)
    (chk : List Nat → Bool) (k : Nat) :
    k ∈ (db.small_keys.zip db.small_storage).filterMap (fun p =>
        match p.1 with
        | none => none
        | some key => if chk p.2 then some key else none) ↔
      ∃ i st, lookupA db.index k = some (IndexLocation.Small i) ∧
        db.small_storage.get? i = some st ∧ chk st = true := by
  constructor
  · intro hmem
    obtain ⟨p, hp, hfp⟩ := List.mem_filterMap.mp hmem
    obtain ⟨i, hi, hpeq⟩ := List.mem_iff_getElem.mp hp
    have hki : i < db.small_keys.length := by
      rw [List.length_zip] at hi
      omega
    have hsi : i < db.small_storage.length := by
      rw [List.length_zip] at hi
      omega
    have hz : (db.small_keys.zip db.small_storage)[i] =
        (db.small_keys[i], db.small_storage[i]) :=
      @List.getElem_zip _ _ db.small_keys db.small_storage i hi
    rw [hz] at hpeq
    subst hpeq
    cases hk : db.small_keys[i] with
    | none =>
      rw [hk] at hfp
      cases hfp
    | some key =>
      rw [hk] at hfp
      have hfp2 : (if chk db.small_storage[i] then some key else none) =
          some k := hfp
      by_cases hc : chk db.small_storage[i] = true
      · rw [if_pos hc] at hfp2
        injection hfp2 with hfp2
        have hgd : db.small_keys.getD i none = some k := by
          rw [List.getD_eq_getElem?_getD, List.getElem?_eq_getElem hki, hk,
            hfp2, Option.getD_some]
        refine ⟨i, db.small_storage[i], boundOK_lookup (hwf.slotsOK i hki) hgd,
          ?_, hc⟩
        rw [List.get?_eq_getElem?, List.getElem?_eq_getElem hsi]
      · rw [if_neg hc] at hfp2
        cases hfp2
  · rintro ⟨i, st, hloc, hget, hchk⟩
    have hlocOK := hwf.indexOK _ (mem_of_lookupA hloc)
    have hki : i < db.small_keys.length := hlocOK.1
    have hgd : db.small_keys.getD i none = some k := hlocOK.2.1
    have hkival : db.small_keys[i] = some k := by
      rw [List.getD_eq_getElem?_getD, List.getElem?_eq_getElem hki,
        Option.getD_some] at hgd
      exact hgd
    have hsi : i < db.small_storage.length := by
      rw [List.get?_eq_getElem?] at hget
      exact (List.getElem?_eq_some_iff.mp hget).1
    have hstval : db.small_storage[i] = st := by
      rw [List.get?_eq_getElem?, List.getElem?_eq_getElem hsi] at hget
      injection hget
    have hzi : i < (db.small_keys.zip db.small_storage).length := by
      rw [List.length_zip]
      omega
    apply List.mem_filterMap.mpr
    refine ⟨(some k, st), ?_, ?_⟩
    · apply List.mem_iff_getElem.mpr
      refine ⟨i, hzi, ?_⟩
      rw [@List.getElem_zip _ _ db.small_keys db.small_storage i hzi, hkival,
        hstval]
    · show (if chk st then some k else none) = some k
      rw [if_pos hchk]

theorem scan_mem_big {n : Nat} {db : Database n} (hwf : WF db)
    (chk : List Nat → Bool) (k : Nat) :
    k ∈ db.big_storage.filterMap (fun p =>
        if chk p.2 then some p.1 else none) ↔
      ∃ set, lookupA db.big_storage k = some set ∧ chk set = true := by
  constructor
  · intro hmem
    obtain ⟨p, hp, hfp⟩ := List.mem_filterMap.mp hmem
    by_cases hc : chk p.2 = true
    · rw [if_pos hc] at hfp
      injection hfp with hfp
      subst hfp
      exact ⟨p.2, lookupA_of_mem_nodup hwf.bigKeysNodup (by
        rw [← @Prod.mk.eta _ _ p] at hp
        exact hp), hc⟩
    · rw [if_neg hc] at hfp
      cases hfp
  · rintro ⟨set, hlook, hchk⟩
    apply List.mem_filterMap.mpr
    refine ⟨(k, set), mem_of_lookupA hlook, ?_⟩
    show (if chk set then some k else none) = some k
    rw [if_pos hchk]

theorem index_big_of_lookup {n : Nat} {db : Database n} (hwf : WF db)
    {k : Nat} {set : List Nat} (h : lookupA db.big_storage k = some set) :
    lookupA db.index k = some IndexLocation.Big :=
  hwf.bigOK _ (mem_of_lookupA h)

theorem scan_nodup {n : Nat} {db : Database n} (hwf : WF db)
    (chkS chkB : List Nat → Bool) :
    ((db.small_keys.zip db.small_storage).filterMap (fun p =>
        match p.1 with
        | none => none
        | some key => if chkS p.2 then some key else none)
      ++ db.big_storage.filterMap (fun p =>
        if chkB p.2 then some p.1 else none)).Nodup := by
  have hgS : ∀ (p : Option Nat × List Nat) (x : Nat),
      (match p.1 with
       | none => none
       | some key => if chkS p.2 then some key else none) = some x →
      p.1 = some x := by
    rintro ⟨pk, pst⟩ x hpx
    cases pk with
    | none => cases hpx
    | some key =>
      by_cases hc : chkS pst = true
      · rw [show (match (some key, pst).1 with
          | none => none
          | some key => if chkS (some key, pst).2 then some key else none) =
            if chkS pst then some key else none from rfl, if_pos hc] at hpx
        injection hpx with hpx
        rw [hpx]
      · rw [show (match (some key, pst).1 with
          | none => none
          | some key => if chkS (some key, pst).2 then some key else none) =
            if chkS pst then some key else none from rfl, if_neg hc] at hpx
        cases hpx
  have hgB : ∀ (p : Nat × List Nat) (x : Nat),
      (if chkB p.2 then some p.1 else none) = some x → p.1 = x := by
    intro p x hpx
    by_cases hc : chkB p.2 = true
    · rw [if_pos hc] at hpx
      injection hpx
    · rw [if_neg hc] at hpx
      cases hpx
  rw [List.nodup_append]
  refine ⟨(zip_filterMap_key_sublist _ hgS _ _).nodup (boundKeys_nodup hwf),
    (filterMap_fst_sublist _ hgB _).nodup hwf.bigKeysNodup, ?_⟩
  intro a ha hb
  obtain ⟨i, st, hloc, _, _⟩ := (scan_mem_small hwf chkS a).mp ha
  obtain ⟨set, hlook, _⟩ := (scan_mem_big hwf chkB a).mp hb
  have hbig := index_big_of_lookup hwf hlook
  rw [hloc] at hbig
  injection hbig with hbig
  injection hbig

end ElizaDB

namespace ElizaDB

/-! ## Per-key counting loop and term resolution -/

theorem kofnLoop_iff (check : Nat → Bool) (bound : Nat) :
    ∀ (items : List Nat) (total : Nat),
      (kofnLoop check bound items total = true ↔
        (items ≠ [] ∧ bound ≤ total + items.countP check)) := by
  intro items
  induction items with
  | nil =>
    intro total
    constructor
    · intro h; cases h
    · rintro ⟨habs, _⟩; exact absurd rfl habs
  | cons item rest ih =>
    intro total
    have hcnt : (item :: rest).countP check =
        rest.countP check + (if check item = true then 1 else 0) :=
      List.countP_cons _ _ _
    by_cases hchk : check item = true
    · have hunfold : kofnLoop check bound (item :: rest) total =
          (if bound ≤ total + 1 then true
           else kofnLoop check bound rest (total + 1)) := by
        show (if bound ≤ (if check item then total + 1 else total) then true
          else kofnLoop check bound rest
            (if check item then total + 1 else total)) =
          (if bound ≤ total + 1 then true
           else kofnLoop check bound rest (total + 1))
        rw [if_pos hchk]
      rw [hunfold, hcnt, if_pos hchk]
      by_cases hb : bound ≤ total + 1
      · rw [if_pos hb]
        constructor
        · intro _
          exact ⟨by simp, by omega⟩
        · intro _; rfl
      · rw [if_neg hb, ih (total + 1)]
        constructor
        · rintro ⟨_, hle⟩
          exact ⟨by simp, by omega⟩
        · rintro ⟨_, hle⟩
          refine ⟨?_, by omega⟩
          intro hnil
          rw [hnil] at hle
          simp only [List.countP_nil] at hle
          omega
    · have hunfold : kofnLoop check bound (item :: rest) total =
          (if bound ≤ total then true
           else kofnLoop check bound rest total) := by
        show (if bound ≤ (if check item then total + 1 else total) then true
          else kofnLoop check bound rest
            (if check item then total + 1 else total)) =
          (if bound ≤ total then true
           else kofnLoop check bound rest total)
        rw [if_neg hchk]
      rw [hunfold, hcnt, if_neg hchk]
      by_cases hb : bound ≤ total
      · rw [if_pos hb]
        constructor
        · intro _
          exact ⟨by simp, by omega⟩
        · intro _; rfl
      · rw [if_neg hb, ih total]
        constructor
        · rintro ⟨_, hle⟩
          exact ⟨by simp, by omega⟩
        · rintro ⟨_, hle⟩
          refine ⟨?_, by omega⟩
          intro hnil
          rw [hnil] at hle
          simp only [List.countP_nil] at hle
          omega

theorem resolveTerms_spec {n : Nat} (db : Database n) :
    ∀ terms resolved, resolveTerms db terms = Except.ok resolved →
      resolved.length = terms.length ∧
      ∀ t ∈ resolved, ∃ s ∈ terms, lookupA db.terms s = some t := by
  intro terms
  induction terms with
  | nil =>
    intro resolved h
    have h' : Except.ok (ε := String) ([] : List Nat) = Except.ok resolved := h
    injection h' with h'
    subst h'
    exact ⟨rfl, by intro t ht; cases ht⟩
  | cons term rest ih =>
    intro resolved h
    simp only [resolveTerms] at h
    cases hg : getTermId db term with
    | none =>
      rw [hg] at h
      cases h
    | some id =>
      rw [hg] at h
      cases hr : resolveTerms db rest with
      | error e =>
        rw [hr] at h
        cases h
      | ok ids =>
        rw [hr] at h
        injection h with h
        subst h
        obtain ⟨hlen, hmem⟩ := ih ids hr
        refine ⟨by simp [hlen], ?_⟩
        intro t ht
        rcases List.mem_cons.mp ht with rfl | ht'
        · exact ⟨term, List.mem_cons_self term rest, hg⟩
        · obtain ⟨s, hs, hls⟩ := hmem t ht'
          exact ⟨s, List.mem_cons_of_mem term hs, hls⟩

theorem termsIds_nodup {n : Nat} {db : Database n} (hwf : WF db) :
    (db.terms.map Prod.snd).Nodup := by
  rw [hwf.termsIds]
  exact List.nodup_range' 1 db.terms.length

theorem find?_id_of_mem {l : List (String × Nat)}
    (hnd : (l.map Prod.snd).Nodup) {t : String} {v : Nat}
    (hmem : (t, v) ∈ l) : l.find? (fun p => p.2 == v) = some (t, v) := by
  induction l with
  | nil => cases hmem
  | cons p rest ih =>
    rw [List.map_cons, List.nodup_cons] at hnd
    rcases List.mem_cons.mp hmem with heq | hmem2
    · have hb : (p.2 == v) = true := by
        rw [← heq]
        simp
      simp only [List.find?_cons, hb]
      exact congrArg some heq.symm
    · have hvmem : v ∈ rest.map Prod.snd :=
        List.mem_map_of_mem Prod.snd hmem2
      have hne : p.2 ≠ v := fun habs => hnd.1 (habs ▸ hvmem)
      have hb : (p.2 == v) = false := by
        simp [hne]
      simp only [List.find?_cons, hb]
      exact ih hnd.2 hmem2

theorem explainTermId_of_lookup {n : Nat} {db : Database n} (hwf : WF db)
    {t : String} {v : Nat} (h : lookupA db.terms t = some v) :
    explainTermId db v = some t := by
  have hfind := find?_id_of_mem (termsIds_nodup hwf) (mem_of_lookupA h)
  unfold explainTermId
  rw [hfind]

theorem lookup_terms_inj {n : Nat} {db : Database n} (hwf : WF db)
    {t1 t2 : String} {v : Nat} (h1 : lookupA db.terms t1 = some v)
    (h2 : lookupA db.terms t2 = some v) : t1 = t2 := by
  have hf1 := find?_id_of_mem (termsIds_nodup hwf) (mem_of_lookupA h1)
  have hf2 := find?_id_of_mem (termsIds_nodup hwf) (mem_of_lookupA h2)
  rw [hf1] at hf2
  injection hf2 with hf2
  exact congrArg Prod.fst hf2

theorem validItem_of_lookup {n : Nat} {db : Database n} (hwf : WF db)
    {t : String} {v : Nat} (h : lookupA db.terms t = some v) :
    Smallset.ValidItem v := by
  have hb := tid_bounds hwf h
  have hlen := hwf.termsLen
  simp only [Smallset.ValidItem, Smallset.EMPTY_SLOT, Smallset.TOMBSTONE]
  omega

end ElizaDB

namespace ElizaDB

/-! ## Tag lookup on each tier -/

theorem mem_of_get? {α : Type} {l : List α} {i : Nat} {a : α}
    (h : l.get? i = some a) : a ∈ l := by
  rw [List.get?_eq_getElem?] at h
  obtain ⟨hlt, heq⟩ := List.getElem?_eq_some_iff.mp h
  exact heq ▸ List.getElem_mem hlt

theorem hasTag_small_get {n : Nat} {db : Database n} (hwf : WF db)
    {k i : Nat} {st : List Nat}
    (hloc : lookupA db.index k = some (IndexLocation.Small i))
    (hget : db.small_storage.get? i = some st) {v : Nat}
    (hv : Smallset.ValidItem v) :
    hasTag db k v ↔ Smallset.contains st v = true := by
  rw [hasTag_small hloc, get?_eq_some_getD hget]
  exact (contains_iff_mem0 (hwf.smallSetsOK st (mem_of_get? hget)).1 hv).symm

theorem small_slot_get {n : Nat} {db : Database n} (hwf : WF db)
    {k i : Nat} (hloc : lookupA db.index k = some (IndexLocation.Small i)) :
    ∃ st, db.small_storage.get? i = some st := by
  have h : i < db.small_keys.length :=
    (hwf.indexOK _ (mem_of_lookupA hloc)).1
  have h2 : i < db.small_storage.length := by
    rw [← hwf.lens]
    exact h
  exact ⟨_, by rw [List.get?_eq_getElem?, List.getElem?_eq_getElem h2]⟩

theorem hasTag_big_set {n : Nat} {db : Database n}
    {k : Nat} {set : List Nat}
    (hlook : lookupA db.big_storage k = some set)
    (hbig : lookupA db.index k = some IndexLocation.Big) {v : Nat} :
    hasTag db k v ↔ v ∈ set := by
  rw [hasTag_big hbig, hlook, Option.getD_some]

theorem big_set_of_index {n : Nat} {db : Database n} (hwf : WF db) {k : Nat}
    (hbig : lookupA db.index k = some IndexLocation.Big) :
    ∃ set, lookupA db.big_storage k = some set := by
  have h : k ∈ db.big_storage.map Prod.fst :=
    hwf.indexOK _ (mem_of_lookupA hbig)
  obtain ⟨v, hv⟩ := exists_pair_of_mem_fst h
  exact ⟨v, lookupA_of_mem_nodup hwf.bigKeysNodup hv⟩

end ElizaDB

namespace ElizaDB

theorem bigScan_decide {n : Nat} (db : Database n) (tid : Nat) :
    db.big_storage.filterMap (fun p => if tid ∈ p.2 then some p.1 else none) =
    db.big_storage.filterMap (fun p =>
      if decide (tid ∈ p.2) = true then some p.1 else none) := by
  apply List.filterMap_congr
  intro p _
  by_cases h : tid ∈ p.2 <;> simp [h]

theorem simpleVerticalQuery_mem {n : Nat} {db : Database n} (hwf : WF db)
    {tid : Nat} (hv : Smallset.ValidItem tid) (k : Nat) :
    k ∈ simpleVerticalQuery db tid ↔ hasTag db k tid := by
  unfold simpleVerticalQuery
  rw [bigScan_decide db tid, List.mem_append]
  constructor
  · intro h
    rcases h with hs | hb
    · obtain ⟨i, st, hloc, hget, hchk⟩ :=
        (scan_mem_small hwf (fun st => Smallset.contains st tid) k).mp hs
      exact (hasTag_small_get hwf hloc hget hv).mpr hchk
    · obtain ⟨set, hlook, hchk⟩ :=
        (scan_mem_big hwf (fun set => decide (tid ∈ set)) k).mp hb
      exact (hasTag_big_set hlook (index_big_of_lookup hwf hlook)).mpr
        (of_decide_eq_true hchk)
  · intro htag
    cases hidx : lookupA db.index k with
    | none => exact absurd htag (hasTag_none hidx)
    | some loc =>
      cases loc with
      | Small i =>
        obtain ⟨st, hget⟩ := small_slot_get hwf hidx
        left
        exact (scan_mem_small hwf (fun st => Smallset.contains st tid) k).mpr
          ⟨i, st, hidx, hget, (hasTag_small_get hwf hidx hget hv).mp htag⟩
      | Big =>
        obtain ⟨set, hlook⟩ := big_set_of_index hwf hidx
        right
        exact (scan_mem_big hwf (fun set => decide (tid ∈ set)) k).mpr
          ⟨set, hlook, decide_eq_true ((hasTag_big_set hlook hidx).mp htag)⟩

theorem simpleVerticalQuery_nodup {n : Nat} {db : Database n} (hwf : WF db)
    (tid : Nat) : (simpleVerticalQuery db tid).Nodup := by
  unfold simpleVerticalQuery
  rw [bigScan_decide db tid]
  exact scan_nodup hwf (fun st => Smallset.contains st tid)
    (fun set => decide (tid ∈ set))

/-- A two-tier sample state used by the claim witnesses: key `7` inline with
tag `1`, key `9` in big storage with tags `1` and `2`. -/
def sampleDB : Database 8 :=
  { terms := [("a", 1), ("b", 2)]
    index := [(7, IndexLocation.Small 0), (9, IndexLocation.Big)]
    holes := []
    small_keys := [some 7]
    small_storage := [[0, 1, 0, 0, 0, 0, 0, 0]]
    big_storage := [(9, [1, 2])] }

end ElizaDB

namespace ElizaDB

/-! ## The claims -/

/-- C9 (corrected): `vertical_query(Simple{term})` fails exactly when
`term` is not interned, but the error string is `"unknown term {name}"` —
a space where the spec promises the colon form `"unknown term: {name}"` —
and on success it returns exactly the known keys whose tag set contains the
term's id, each key at most once, inline-tier keys listed before
big-storage keys. -/
theorem simple_vertical_query_claim {n : Nat} {db : Database n} (hwf : WF db)
    (term : String) :
    ((verticalQuery db (Query.Simple term) =
        Except.error ("unknown term " ++ term)) ↔
      lookupA db.terms term = none) ∧
    (∀ tid, lookupA db.terms term = some tid →
      ∃ ks kb, verticalQuery db (Query.Simple term) = Except.ok (ks ++ kb) ∧
        (ks ++ kb).Nodup ∧
        (∀ k, k ∈ ks ++ kb ↔ hasTag db k tid) ∧
        (∀ k ∈ ks, ∃ i, lookupA db.index k = some (IndexLocation.Small i)) ∧
        (∀ k ∈ kb, lookupA db.index k = some IndexLocation.Big)) := by
  cases hg : lookupA db.terms term with
  | none =>
    have heq : verticalQuery db (Query.Simple term) =
        Except.error ("unknown term " ++ term) := by
      simp only [verticalQuery, getTermId, hg]
    refine ⟨⟨fun _ => rfl, fun _ => heq⟩, ?_⟩
    intro tid htid
    cases htid
  | some tid0 =>
    have heq : verticalQuery db (Query.Simple term) =
        Except.ok (simpleVerticalQuery db tid0) := by
      simp only [verticalQuery, getTermId, hg]
    constructor
    · constructor
      · intro h
        rw [heq] at h
        cases h
      · intro h
        cases h
    · intro tid htid
      injection htid with htid
      subst htid
      have hv : Smallset.ValidItem tid0 := validItem_of_lookup hwf hg
      refine ⟨(db.small_keys.zip db.small_storage).filterMap (fun p =>
          match p.1 with
          | none => none
          | some key =>
            if Smallset.contains p.2 tid0 then some key else none),
        db.big_storage.filterMap (fun p =>
          if tid0 ∈ p.2 then some p.1 else none), ?_, ?_, ?_, ?_, ?_⟩
      · exact heq
      · exact simpleVerticalQuery_nodup hwf tid0
      · exact fun k => simpleVerticalQuery_mem hwf hv k
      · intro k hk
        obtain ⟨i, st, hloc, _, _⟩ :=
          (scan_mem_small hwf (fun st => Smallset.contains st tid0) k).mp hk
        exact ⟨i, hloc⟩
      · intro k hk
        rw [bigScan_decide db tid0] at hk
        obtain ⟨set, hlook, _⟩ :=
          (scan_mem_big hwf (fun set => decide (tid0 ∈ set)) k).mp hk
        exact index_big_of_lookup hwf hlook

/-- C9, counterexample: on the empty database the Simple-query error for an
unknown term is "unknown term x" — no colon before the name. -/
theorem simple_vertical_query_error_colon_cex :
    verticalQuery (emptyDB 8) (Query.Simple "x") =
      Except.error ("unknown term " ++ "x") ∧
    "unknown term " ++ "x" ≠ "unknown term: x" :=
  ⟨rfl, by decide⟩

/-- C9, witness at the two-tier sample state. -/
theorem simple_vertical_query_claim_witness :
    WF sampleDB ∧
    (((verticalQuery sampleDB (Query.Simple "a") =
        Except.error ("unknown term " ++ "a")) ↔
      lookupA sampleDB.terms "a" = none) ∧
    (∀ tid, lookupA sampleDB.terms "a" = some tid →
      ∃ ks kb, verticalQuery sampleDB (Query.Simple "a") =
          Except.ok (ks ++ kb) ∧
        (ks ++ kb).Nodup ∧
        (∀ k, k ∈ ks ++ kb ↔ hasTag sampleDB k tid) ∧
        (∀ k ∈ ks, ∃ i, lookupA sampleDB.index k =
          some (IndexLocation.Small i)) ∧
        (∀ k ∈ kb, lookupA sampleDB.index k = some IndexLocation.Big))) :=
  ⟨by decide, simple_vertical_query_claim (by decide) "a"⟩

end ElizaDB

namespace ElizaDB

/-- C7 (corrected): for a KofN query whose terms all resolve,
`vertical_query` returns exactly the known keys whose tag sets contain at
least `bound` of the listed TermIds (the per-key count short-circuits at
the bound), except that an empty term list matches no key at all: `bound =
0` matches every known key only when the term list is nonempty, and a
bound greater than the number of given terms matches no key. -/
theorem k_of_n_query_claim {n : Nat} {db : Database n} (hwf : WF db)
    (terms : List String) (bound : Nat) (resolved : List Nat)
    (hres : resolveTerms db terms = Except.ok resolved) :
    ∃ res, verticalQuery db (Query.KofN terms bound) = Except.ok res ∧
      res.Nodup ∧
      (∀ k, k ∈ res ↔ ((lookupA db.index k).isSome ∧ terms ≠ [] ∧
        bound ≤ resolved.countP (fun t => decide (hasTag db k t)))) ∧
      (terms ≠ [] → bound = 0 → ∀ k, (lookupA db.index k).isSome → k ∈ res) ∧
      (resolved.length < bound → res = []) := by
  obtain ⟨hlen, hmemres⟩ := resolveTerms_spec db terms resolved hres
  have heq : verticalQuery db (Query.KofN terms bound) =
      Except.ok (kOfNQuery db resolved bound) := by
    simp only [verticalQuery, hres]
  have hnonnil : resolved ≠ [] ↔ terms ≠ [] := by
    constructor
    · intro h habs
      rw [habs] at hlen
      exact h (List.length_eq_zero.mp hlen)
    · intro h habs
      rw [habs] at hlen
      exact h (List.length_eq_zero.mp hlen.symm)
  have hvalid : ∀ t ∈ resolved, Smallset.ValidItem t := by
    intro t ht
    obtain ⟨s, _, hls⟩ := hmemres t ht
    exact validItem_of_lookup hwf hls
  have hmem : ∀ k, k ∈ kOfNQuery db resolved bound ↔
      ((lookupA db.index k).isSome ∧ terms ≠ [] ∧
        bound ≤ resolved.countP (fun t => decide (hasTag db k t))) := by
    intro k
    unfold kOfNQuery
    rw [List.mem_append]
    constructor
    · intro h
      rcases h with hs | hb
      · obtain ⟨i, st, hloc, hget, hchk⟩ :=
          (scan_mem_small hwf (fun st =>
            kofnLoop (fun item => Smallset.contains st item) bound resolved 0)
            k).mp hs
        obtain ⟨hne, hle⟩ := (kofnLoop_iff _ bound resolved 0).mp hchk
        have hcnt : resolved.countP (fun item => Smallset.contains st item) =
            resolved.countP (fun t => decide (hasTag db k t)) := by
          apply List.countP_congr
          intro t ht
          rw [decide_eq_true_eq]
          exact (hasTag_small_get hwf hloc hget (hvalid t ht)).symm
        rw [hcnt] at hle
        exact ⟨by rw [hloc]; rfl, hnonnil.mp hne, by omega⟩
      · obtain ⟨set, hlook, hchk⟩ :=
          (scan_mem_big hwf (fun set =>
            kofnLoop (fun item => decide (item ∈ set)) bound resolved 0)
            k).mp hb
        obtain ⟨hne, hle⟩ := (kofnLoop_iff _ bound resolved 0).mp hchk
        have hbig := index_big_of_lookup hwf hlook
        have hcnt : resolved.countP (fun item => decide (item ∈ set)) =
            resolved.countP (fun t => decide (hasTag db k t)) := by
          apply List.countP_congr
          intro t ht
          rw [decide_eq_true_eq, decide_eq_true_eq]
          exact (hasTag_big_set hlook hbig).symm
        rw [hcnt] at hle
        exact ⟨by rw [hbig]; rfl, hnonnil.mp hne, by omega⟩
    · rintro ⟨hsome, hne, hble⟩
      cases hidx : lookupA db.index k with
      | none =>
        rw [hidx] at hsome
        cases hsome
      | some loc =>
        cases loc with
        | Small i =>
          obtain ⟨st, hget⟩ := small_slot_get hwf hidx
          left
          apply (scan_mem_small hwf (fun st =>
            kofnLoop (fun item => Smallset.contains st item) bound resolved 0)
            k).mpr
          refine ⟨i, st, hidx, hget, ?_⟩
          apply (kofnLoop_iff _ bound resolved 0).mpr
          refine ⟨hnonnil.mpr hne, ?_⟩
          have hcnt : resolved.countP (fun item => Smallset.contains st item) =
              resolved.countP (fun t => decide (hasTag db k t)) := by
            apply List.countP_congr
            intro t ht
            rw [decide_eq_true_eq]
            exact (hasTag_small_get hwf hidx hget (hvalid t ht)).symm
          rw [hcnt]
          omega
        | Big =>
          obtain ⟨set, hlook⟩ := big_set_of_index hwf hidx
          right
          apply (scan_mem_big hwf (fun set =>
            kofnLoop (fun item => decide (item ∈ set)) bound resolved 0)
            k).mpr
          refine ⟨set, hlook, ?_⟩
          apply (kofnLoop_iff _ bound resolved 0).mpr
          refine ⟨hnonnil.mpr hne, ?_⟩
          have hcnt : resolved.countP (fun item => decide (item ∈ set)) =
              resolved.countP (fun t => decide (hasTag db k t)) := by
            apply List.countP_congr
            intro t ht
            rw [decide_eq_true_eq, decide_eq_true_eq]
            exact (hasTag_big_set hlook hidx).symm
          rw [hcnt]
          omega
  refine ⟨kOfNQuery db resolved bound, heq, ?_, hmem, ?_, ?_⟩
  · unfold kOfNQuery
    exact scan_nodup hwf (fun st =>
      kofnLoop (fun item => Smallset.contains st item) bound resolved 0)
      (fun set => kofnLoop (fun item => decide (item ∈ set)) bound resolved 0)
  · intro hne h0 k hsome
    exact (hmem k).mpr ⟨hsome, hne, by omega⟩
  · intro hlt
    apply List.eq_nil_iff_forall_not_mem.mpr
    intro k hk
    obtain ⟨_, _, hble⟩ := (hmem k).mp hk
    have := @List.countP_le_length _ (fun t => decide (hasTag db k t)) resolved
    omega

/-- C7, counterexample: a known key is not matched by the KofN query with
an empty term list and bound 0, though the claim says bound 0 matches
every known key. -/
theorem k_of_n_zero_bound_cex :
    ∃ db1 : Database 8, createRecord (emptyDB 8) 5 = some (db1, true) ∧
      (lookupA db1.index 5).isSome ∧
      verticalQuery db1 (Query.KofN [] 0) = Except.ok [] :=
  ⟨⟨[], [(5, IndexLocation.Small 0)], [], [some 5],
    [[0, 0, 0, 0, 0, 0, 0, 0]], []⟩, rfl, rfl, rfl⟩

/-- C7, witness at the two-tier sample state. -/
theorem k_of_n_query_claim_witness :
    WF sampleDB ∧
    resolveTerms sampleDB ["a", "b"] = Except.ok [1, 2] ∧
    (∃ res, verticalQuery sampleDB (Query.KofN ["a", "b"] 1) =
        Except.ok res ∧
      res.Nodup ∧
      (∀ k, k ∈ res ↔ ((lookupA sampleDB.index k).isSome ∧
        (["a", "b"] : List String) ≠ [] ∧
        1 ≤ ([1, 2] : List Nat).countP
          (fun t => decide (hasTag sampleDB k t)))) ∧
      ((["a", "b"] : List String) ≠ [] → 1 = 0 →
        ∀ k, (lookupA sampleDB.index k).isSome → k ∈ res) ∧
      (([1, 2] : List Nat).length < 1 → res = [])) :=
  ⟨by decide, rfl, k_of_n_query_claim (by decide) ["a", "b"] 1 [1, 2] rfl⟩

end ElizaDB

namespace ElizaDB

/-- C5 (corrected): on a backing array satisfying the insert-only
invariants (tombstone-free, findable, duplicate-free) — the arrays an
engine that never removes maintains — inserting an already-contained valid
id reports "already present" with no state change, and any successful
insert keeps every nonzero id in at most one slot.  Unqualified over all
insert/remove-reachable arrays the claim fails once a tombstone exists. -/
theorem smallset_insert_no_duplicates {l : List Nat} {d : Nat}
    (hinv : Smallset.SetInv l) (hd : Smallset.ValidItem d) :
    (d ∈ l → Smallset.insert l d = some (l, false)) ∧
    (∀ l2 b, Smallset.insert l d = some (l2, b) →
      Smallset.SetInv l2 ∧ ∀ v ∈ l2, v ≠ 0 → List.count v l2 ≤ 1) := by
  constructor
  · intro hmem
    have hn : 0 < l.length := List.length_pos_of_mem hmem
    exact Smallset.insert_of_contains hinv.1
      ((contains_iff_mem0 hinv hd).mpr hmem)
  · intro l2 b heq
    have hn : 0 < l.length := by
      by_contra h
      have h0 : l.length = 0 := by omega
      rw [insert_length_zero h0] at heq
      cases heq
    obtain ⟨l3, b3, heq3, hinv3, hlen3, hmem3, hb3, hb3x⟩ :=
      Smallset.insert_sound hn hinv hd (by rw [heq]; simp)
    rw [heq] at heq3
    injection heq3 with heq3
    injection heq3 with h1 h2
    subst h1
    exact ⟨hinv3, hinv3.2.2⟩

/-- C5, counterexample: after insert 2, insert 10, remove 2 the slot of 2
holds a tombstone; re-inserting the still-contained id 10 is reported as
newly inserted and stores 10 in a second slot. -/
theorem smallset_insert_duplicate_cex :
    ∃ l1 l2 : List Nat,
      Smallset.insert (Smallset.newEmpty 8) 2 = some (l1, true) ∧
      Smallset.insert l1 10 = some (l2, true) ∧
      Smallset.remove l2 2 = ([0, 0, 255, 10, 0, 0, 0, 0], true) ∧
      Smallset.contains [0, 0, 255, 10, 0, 0, 0, 0] 10 = true ∧
      Smallset.insert [0, 0, 255, 10, 0, 0, 0, 0] 10 =
        some ([0, 0, 10, 10, 0, 0, 0, 0], true) ∧
      List.count 10 [0, 0, 10, 10, 0, 0, 0, 0] = 2 :=
  ⟨[0, 0, 2, 0, 0, 0, 0, 0], [0, 0, 2, 10, 0, 0, 0, 0],
    by decide, by decide, by decide, by decide, by decide, by decide⟩

/-- C5, witness on a one-element inline set. -/
theorem smallset_insert_no_duplicates_witness :
    Smallset.SetInv [0, 1, 0, 0, 0, 0, 0, 0] ∧ Smallset.ValidItem 1 ∧
    ((1 ∈ [0, 1, 0, 0, 0, 0, 0, 0] →
      Smallset.insert [0, 1, 0, 0, 0, 0, 0, 0] 1 =
        some ([0, 1, 0, 0, 0, 0, 0, 0], false)) ∧
    (∀ l2 b, Smallset.insert [0, 1, 0, 0, 0, 0, 0, 0] 1 = some (l2, b) →
      Smallset.SetInv l2 ∧ ∀ v ∈ l2, v ≠ 0 → List.count v l2 ≤ 1)) :=
  ⟨by decide, by decide,
    smallset_insert_no_duplicates (by decide) (by decide)⟩

/-- C6 (corrected): on a tombstone-free, duplicate-free array, remove(id)
returns true exactly when contains(id) holds; after a successful remove the
removed id is no longer contained while every other valid id keeps its
contains value.  Over all insert/remove-reachable (tombstoned) arrays the
claim fails: remove can return false for a contained id. -/
theorem smallset_remove_claim {l : List Nat} {d : Nat} (hn : 0 < l.length)
    (htf : Smallset.tombFree l) (hnd : Smallset.NoDups l)
    (hd : Smallset.ValidItem d) :
    ((Smallset.remove l d).2 = true ↔ Smallset.contains l d = true) ∧
    (Smallset.contains l d = true →
      Smallset.contains (Smallset.remove l d).1 d = false ∧
      ∀ w, Smallset.ValidItem w → w ≠ d →
        Smallset.contains (Smallset.remove l d).1 w =
          Smallset.contains l w) := by
  obtain ⟨h1, h2⟩ := Smallset.remove_sound hn htf hnd hd
  exact ⟨by rw [h1], h2⟩

/-- C6, counterexample: after insert 2, insert 10, remove 2, the probe for
10 stops at the tombstone left in slot 2, so remove 10 reports false even
though contains 10 is true. -/
theorem smallset_remove_missed_cex :
    ∃ l1 l2 : List Nat,
      Smallset.insert (Smallset.newEmpty 8) 2 = some (l1, true) ∧
      Smallset.insert l1 10 = some (l2, true) ∧
      (Smallset.remove l2 2).1 = [0, 0, 255, 10, 0, 0, 0, 0] ∧
      Smallset.contains [0, 0, 255, 10, 0, 0, 0, 0] 10 = true ∧
      Smallset.remove [0, 0, 255, 10, 0, 0, 0, 0] 10 =
        ([0, 0, 255, 10, 0, 0, 0, 0], false) :=
  ⟨[0, 0, 2, 0, 0, 0, 0, 0], [0, 0, 2, 10, 0, 0, 0, 0],
    by decide, by decide, by decide, by decide, by decide⟩

/-- C6, witness on a tombstone-free two-element array. -/
theorem smallset_remove_claim_witness :
    0 < ([0, 0, 2, 10, 0, 0, 0, 0] : List Nat).length ∧
    Smallset.tombFree [0, 0, 2, 10, 0, 0, 0, 0] ∧
    Smallset.NoDups [0, 0, 2, 10, 0, 0, 0, 0] ∧
    Smallset.ValidItem 10 ∧
    (((Smallset.remove [0, 0, 2, 10, 0, 0, 0, 0] 10).2 = true ↔
      Smallset.contains [0, 0, 2, 10, 0, 0, 0, 0] 10 = true) ∧
    (Smallset.contains [0, 0, 2, 10, 0, 0, 0, 0] 10 = true →
      Smallset.contains (Smallset.remove [0, 0, 2, 10, 0, 0, 0, 0] 10).1 10 =
        false ∧
      ∀ w, Smallset.ValidItem w → w ≠ 10 →
        Smallset.contains (Smallset.remove [0, 0, 2, 10, 0, 0, 0, 0] 10).1 w =
          Smallset.contains [0, 0, 2, 10, 0, 0, 0, 0] w)) :=
  ⟨by decide, by decide, by decide, by decide,
    smallset_remove_claim (by decide) (by decide) (by decide) (by decide)⟩

end ElizaDB

namespace ElizaDB

/-- C2: under the engine invariant `set_flag` never panics, the model's
recursion budget of 2 is exact for every larger budget (the eviction retry
terminates after at most one round), and the call errors exactly when
interning a fresh term finds the 253-term table full — a Smallset-full
condition is never surfaced: whenever the term interns, the call returns
Ok. -/
theorem set_flag_error_only_on_intern {n : Nat} {db : Database n}
    (hwf : WF db) (key : Nat) (term : String) :
    ∃ db2 r, setFlag db key term = some (db2, r) ∧ WF db2 ∧
      (∀ fuel, setFlagAux n (fuel + 1 + 1) db key term = some (db2, r)) ∧
      ((r = Except.error ()) ↔
        (lookupA db.terms term = none ∧ db.terms.length = 253)) ∧
      (¬(lookupA db.terms term = none ∧ db.terms.length = 253) →
        ∃ b, r = Except.ok b) := by
  obtain ⟨db2, r, heq, hfuel, hwf2, hiff, herr, hok⟩ :=
    setFlag_spec hwf key term
  refine ⟨db2, r, heq, hwf2, hfuel, hiff, ?_⟩
  intro hno
  cases r with
  | error e =>
    cases e
    exact absurd (hiff.mp rfl) hno
  | ok b => exact ⟨b, rfl⟩

/-- C2, witness at the two-tier sample state. -/
theorem set_flag_error_only_on_intern_witness :
    WF sampleDB ∧
    (∃ db2 r, setFlag sampleDB 7 "b" = some (db2, r) ∧ WF db2 ∧
      (∀ fuel, setFlagAux 8 (fuel + 1 + 1) sampleDB 7 "b" = some (db2, r)) ∧
      ((r = Except.error ()) ↔
        (lookupA sampleDB.terms "b" = none ∧ sampleDB.terms.length = 253)) ∧
      (¬(lookupA sampleDB.terms "b" = none ∧ sampleDB.terms.length = 253) →
        ∃ b, r = Except.ok b)) :=
  ⟨by decide, set_flag_error_only_on_intern (by decide) 7 "b"⟩

/-- C8: `add_term` interning is idempotent per string (a second intern of
the same string returns the same id without changing state), ids are
assigned in first-seen order 1, 2, 3, … — a fresh term gets id `len + 1` —
and interning a 254th distinct term fails with a capacity error leaving
the table unchanged. -/
theorem add_term_interning_claim {n : Nat} {db : Database n} (hwf : WF db)
    (term : String) :
    db.terms.map Prod.snd = List.range' 1 db.terms.length ∧
    (∀ db1 tid, addTerm db term = (db1, Except.ok tid) →
      addTerm db1 term = (db1, Except.ok tid)) ∧
    (lookupA db.terms term = none → db.terms.length < 253 →
      addTerm db term =
        ({ db with terms := db.terms ++ [(term, db.terms.length + 1)] },
          Except.ok (db.terms.length + 1))) ∧
    (lookupA db.terms term = none → db.terms.length = 253 →
      addTerm db term = (db, Except.error ())) := by
  refine ⟨hwf.termsIds, ?_, ?_, ?_⟩
  · intro db1 tid heq
    obtain ⟨db1x, r, heqx, hwf1, hiff, herr, hok⟩ := addTerm_spec hwf term
    rw [heq] at heqx
    injection heqx with h1 h2
    obtain ⟨hlook, _⟩ := hok tid h2.symm
    rw [← h1] at hlook
    exact addTerm_known hlook
  · intro hnone hlt
    exact addTerm_new hwf hnone (by omega)
  · intro hnone heq253
    exact addTerm_full hnone heq253

/-- C8, witness: interning a fresh third term at the sample state. -/
theorem add_term_interning_claim_witness :
    WF sampleDB ∧
    (sampleDB.terms.map Prod.snd = List.range' 1 sampleDB.terms.length ∧
    (∀ db1 tid, addTerm sampleDB "c" = (db1, Except.ok tid) →
      addTerm db1 "c" = (db1, Except.ok tid)) ∧
    (lookupA sampleDB.terms "c" = none → sampleDB.terms.length < 253 →
      addTerm sampleDB "c" =
        ({ sampleDB with
            terms := sampleDB.terms ++ [("c", sampleDB.terms.length + 1)] },
          Except.ok (sampleDB.terms.length + 1))) ∧
    (lookupA sampleDB.terms "c" = none → sampleDB.terms.length = 253 →
      addTerm sampleDB "c" = (sampleDB, Except.error ()))) :=
  ⟨by decide, add_term_interning_claim (by decide) "c"⟩

end ElizaDB

namespace ElizaDB

/-- The key has inline (Small-tier) backing: a bound slot off the free-slot
queue. -/
def SmallBacked {n : Nat} (db : Database n) (k : Nat) : Prop :=
  ∃ i, i < db.small_keys.length ∧ db.small_keys.getD i none = some k ∧
    i ∉ db.holes

/-- The key has big-storage backing. -/
def BigBacked {n : Nat} (db : Database n) (k : Nat) : Prop :=
  k ∈ db.big_storage.map Prod.fst

/-- Every key present in the index is backed by exactly one tier. -/
def ExactlyOneTier {n : Nat} (db : Database n) : Prop :=
  ∀ k, (lookupA db.index k).isSome →
    (SmallBacked db k ∧ ¬BigBacked db k) ∨
    (BigBacked db k ∧ ¬SmallBacked db k)

theorem wf_exactlyOneTier {n : Nat} {db : Database n} (hwf : WF db) :
    ExactlyOneTier db := by
  intro k hsome
  cases hidx : lookupA db.index k with
  | none =>
    rw [hidx] at hsome
    cases hsome
  | some loc =>
    have hloc := hwf.indexOK _ (mem_of_lookupA hidx)
    cases loc with
    | Small i =>
      left
      exact ⟨⟨i, hloc.1, hloc.2.1, hloc.2.2.2⟩, hloc.2.2.1⟩
    | Big =>
      right
      refine ⟨hloc, ?_⟩
      rintro ⟨i, hi, hgd, hih⟩
      have hback := boundOK_lookup (hwf.slotsOK i hi) hgd
      rw [hidx] at hback
      injection hback with hback
      injection hback

/-- C4: on a well-formed state every indexed key is backed by exactly one
tier — a bound inline slot off the free list, or a big-storage entry,
never both, never neither — create_record, add_term and set_flag preserve
this (the queries do not mutate state), and the Small-to-Big eviction of
an indexed key leaves it Big-backed and not Small-backed. -/
theorem tier_exclusivity_claim {n : Nat} {db : Database n} (hwf : WF db)
    (key : Nat) (term : String) :
    ExactlyOneTier db ∧
    (∀ db1 c, createRecord db key = some (db1, c) →
      WF db1 ∧ ExactlyOneTier db1) ∧
    (∀ db1 r, addTerm db term = (db1, r) →
      WF db1 ∧ ExactlyOneTier db1) ∧
    (∀ db1 r, setFlag db key term = some (db1, r) →
      WF db1 ∧ ExactlyOneTier db1) ∧
    (∀ i, lookupA db.index key = some (IndexLocation.Small i) →
      ∀ db1, evictIntoLarge db key = some db1 →
        WF db1 ∧ ExactlyOneTier db1 ∧
        BigBacked db1 key ∧ ¬SmallBacked db1 key) := by
  refine ⟨wf_exactlyOneTier hwf, ?_, ?_, ?_, ?_⟩
  · intro db1 c heq
    obtain ⟨db1x, cx, heqx, hwf1, _⟩ := createRecord_spec hwf key
    rw [heq] at heqx
    injection heqx with heqx
    injection heqx with h1 h2
    rw [h1]
    exact ⟨hwf1, wf_exactlyOneTier hwf1⟩
  · intro db1 r heq
    obtain ⟨db1x, rx, heqx, hwf1, _⟩ := addTerm_spec hwf term
    rw [heq] at heqx
    injection heqx with h1 h2
    rw [h1]
    exact ⟨hwf1, wf_exactlyOneTier hwf1⟩
  · intro db1 r heq
    obtain ⟨db1x, rx, heqx, _, hwf1, _⟩ := setFlag_spec hwf key term
    rw [heq] at heqx
    injection heqx with heqx
    injection heqx with h1 h2
    rw [h1]
    exact ⟨hwf1, wf_exactlyOneTier hwf1⟩
  · intro i hidx db1 heq1
    obtain ⟨db1x, heqx, hwf1, _, _, hkeybig, _⟩ := evict_spec hwf hidx
    rw [heq1] at heqx
    injection heqx with h1
    rw [h1]
    have hbb : BigBacked db1x key := hwf1.indexOK _ (mem_of_lookupA hkeybig)
    refine ⟨hwf1, wf_exactlyOneTier hwf1, hbb, ?_⟩
    rcases wf_exactlyOneTier hwf1 key (by rw [hkeybig]; rfl) with
      ⟨hs, hnb⟩ | ⟨hb, hns⟩
    · exact absurd hbb hnb
    · exact hns

/-- C4, witness at the two-tier sample state. -/
theorem tier_exclusivity_claim_witness :
    WF sampleDB ∧
    (ExactlyOneTier sampleDB ∧
    (∀ db1 c, createRecord sampleDB 7 = some (db1, c) →
      WF db1 ∧ ExactlyOneTier db1) ∧
    (∀ db1 r, addTerm sampleDB "a" = (db1, r) →
      WF db1 ∧ ExactlyOneTier db1) ∧
    (∀ db1 r, setFlag sampleDB 7 "a" = some (db1, r) →
      WF db1 ∧ ExactlyOneTier db1) ∧
    (∀ i, lookupA sampleDB.index 7 = some (IndexLocation.Small i) →
      ∀ db1, evictIntoLarge sampleDB 7 = some db1 →
        WF db1 ∧ ExactlyOneTier db1 ∧
        BigBacked db1 7 ∧ ¬SmallBacked db1 7)) :=
  ⟨by decide, tier_exclusivity_claim (by decide) 7 "a"⟩

end ElizaDB

namespace ElizaDB

/-- C10: `load` skips the one-tier-per-key check: a persisted image that
lists key 1 both among the compacted inline keys and in big storage loads
without error into a state whose index marks the key Big while inline slot
0 still binds it, and a Simple vertical query reports the key twice. -/
theorem load_skips_tier_validation :
    ∃ db : Database 8,
      load 8 { terms := ["a"], small_keys := [1],
               small_storage := [[0, 1, 0, 0, 0, 0, 0, 0]],
               big_storage := [(1, [1])] } = some db ∧
      lookupA db.index 1 = some IndexLocation.Big ∧
      db.small_keys.getD 0 none = some 1 ∧
      verticalQuery db (Query.Simple "a") = Except.ok [1, 1] ∧
      ¬([1, 1] : List Nat).Nodup :=
  ⟨⟨[("a", 1)], [(1, IndexLocation.Big)], [], [some 1],
    [[0, 1, 0, 0, 0, 0, 0, 0]], [(1, [1])]⟩,
    rfl, rfl, rfl, rfl, by decide⟩

end ElizaDB

namespace ElizaDB

/-! ## A run of `set_flag` calls on one key (tier migration, C3) -/

theorem lookupA_append_left {α β : Type} [DecidableEq α]
    {l : List (α × β)} {k : α} {v : β} (h : lookupA l k = some v)
    (l2 : List (α × β)) : lookupA (l ++ l2) k = some v := by
  induction l with
  | nil => cases h
  | cons p rest ih =>
    obtain ⟨k2, v2⟩ := p
    rw [List.cons_append]
    by_cases hk : k2 = k
    · have h2 : (if k2 = k then some v2 else lookupA rest k) = some v := h
      rw [if_pos hk] at h2
      show (if k2 = k then some v2 else lookupA (rest ++ l2) k) = some v
      rw [if_pos hk]
      exact h2
    · have h2 : (if k2 = k then some v2 else lookupA rest k) = some v := h
      rw [if_neg hk] at h2
      show (if k2 = k then some v2 else lookupA (rest ++ l2) k) = some v
      rw [if_neg hk]
      exact ih h2

/-- Driver for a sequence of `set_flag` calls on one key (the claim's
"assigned CAP+1 distinct terms via set_flag"); a panic or error aborts. -/
def setFlagMany {n : Nat} (db : Database n) (key : Nat) :
    List String → Option (Database n)
  | [] => some db
  | t :: ts =>
    match setFlag db key t with
    | some (db1, Except.ok _) => setFlagMany db1 key ts
    | _ => none

theorem setFlagMany_spec {n : Nat} (key : Nat) :
    ∀ (ts : List String) {db : Database n}, WF db → ts.Nodup →
    (∀ t ∈ ts, lookupA db.terms t = none) →
    db.terms.length + ts.length ≤ 253 →
    ∃ db2, setFlagMany db key ts = some db2 ∧ WF db2 ∧
      db2.terms.length = db.terms.length + ts.length ∧
      (∀ t v, lookupA db.terms t = some v → lookupA db2.terms t = some v) ∧
      (∀ t ∈ ts, ∃ v, lookupA db2.terms t = some v) ∧
      (ts ≠ [] → (lookupA db2.index key).isSome) ∧
      (∀ v, v ≠ 0 → (hasTag db2 key v ↔ (hasTag db key v ∨
        ∃ t ∈ ts, lookupA db2.terms t = some v))) ∧
      (∀ k v, k ≠ key → (hasTag db2 k v ↔ hasTag db k v)) := by
  intro ts
  induction ts with
  | nil =>
    intro db hwf _ _ _
    refine ⟨db, rfl, hwf, by simp, fun t v h => h, ?_, ?_, ?_, ?_⟩
    · intro t ht; cases ht
    · intro h; exact absurd rfl h
    · intro v _
      constructor
      · exact Or.inl
      · rintro (h | ⟨t, ht, _⟩)
        · exact h
        · cases ht
    · intro k v _; exact Iff.rfl
  | cons t ts ih =>
    intro db hwf hnd hfresh hcap
    obtain ⟨db1, r, heq, hfuel, hwf1, hiff, herr, hok⟩ := setFlag_spec hwf key t
    have hfreshhead : lookupA db.terms t = none :=
      hfresh t (List.mem_cons_self t ts)
    cases r with
    | error e =>
      exfalso
      cases e
      obtain ⟨_, h253⟩ := hiff.mp rfl
      simp only [List.length_cons] at hcap
      omega
    | ok b =>
      obtain ⟨tid, hlook2, hvalid, htermdisj, htagtid, htagupd, htagoth,
        hbiff⟩ := hok b rfl
      have hterms1 : db1.terms = db.terms ++ [(t, tid)] := by
        rcases htermdisj with heqt | ⟨_, _, h⟩
        · exfalso
          rw [heqt, hfreshhead] at hlook2
          cases hlook2
        · exact h
      have hlen1 : db1.terms.length = db.terms.length + 1 := by
        rw [hterms1, List.length_append, List.length_cons, List.length_nil]
      have hndts : ts.Nodup := (List.nodup_cons.mp hnd).2
      have htnotints : t ∉ ts := (List.nodup_cons.mp hnd).1
      have hfresh1 : ∀ s ∈ ts, lookupA db1.terms s = none := by
        intro s hs
        apply lookupA_eq_none_iff.mpr
        rw [hterms1, List.map_append]
        intro hmem
        rcases List.mem_append.mp hmem with h1 | h2
        · exact absurd h1
            (lookupA_eq_none_iff.mp (hfresh s (List.mem_cons_of_mem t hs)))
        · have hst : s = t := by simpa using h2
          exact htnotints (hst ▸ hs)
      have hcap1 : db1.terms.length + ts.length ≤ 253 := by
        simp only [List.length_cons] at hcap
        omega
      obtain ⟨db2, heq2, hwf2, hlen2, hpres2, hmem2, hidx2, htagiff2,
        htagoth2⟩ := ih hwf1 hndts hfresh1 hcap1
      have hrun : setFlagMany db key (t :: ts) = setFlagMany db1 key ts := by
        simp only [setFlagMany, heq]
      have hpres1 : ∀ s v, lookupA db.terms s = some v →
          lookupA db1.terms s = some v := by
        intro s v h
        rw [hterms1]
        exact lookupA_append_left h _
      have hlookdb2t : lookupA db2.terms t = some tid := hpres2 t tid hlook2
      refine ⟨db2, by rw [hrun, heq2], hwf2, ?_, ?_, ?_, ?_, ?_, ?_⟩
      · rw [hlen2, hlen1, List.length_cons]
        omega
      · intro s v h
        exact hpres2 s v (hpres1 s v h)
      · intro s hs
        rcases List.mem_cons.mp hs with rfl | hs2
        · exact ⟨tid, hlookdb2t⟩
        · exact hmem2 s hs2
      · intro _
        cases hts : ts with
        | nil =>
          have hdb2 : db1 = db2 := by
            rw [hts] at heq2
            have h2 : some db1 = some db2 := heq2
            injection h2
          rw [← hdb2]
          cases hidx1 : lookupA db1.index key with
          | none => exact absurd htagtid (hasTag_none hidx1)
          | some loc => rfl
        | cons s ss =>
          apply hidx2
          rw [hts]
          intro habs
          cases habs
      · intro v hv
        constructor
        · intro h
          rcases (htagiff2 v hv).mp h with h1 | ⟨s, hs, hl⟩
          · rcases (htagupd v hv).mp h1 with hd | rfl
            · exact Or.inl hd
            · exact Or.inr ⟨t, List.mem_cons_self t ts, hlookdb2t⟩
          · exact Or.inr ⟨s, List.mem_cons_of_mem t hs, hl⟩
        · rintro (hd | ⟨s, hs, hl⟩)
          · exact (htagiff2 v hv).mpr
              (Or.inl ((htagupd v hv).mpr (Or.inl hd)))
          · rcases List.mem_cons.mp hs with rfl | hs2
            · have hv2 : v = tid := by
                rw [hlookdb2t] at hl
                injection hl with hl
                exact hl.symm
              exact (htagiff2 v hv).mpr
                (Or.inl ((htagupd v hv).mpr (Or.inr hv2)))
            · exact (htagiff2 v hv).mpr (Or.inr ⟨s, hs2, hl⟩)
      · intro k v hk
        rw [htagoth2 k v hk]
        exact htagoth k v hk

theorem index_big_of_many_tags {n : Nat} {db : Database n} (hwf : WF db)
    {key : Nat} {tids : List Nat} (hnd : tids.Nodup)
    (hlen : n < tids.length)
    (htags : ∀ v ∈ tids, hasTag db key v)
    (hsome : (lookupA db.index key).isSome) :
    lookupA db.index key = some IndexLocation.Big := by
  cases hidx : lookupA db.index key with
  | none =>
    rw [hidx] at hsome
    cases hsome
  | some loc =>
    cases loc with
    | Big => rfl
    | Small i =>
      exfalso
      obtain ⟨st, hget⟩ := small_slot_get hwf hidx
      have hstlen : st.length = n := hwf.setLens st (mem_of_get? hget)
      have hsub : ∀ v ∈ tids, v ∈ st := by
        intro v hv
        have h := (hasTag_small hidx).mp (htags v hv)
        rwa [get?_eq_some_getD hget] at h
      have h1 : tids.toFinset.card = tids.length :=
        List.toFinset_card_of_nodup hnd
      have h2 : tids.toFinset ⊆ st.toFinset := by
        intro x hx
        rw [List.mem_toFinset] at hx ⊢
        exact hsub x hx
      have h3 := Finset.card_le_card h2
      have h4 := List.toFinset_card_le st
      omega

theorem horizontalQuery_big {n : Nat} {db : Database n} (hwf : WF db)
    {key : Nat} (hidx : lookupA db.index key = some IndexLocation.Big) :
    ∃ set names, lookupA db.big_storage key = some set ∧
      horizontalQuery db key = some names ∧
      ∀ s, s ∈ names ↔ ∃ v ∈ set, explainTermId db v = some s := by
  obtain ⟨set, hlook⟩ := big_set_of_index hwf hidx
  refine ⟨set, set.filterMap (explainTermId db), hlook, ?_, ?_⟩
  · simp only [horizontalQuery, hidx, hlook]
  · intro s
    exact List.mem_filterMap

end ElizaDB

namespace ElizaDB

/-- C3: a fresh key given CAP+1 distinct (fresh) terms through `set_flag`
ends up in Big storage, its horizontal_query returns exactly the union of
all CAP+1 term strings — none lost across the migration — and a further
`set_flag` with a (CAP+2)-th distinct term succeeds. -/
theorem tier_migration_claim {n : Nat} {db : Database n} (hwf : WF db)
    (key : Nat) (ts : List String) (t2 : String)
    (hfresh : lookupA db.index key = none)
    (hnd : ts.Nodup) (hlen : ts.length = n + 1)
    (hfreshts : ∀ t ∈ ts, lookupA db.terms t = none)
    (ht2 : t2 ∉ ts) (ht2fresh : lookupA db.terms t2 = none)
    (hcap : db.terms.length + ts.length + 1 ≤ 253) :
    ∃ db2, setFlagMany db key ts = some db2 ∧ WF db2 ∧
      lookupA db2.index key = some IndexLocation.Big ∧
      (∃ names, horizontalQuery db2 key = some names ∧
        ∀ s, s ∈ names ↔ s ∈ ts) ∧
      (∃ db3 b, setFlag db2 key t2 = some (db3, Except.ok b)) := by
  obtain ⟨db2, heq, hwf2, hlen2, hpres, hmemts, hidxsome, htagiff, htagoth⟩ :=
    setFlagMany_spec key ts hwf hnd hfreshts (by omega)
  have htsne : ts ≠ [] := by
    intro habs
    rw [habs] at hlen
    cases hlen
  have hsome : (lookupA db2.index key).isSome := hidxsome htsne
  have hnokey : ∀ v, ¬hasTag db key v := fun v => hasTag_none hfresh
  -- every valid id reachable for the key comes from one of the terms
  have htagiff2 : ∀ v, v ≠ 0 → (hasTag db2 key v ↔
      ∃ t ∈ ts, lookupA db2.terms t = some v) := by
    intro v hv
    rw [htagiff v hv]
    constructor
    · rintro (h | h)
      · exact absurd h (hnokey v)
      · exact h
    · exact Or.inr
  have hlookid : ∀ t ∈ ts,
      lookupA db2.terms t = some ((lookupA db2.terms t).getD 0) := by
    intro t ht
    obtain ⟨v, hv⟩ := hmemts t ht
    rw [hv]
    rfl
  have htagts : ∀ t ∈ ts, hasTag db2 key ((lookupA db2.terms t).getD 0) := by
    intro t ht
    have hb := tid_bounds hwf2 (hlookid t ht)
    exact (htagiff2 _ (by omega)).mpr ⟨t, ht, hlookid t ht⟩
  have htidsnd : (ts.map (fun t => (lookupA db2.terms t).getD 0)).Nodup := by
    apply List.Nodup.map_on ?_ hnd
    intro x hx y hy hxy
    have hlx := hlookid x hx
    have hly := hlookid y hy
    rw [hxy] at hlx
    exact lookup_terms_inj hwf2 hlx hly
  have hbig : lookupA db2.index key = some IndexLocation.Big := by
    apply index_big_of_many_tags hwf2 htidsnd ?_ ?_ hsome
    · rw [List.length_map, hlen]
      omega
    · intro v hv
      obtain ⟨t, ht, hteq⟩ := List.mem_map.mp hv
      exact hteq ▸ htagts t ht
  obtain ⟨set, names, hlookset, hhq, hmemnames⟩ := horizontalQuery_big hwf2 hbig
  have hsetpos : ∀ v ∈ set, 1 ≤ v :=
    fun v hv => (hwf2.bigSetsOK _ (mem_of_lookupA hlookset)).2 v hv |>.1
  refine ⟨db2, heq, hwf2, hbig, ⟨names, hhq, ?_⟩, ?_⟩
  · intro s
    rw [hmemnames s]
    constructor
    · rintro ⟨v, hvset, hexp⟩
      have hv0 : v ≠ 0 := by
        have := hsetpos v hvset
        omega
      have htag : hasTag db2 key v :=
        (hasTag_big_set hlookset hbig).mpr hvset
      obtain ⟨t, ht, hlt⟩ := (htagiff2 v hv0).mp htag
      have hexp2 : explainTermId db2 v = some t :=
        explainTermId_of_lookup hwf2 hlt
      rw [hexp2] at hexp
      injection hexp with hexp
      exact hexp ▸ ht
    · intro hs
      refine ⟨(lookupA db2.terms s).getD 0, ?_, ?_⟩
      · exact (hasTag_big_set hlookset hbig).mp (htagts s hs)
      · exact explainTermId_of_lookup hwf2 (hlookid s hs)
  · obtain ⟨db3, r, heq3, _, _, hiff3, _, hok3⟩ := setFlag_spec hwf2 key t2
    cases r with
    | error e =>
      exfalso
      cases e
      obtain ⟨_, h253⟩ := hiff3.mp rfl
      omega
    | ok b => exact ⟨db3, b, heq3⟩

/-- C3, witness: two fresh terms on a fresh key at inline capacity 1. -/
theorem tier_migration_claim_witness :
    WF (emptyDB 1) ∧
    lookupA (emptyDB 1).index 1 = none ∧
    (["a", "b"] : List String).Nodup ∧
    (["a", "b"] : List String).length = 1 + 1 ∧
    (∀ t ∈ (["a", "b"] : List String), lookupA (emptyDB 1).terms t = none) ∧
    "c" ∉ (["a", "b"] : List String) ∧
    lookupA (emptyDB 1).terms "c" = none ∧
    (emptyDB 1).terms.length + (["a", "b"] : List String).length + 1 ≤ 253 ∧
    (∃ db2, setFlagMany (emptyDB 1) 1 ["a", "b"] = some db2 ∧ WF db2 ∧
      lookupA db2.index 1 = some IndexLocation.Big ∧
      (∃ names, horizontalQuery db2 1 = some names ∧
        ∀ s, s ∈ names ↔ s ∈ (["a", "b"] : List String)) ∧
      (∃ db3 b, setFlag db2 1 "c" = some (db3, Except.ok b))) :=
  ⟨by decide, rfl, by decide, rfl, by decide, by decide, rfl, by decide,
    tier_migration_claim (by decide) 1 ["a", "b"] "c" rfl (by decide) rfl
      (by decide) (by decide) rfl (by decide)⟩

end ElizaDB

namespace ElizaDB

/-! ## Persistence round trip (C1) -/

theorem lookupA_append_right {α β : Type} [DecidableEq α]
    {l : List (α × β)} {k : α} (h : lookupA l k = none)
    (l2 : List (α × β)) : lookupA (l ++ l2) k = lookupA l2 k := by
  induction l with
  | nil => rfl
  | cons p rest ih =>
    obtain ⟨k2, v2⟩ := p
    have h2 : (if k2 = k then some v2 else lookupA rest k) = none := h
    rw [List.cons_append]
    show (if k2 = k then some v2 else lookupA (rest ++ l2) k) = lookupA l2 k
    by_cases hk : k2 = k
    · rw [if_pos hk] at h2
      cases h2
    · rw [if_neg hk] at h2
      rw [if_neg hk]
      exact ih h2

theorem foldl_insertA_pairs {β γ δ : Type} [DecidableEq β]
    (f : δ → β) (g : δ → γ) :
    ∀ (ps : List δ) (acc : List (β × γ)),
      (ps.map f).Nodup → (∀ p ∈ ps, f p ∉ acc.map Prod.fst) →
      ps.foldl (fun a p => insertA a (f p) (g p)) acc =
        acc ++ ps.map (fun p => (f p, g p)) := by
  intro ps
  induction ps with
  | nil =>
    intro acc _ _
    simp
  | cons p ps ih =>
    intro acc hnd hacc
    rw [List.map_cons, List.nodup_cons] at hnd
    have hstep : List.foldl (fun a p => insertA a (f p) (g p)) acc (p :: ps) =
        List.foldl (fun a p => insertA a (f p) (g p))
          (insertA acc (f p) (g p)) ps := rfl
    rw [hstep, insertA_of_not_mem (g p) (hacc p (List.mem_cons_self p ps))]
    rw [ih (acc ++ [(f p, g p)]) hnd.2 ?_]
    · rw [List.map_cons, List.append_assoc, List.singleton_append]
    · intro q hq
      rw [List.map_append]
      intro hmem
      rcases List.mem_append.mp hmem with h1 | h2
      · exact hacc q (List.mem_cons_of_mem p hq) h1
      · have hfq : f q = f p := by simpa using h2
        exact hnd.1 (hfq ▸ List.mem_map_of_mem f hq)

theorem compactTerms_eq {n : Nat} {db : Database n} (hwf : WF db) :
    compactTerms db = db.terms.map Prod.fst := by
  unfold compactTerms
  have h1 : List.Pairwise (fun x1 x2 => x1 < x2) (db.terms.map Prod.snd) := by
    rw [hwf.termsIds]
    exact List.pairwise_lt_range' 1 db.terms.length
  have h2 : List.Pairwise (fun a b : String × Nat => a.2 < b.2) db.terms :=
    List.pairwise_map.mp h1
  have hsorted : List.Pairwise (fun a b : String × Nat =>
      decide (a.2 ≤ b.2) = true) db.terms :=
    h2.imp (fun hab => decide_eq_true (Nat.le_of_lt hab))
  rw [List.mergeSort_of_sorted hsorted]

theorem load_dump_terms {n : Nat} {db : Database n} (hwf : WF db) :
    ((dump db).terms.enum.foldl
      (fun acc p => insertA acc p.2 ((p.1 + 1) % 256)) []) = db.terms := by
  have hterms : (dump db).terms = db.terms.map Prod.fst := compactTerms_eq hwf
  rw [hterms]
  have hnd : ((db.terms.map Prod.fst).enum.map Prod.snd).Nodup := by
    rw [List.enum_map_snd]
    exact hwf.termsNamesNodup
  have heq1 : (db.terms.map Prod.fst).enum.foldl
      (fun acc p => insertA acc p.2 ((p.1 + 1) % 256)) [] =
      [] ++ (db.terms.map Prod.fst).enum.map
        (fun p => (p.2, (p.1 + 1) % 256)) :=
    foldl_insertA_pairs Prod.snd (fun p => (p.1 + 1) % 256) _ [] hnd
      (by intro p hp; simp)
  rw [heq1, List.nil_append]
  apply List.ext_getElem
  · rw [List.length_map, List.enum_length, List.length_map]
  · intro i hA hB
    have hlt : i < db.terms.length := hB
    have hltm : i < (db.terms.map Prod.fst).enum.length := by
      rw [List.enum_length, List.length_map]
      exact hlt
    have hltf : i < (db.terms.map Prod.fst).length := by
      rw [List.length_map]
      exact hlt
    rw [List.getElem_map, List.getElem_enum]
    show ((db.terms.map Prod.fst)[i], (i + 1) % 256) = db.terms[i]
    have hb1 : i < (db.terms.map Prod.snd).length := by
      rw [List.length_map]
      exact hlt
    have hb2 : i < (List.range' 1 db.terms.length).length := by
      rw [List.length_range']
      exact hlt
    have h3 : (db.terms.map Prod.snd)[i]? =
        (List.range' 1 db.terms.length)[i]? := by
      rw [hwf.termsIds]
    rw [List.getElem?_eq_getElem hb1, List.getElem?_eq_getElem hb2] at h3
    injection h3 with h3
    rw [List.getElem_map] at h3
    rw [List.getElem_range'] at h3
    have hmod : (i + 1) % 256 = i + 1 :=
      Nat.mod_eq_of_lt (by have := hwf.termsLen; omega)
    rw [List.getElem_map, hmod]
    have heta : db.terms[i] = (db.terms[i].1, db.terms[i].2) := rfl
    rw [heta]
    show (db.terms[i].1, i + 1) = (db.terms[i].1, db.terms[i].2)
    rw [h3]
    show (db.terms[i].1, i + 1) = (db.terms[i].1, 1 + 1 * i)
    congr 1
    omega

end ElizaDB

namespace ElizaDB

/-- The bound inline pairs, as `compact_small_items` collects them. -/
def compactPairs {n : Nat} (db : Database n) : List (Nat × List Nat) :=
  (db.small_keys.zip db.small_storage).filterMap (fun p =>
    match p.1 with
    | none => none
    | some key => some (key, p.2))

theorem filterMap_toSome_fst :
    ∀ l : List (Option Nat × List Nat),
      (l.filterMap (fun p =>
        match p.1 with
        | none => none
        | some key => some (key, p.2))).map Prod.fst =
      l.filterMap (fun p => p.1) := by
  intro l
  induction l with
  | nil => rfl
  | cons p l ih =>
    obtain ⟨a, st⟩ := p
    cases a with
    | none =>
      rw [List.filterMap_cons_none rfl, List.filterMap_cons_none rfl]
      exact ih
    | some k =>
      show ((k, st) :: l.filterMap (fun p =>
          match p.1 with
          | none => none
          | some key => some (key, p.2))).map Prod.fst =
        k :: l.filterMap (fun p => p.1)
      rw [List.map_cons, ih]

theorem zip_filterMap_fst :
    ∀ (keys : List (Option Nat)) (sts : List (List Nat)),
      keys.length = sts.length →
      (keys.zip sts).filterMap (fun p => p.1) = keys.filterMap id := by
  intro keys
  induction keys with
  | nil =>
    intro sts _
    simp
  | cons a keys ih =>
    intro sts h
    cases sts with
    | nil => cases h
    | cons st sts =>
      simp only [List.length_cons] at h
      have hz : ((a :: keys).zip (st :: sts)) = (a, st) :: keys.zip sts := rfl
      rw [hz]
      cases a with
      | none =>
        rw [List.filterMap_cons_none rfl, List.filterMap_cons_none rfl]
        exact ih sts (by omega)
      | some k =>
        show k :: (keys.zip sts).filterMap (fun p => p.1) =
          k :: keys.filterMap id
        rw [ih sts (by omega)]

theorem compactPairs_keys_nodup {n : Nat} {db : Database n} (hwf : WF db) :
    ((compactPairs db).map Prod.fst).Nodup := by
  unfold compactPairs
  rw [filterMap_toSome_fst, zip_filterMap_fst _ _ hwf.lens]
  exact boundKeys_nodup hwf

theorem compactPairs_mem {n : Nat} {db : Database n} (hwf : WF db)
    (k : Nat) (st : List Nat) :
    (k, st) ∈ compactPairs db ↔
      ∃ i, lookupA db.index k = some (IndexLocation.Small i) ∧
        db.small_storage.get? i = some st := by
  unfold compactPairs
  constructor
  · intro hmem
    obtain ⟨p, hp, hfp⟩ := List.mem_filterMap.mp hmem
    obtain ⟨i, hi, hpeq⟩ := List.mem_iff_getElem.mp hp
    have hki : i < db.small_keys.length := by
      rw [List.length_zip] at hi
      omega
    have hsi : i < db.small_storage.length := by
      rw [List.length_zip] at hi
      omega
    have hz : (db.small_keys.zip db.small_storage)[i] =
        (db.small_keys[i], db.small_storage[i]) :=
      @List.getElem_zip _ _ db.small_keys db.small_storage i hi
    rw [hz] at hpeq
    subst hpeq
    cases hk : db.small_keys[i] with
    | none =>
      rw [hk] at hfp
      cases hfp
    | some key =>
      rw [hk] at hfp
      have hfp2 : (some (key, db.small_storage[i]) :
          Option (Nat × List Nat)) = some (k, st) := hfp
      injection hfp2 with hfp2
      have hkey : key = k := congrArg Prod.fst hfp2
      have hstv : db.small_storage[i] = st := congrArg Prod.snd hfp2
      have hgd : db.small_keys.getD i none = some k := by
        rw [List.getD_eq_getElem?_getD, List.getElem?_eq_getElem hki, hk,
          hkey, Option.getD_some]
      refine ⟨i, boundOK_lookup (hwf.slotsOK i hki) hgd, ?_⟩
      rw [List.get?_eq_getElem?, List.getElem?_eq_getElem hsi, hstv]
  · rintro ⟨i, hloc, hget⟩
    have hlocOK := hwf.indexOK _ (mem_of_lookupA hloc)
    have hki : i < db.small_keys.length := hlocOK.1
    have hgd : db.small_keys.getD i none = some k := hlocOK.2.1
    have hkival : db.small_keys[i] = some k := by
      rw [List.getD_eq_getElem?_getD, List.getElem?_eq_getElem hki,
        Option.getD_some] at hgd
      exact hgd
    have hsi : i < db.small_storage.length := by
      rw [List.get?_eq_getElem?] at hget
      exact (List.getElem?_eq_some_iff.mp hget).1
    have hstval : db.small_storage[i] = st := by
      rw [List.get?_eq_getElem?, List.getElem?_eq_getElem hsi] at hget
      injection hget
    have hzi : i < (db.small_keys.zip db.small_storage).length := by
      rw [List.length_zip]
      omega
    apply List.mem_filterMap.mpr
    refine ⟨(some k, st), ?_, rfl⟩
    apply List.mem_iff_getElem.mpr
    refine ⟨i, hzi, ?_⟩
    rw [@List.getElem_zip _ _ db.small_keys db.small_storage i hzi, hkival,
      hstval]

end ElizaDB

namespace ElizaDB

theorem withSmall_fst {n : Nat} (db : Database n) :
    ((((compactPairs db).map Prod.fst).enum).map
      (fun p => (p.2, IndexLocation.Small p.1))).map Prod.fst =
    (compactPairs db).map Prod.fst := by
  rw [List.map_map]
  exact List.enum_map_snd _

theorem buildIndex_eq {n : Nat} {db : Database n} (hwf : WF db) :
    buildIndex ((compactPairs db).map Prod.fst) db.big_storage =
      (((compactPairs db).map Prod.fst).enum).map
        (fun p => (p.2, IndexLocation.Small p.1)) ++
      db.big_storage.map (fun p => (p.1, IndexLocation.Big)) := by
  unfold buildIndex
  have hnd1 : (((((compactPairs db).map Prod.fst).enum)).map Prod.snd).Nodup := by
    rw [List.enum_map_snd]
    exact compactPairs_keys_nodup hwf
  have h1 : ((((compactPairs db).map Prod.fst).enum)).foldl
      (fun acc p => insertA acc p.2 (IndexLocation.Small p.1)) [] =
      [] ++ (((compactPairs db).map Prod.fst).enum).map
        (fun p => (p.2, IndexLocation.Small p.1)) :=
    foldl_insertA_pairs Prod.snd (fun p => IndexLocation.Small p.1) _ [] hnd1
      (by intro p hp; simp)
  rw [h1, List.nil_append]
  have h2 : db.big_storage.foldl
      (fun acc p => insertA acc p.1 IndexLocation.Big)
      ((((compactPairs db).map Prod.fst).enum).map
        (fun p => (p.2, IndexLocation.Small p.1))) =
      (((compactPairs db).map Prod.fst).enum).map
        (fun p => (p.2, IndexLocation.Small p.1)) ++
      db.big_storage.map (fun p => (p.1, IndexLocation.Big)) := by
    apply foldl_insertA_pairs Prod.fst (fun _ => IndexLocation.Big)
      db.big_storage _ hwf.bigKeysNodup
    intro p hp
    rw [withSmall_fst]
    intro hmem
    obtain ⟨st, hpair⟩ := exists_pair_of_mem_fst hmem
    obtain ⟨i, hloc, _⟩ := (compactPairs_mem hwf p.1 st).mp hpair
    have hbig : lookupA db.index p.1 = some IndexLocation.Big := by
      apply hwf.bigOK
      rw [← @Prod.mk.eta _ _ p] at hp
      exact hp
    rw [hloc] at hbig
    injection hbig with hbig
    injection hbig
  exact h2

/-- The state `load` rebuilds from `dump db`. -/
def loadedDB {n : Nat} (db : Database n) : Database n :=
  { terms := db.terms
    index := (((compactPairs db).map Prod.fst).enum).map
        (fun p => (p.2, IndexLocation.Small p.1)) ++
      db.big_storage.map (fun p => (p.1, IndexLocation.Big))
    holes := []
    small_keys := ((compactPairs db).map Prod.fst).map some
    small_storage := (compactPairs db).map Prod.snd
    big_storage := db.big_storage }

theorem load_dump_eq {n : Nat} {db : Database n} (hwf : WF db) :
    load n (dump db) = some (loadedDB db) := by
  show fromExistingData n
    ((dump db).terms.enum.foldl
      (fun acc p => insertA acc p.2 ((p.1 + 1) % 256)) [])
    ((compactPairs db).map Prod.fst) ((compactPairs db).map Prod.snd)
    db.big_storage = some (loadedDB db)
  rw [load_dump_terms hwf]
  unfold fromExistingData
  rw [if_pos (termsIds_nodup hwf)]
  rw [buildIndex_eq hwf]
  rfl

end ElizaDB

namespace ElizaDB

theorem loaded_lookup_small {n : Nat} {db : Database n} (hwf : WF db)
    {k i : Nat} (hidx : lookupA db.index k = some (IndexLocation.Small i)) :
    ∃ j, lookupA (loadedDB db).index k = some (IndexLocation.Small j) ∧
      (loadedDB db).small_storage.get? j = db.small_storage.get? i := by
  obtain ⟨st, hget⟩ := small_slot_get hwf hidx
  have hpair : (k, st) ∈ compactPairs db :=
    (compactPairs_mem hwf k st).mpr ⟨i, hidx, hget⟩
  have hkmem : k ∈ (compactPairs db).map Prod.fst :=
    List.mem_map_of_mem Prod.fst hpair
  obtain ⟨j, hj, hjk⟩ := List.mem_iff_getElem.mp hkmem
  have henumj : j < (((compactPairs db).map Prod.fst).enum).length := by
    rw [List.enum_length]
    exact hj
  have hmemws : (k, IndexLocation.Small j) ∈
      (((compactPairs db).map Prod.fst).enum).map
        (fun p => (p.2, IndexLocation.Small p.1)) := by
    apply List.mem_map.mpr
    refine ⟨(j, k), ?_, rfl⟩
    apply List.mem_iff_getElem.mpr
    refine ⟨j, henumj, ?_⟩
    rw [List.getElem_enum, hjk]
  have hndws : (((((compactPairs db).map Prod.fst).enum).map
      (fun p => (p.2, IndexLocation.Small p.1))).map Prod.fst).Nodup := by
    rw [withSmall_fst]
    exact compactPairs_keys_nodup hwf
  have hlookws := lookupA_of_mem_nodup hndws hmemws
  refine ⟨j, ?_, ?_⟩
  · show lookupA ((((compactPairs db).map Prod.fst).enum).map
        (fun p => (p.2, IndexLocation.Small p.1)) ++
      db.big_storage.map (fun p => (p.1, IndexLocation.Big))) k =
      some (IndexLocation.Small j)
    exact lookupA_append_left hlookws _
  · have hjP : j < (compactPairs db).length := by
      rw [List.length_map] at hj
      exact hj
    rw [List.getElem_map] at hjk
    have hPmem : (compactPairs db)[j] ∈ compactPairs db :=
      List.getElem_mem hjP
    have hPeta : (compactPairs db)[j] = (k, (compactPairs db)[j].2) := by
      rw [← hjk]
    have hPmem2 : (k, (compactPairs db)[j].2) ∈ compactPairs db := by
      rw [← hPeta]
      exact hPmem
    obtain ⟨i2, hloc2, hget2⟩ :=
      (compactPairs_mem hwf k (compactPairs db)[j].2).mp hPmem2
    rw [hidx] at hloc2
    injection hloc2 with hloc2
    injection hloc2 with hii
    have hjm : j < ((compactPairs db).map Prod.snd).length := by
      rw [List.length_map]
      exact hjP
    show ((compactPairs db).map Prod.snd).get? j = db.small_storage.get? i
    rw [List.get?_eq_getElem?, List.getElem?_eq_getElem hjm, List.getElem_map]
    rw [← hii] at hget2
    rw [hget2]

theorem loaded_lookup_big {n : Nat} {db : Database n} (hwf : WF db)
    {k : Nat} (hidx : lookupA db.index k = some IndexLocation.Big) :
    lookupA (loadedDB db).index k = some IndexLocation.Big := by
  have hkbig : k ∈ db.big_storage.map Prod.fst :=
    hwf.indexOK _ (mem_of_lookupA hidx)
  have hnotsmall : lookupA ((((compactPairs db).map Prod.fst).enum).map
      (fun p => (p.2, IndexLocation.Small p.1))) k = none := by
    apply lookupA_eq_none_iff.mpr
    rw [withSmall_fst]
    intro hmem
    obtain ⟨st, hpair⟩ := exists_pair_of_mem_fst hmem
    obtain ⟨i, hloc, _⟩ := (compactPairs_mem hwf k st).mp hpair
    rw [hidx] at hloc
    injection hloc with hloc
    injection hloc
  show lookupA ((((compactPairs db).map Prod.fst).enum).map
        (fun p => (p.2, IndexLocation.Small p.1)) ++
      db.big_storage.map (fun p => (p.1, IndexLocation.Big))) k =
    some IndexLocation.Big
  rw [lookupA_append_right hnotsmall]
  obtain ⟨set, hpair⟩ := exists_pair_of_mem_fst hkbig
  apply lookupA_of_mem_nodup
  · rw [List.map_map]
    exact hwf.bigKeysNodup
  · exact List.mem_map_of_mem _ hpair

theorem loaded_lookup_none {n : Nat} {db : Database n} (hwf : WF db)
    {k : Nat} (hidx : lookupA db.index k = none) :
    lookupA (loadedDB db).index k = none := by
  have hnotsmall : lookupA ((((compactPairs db).map Prod.fst).enum).map
      (fun p => (p.2, IndexLocation.Small p.1))) k = none := by
    apply lookupA_eq_none_iff.mpr
    rw [withSmall_fst]
    intro hmem
    obtain ⟨st, hpair⟩ := exists_pair_of_mem_fst hmem
    obtain ⟨i, hloc, _⟩ := (compactPairs_mem hwf k st).mp hpair
    rw [hloc] at hidx
    cases hidx
  show lookupA ((((compactPairs db).map Prod.fst).enum).map
        (fun p => (p.2, IndexLocation.Small p.1)) ++
      db.big_storage.map (fun p => (p.1, IndexLocation.Big))) k = none
  rw [lookupA_append_right hnotsmall]
  apply lookupA_eq_none_iff.mpr
  rw [List.map_map]
  intro hmem
  have hkb : k ∈ db.big_storage.map Prod.fst := hmem
  obtain ⟨set, hpair⟩ := exists_pair_of_mem_fst hkb
  rw [hwf.bigOK _ hpair] at hidx
  cases hidx

theorem loaded_horizontal {n : Nat} {db : Database n} (hwf : WF db)
    (key : Nat) :
    horizontalQuery (loadedDB db) key = horizontalQuery db key := by
  cases hidx : lookupA db.index key with
  | none =>
    unfold horizontalQuery
    rw [hidx, loaded_lookup_none hwf hidx]
  | some loc =>
    cases loc with
    | Small i =>
      obtain ⟨j, hj, hst⟩ := loaded_lookup_small hwf hidx
      have hexp : explainTermId (loadedDB db) = explainTermId db := rfl
      simp only [horizontalQuery, hidx, hj, hst, hexp]
    | Big =>
      have hbig := loaded_lookup_big hwf hidx
      have hexp : explainTermId (loadedDB db) = explainTermId db := rfl
      have hbs : (loadedDB db).big_storage = db.big_storage := rfl
      simp only [horizontalQuery, hidx, hbig, hexp, hbs]

end ElizaDB

namespace ElizaDB

theorem filterMap_compact (g : Option Nat × List Nat → Option Nat)
    (hg : ∀ st, g (none, st) = none) :
    ∀ l : List (Option Nat × List Nat),
      l.filterMap g =
        (l.filterMap (fun p =>
          match p.1 with
          | none => none
          | some key => some (key, p.2))).filterMap
          (fun q => g (some q.1, q.2)) := by
  intro l
  induction l with
  | nil => rfl
  | cons p l ih =>
    obtain ⟨a, st⟩ := p
    cases a with
    | none =>
      simp only [List.filterMap_cons, hg st]
      exact ih
    | some k =>
      simp only [List.filterMap_cons]
      cases hgk : g (some k, st) with
      | none =>
        simp only [hgk]
        exact ih
      | some x =>
        simp only [hgk, ih]

theorem loaded_small_scan {n : Nat} (db : Database n)
    (g : Option Nat × List Nat → Option Nat)
    (hg : ∀ st, g (none, st) = none) :
    ((loadedDB db).small_keys.zip (loadedDB db).small_storage).filterMap g =
      (db.small_keys.zip db.small_storage).filterMap g := by
  show ((((compactPairs db).map Prod.fst).map some).zip
      ((compactPairs db).map Prod.snd)).filterMap g =
    (db.small_keys.zip db.small_storage).filterMap g
  rw [List.map_map, List.zip_map', List.filterMap_map]
  rw [filterMap_compact g hg (db.small_keys.zip db.small_storage)]
  rfl

theorem loaded_svq {n : Nat} (db : Database n) (tid : Nat) :
    simpleVerticalQuery (loadedDB db) tid = simpleVerticalQuery db tid := by
  unfold simpleVerticalQuery
  rw [loaded_small_scan db (fun p =>
    match p.1 with
    | none => none
    | some key => if Smallset.contains p.2 tid then some key else none)
    (fun st => rfl)]
  rfl

theorem loaded_kofn {n : Nat} (db : Database n) (resolved : List Nat)
    (bound : Nat) :
    kOfNQuery (loadedDB db) resolved bound = kOfNQuery db resolved bound := by
  unfold kOfNQuery
  rw [loaded_small_scan db (fun p =>
    match p.1 with
    | none => none
    | some key =>
      if kofnLoop (fun item => Smallset.contains p.2 item) bound resolved 0
      then some key else none)
    (fun st => rfl)]
  rfl

theorem resolveTerms_congr {n : Nat} {db1 db2 : Database n}
    (h : db1.terms = db2.terms) :
    ∀ ts, resolveTerms db1 ts = resolveTerms db2 ts := by
  intro ts
  induction ts with
  | nil => rfl
  | cons t ts ih =>
    show (match getTermId db1 t with
      | none => Except.error t
      | some id =>
        match resolveTerms db1 ts with
        | Except.error e => Except.error e
        | Except.ok ids => Except.ok (id :: ids)) =
      (match getTermId db2 t with
      | none => Except.error t
      | some id =>
        match resolveTerms db2 ts with
        | Except.error e => Except.error e
        | Except.ok ids => Except.ok (id :: ids))
    have hgt : getTermId db1 t = getTermId db2 t := by
      unfold getTermId
      rw [h]
    rw [hgt, ih]

theorem loaded_vertical {n : Nat} (db : Database n) (q : Query) :
    verticalQuery (loadedDB db) q = verticalQuery db q := by
  cases q with
  | Simple term =>
    have hgt : getTermId (loadedDB db) term = getTermId db term := rfl
    show (match getTermId (loadedDB db) term with
      | none => Except.error ("unknown term " ++ term)
      | some termId => Except.ok (simpleVerticalQuery (loadedDB db) termId)) =
      (match getTermId db term with
      | none => Except.error ("unknown term " ++ term)
      | some termId => Except.ok (simpleVerticalQuery db termId))
    rw [hgt]
    cases hg : getTermId db term with
    | none => rfl
    | some tid =>
      show Except.ok (simpleVerticalQuery (loadedDB db) tid) =
        Except.ok (simpleVerticalQuery db tid)
      rw [loaded_svq]
  | KofN terms bound =>
    have hres : resolveTerms (loadedDB db) terms = resolveTerms db terms :=
      resolveTerms_congr (show (loadedDB db).terms = db.terms from rfl) terms
    show (match resolveTerms (loadedDB db) terms with
      | Except.error term => Except.error term
      | Except.ok resolved =>
        Except.ok (kOfNQuery (loadedDB db) resolved bound)) =
      (match resolveTerms db terms with
      | Except.error term => Except.error term
      | Except.ok resolved => Except.ok (kOfNQuery db resolved bound))
    rw [hres]
    cases hr : resolveTerms db terms with
    | error e => rfl
    | ok resolved =>
      show Except.ok (kOfNQuery (loadedDB db) resolved bound) =
        Except.ok (kOfNQuery db resolved bound)
      rw [loaded_kofn]

theorem loaded_lookup_isSome {n : Nat} {db : Database n} (hwf : WF db)
    (k : Nat) :
    (lookupA (loadedDB db).index k).isSome ↔
      (lookupA db.index k).isSome := by
  cases hidx : lookupA db.index k with
  | none =>
    rw [loaded_lookup_none hwf hidx]
  | some loc =>
    cases loc with
    | Small i =>
      obtain ⟨j, hj, _⟩ := loaded_lookup_small hwf hidx
      rw [hj]
      exact ⟨fun _ => rfl, fun _ => rfl⟩
    | Big =>
      rw [loaded_lookup_big hwf hidx]

end ElizaDB

namespace ElizaDB

/-- C1: for every well-formed engine state — the invariant every state
reachable from the empty database by the public operations satisfies —
`load (dump state)` succeeds and is query-equivalent to the original:
horizontal_query agrees on every key, vertical_query agrees on every query
(in particular on every interned term), the free-slot list of the loaded
state is empty, the interner is unchanged, and the key set is unchanged
(only inline slot numbering may differ). -/
theorem dump_load_roundtrip_claim {n : Nat} {db : Database n} (hwf : WF db) :
    ∃ db2, load n (dump db) = some db2 ∧
      db2.terms = db.terms ∧
      db2.holes = [] ∧
      (∀ key, horizontalQuery db2 key = horizontalQuery db key) ∧
      (∀ q : Query, verticalQuery db2 q = verticalQuery db q) ∧
      (∀ k, (lookupA db2.index k).isSome ↔ (lookupA db.index k).isSome) :=
  ⟨loadedDB db, load_dump_eq hwf, rfl, rfl,
    fun key => loaded_horizontal hwf key,
    fun q => loaded_vertical db q,
    fun k => loaded_lookup_isSome hwf k⟩

/-- C1, witness at the two-tier sample state. -/
theorem dump_load_roundtrip_claim_witness :
    WF sampleDB ∧
    (∃ db2, load 8 (dump sampleDB) = some db2 ∧
      db2.terms = sampleDB.terms ∧
      db2.holes = [] ∧
      (∀ key, horizontalQuery db2 key = horizontalQuery sampleDB key) ∧
      (∀ q : Query, verticalQuery db2 q = verticalQuery sampleDB q) ∧
      (∀ k, (lookupA db2.index k).isSome ↔
        (lookupA sampleDB.index k).isSome)) :=
  ⟨by decide, dump_load_roundtrip_claim (by decide)⟩

end ElizaDB
